import Mathlib

/-!
Verification development for the combined-fields aggregation service
(`apps/api/main.py` and collaborators).  Python data is embedded shallowly:
JSON values become the inductive `JVal`, Python dicts become association
lists with replace-in-place insertion (matching CPython dict semantics:
assignment to an existing key keeps its position, new keys are appended),
and each aggregation-controller function is translated into a pure Lean
function over these types.
-/

namespace XHF

/-- Shallow embedding of a JSON value as produced by json.loads: null, bool,
string, number, array, object.  Numbers are modelled as integers (the uuid
and diagnostic fields the controller manipulates are never fractional). -/
inductive JVal where
  | null : JVal
  | bool (b : Bool) : JVal
  | str (s : String) : JVal
  | num (n : Int) : JVal
  | arr (xs : List JVal) : JVal
  | obj (kvs : List (String × JVal)) : JVal

mutual

/-- Structural equality test on JSON values (Python == on parsed JSON). -/
def jEq : JVal → JVal → Bool
  | .null, .null => true
  | .bool a, .bool b => a == b
  | .str a, .str b => a == b
  | .num a, .num b => a == b
  | .arr xs, .arr ys => jEqList xs ys
  | .obj a, .obj b => jEqPairs a b
  | _, _ => false

/-- Pointwise equality of JSON arrays. -/
def jEqList : List JVal → List JVal → Bool
  | [], [] => true
  | x :: xs, y :: ys => jEq x y && jEqList xs ys
  | _, _ => false

/-- Pointwise equality of raw JSON object entry lists. -/
def jEqPairs : List (String × JVal) → List (String × JVal) → Bool
  | [], [] => true
  | (k1, v1) :: xs, (k2, v2) :: ys => k1 == k2 && jEq v1 v2 && jEqPairs xs ys
  | _, _ => false

end

instance : BEq JVal := ⟨jEq⟩

/-- Python truthiness of a JSON value: None, False, empty string, 0, empty
list and empty dict are falsy, everything else truthy. -/
def jTruthy : JVal → Bool
  | .null => false
  | .bool b => b
  | .str s => !s.isEmpty
  | .num n => n != 0
  | .arr xs => !xs.isEmpty
  | .obj kvs => !kvs.isEmpty

/-- Embedding of Python str() restricted to the values the controller
converts (uuid keys).  Strings map to themselves; other shapes get a
deterministic rendering. -/
def jStr : JVal → String
  | .null => "None"
  | .bool true => "True"
  | .bool false => "False"
  | .str s => s
  | .num n => toString n
  | .arr _ => "<list>"
  | .obj _ => "<dict>"

/-- Association list used to model a Python dict with values of type alpha. -/
abbrev AList (α : Type) := List (String × α)

/-- First-match lookup: the value stored for a key in a dict.  All dicts
built by the model keep at most one entry per key, so this is the dict
value. -/
def aget {α : Type} : AList α → String → Option α
  | [], _ => none
  | (k0, v0) :: rest, k => if k0 = k then some v0 else aget rest k

/-- Python dict assignment d[k] = v: overwrite in place if the key exists
(keeping its position), append otherwise. -/
def ains {α : Type} : AList α → String → α → AList α
  | [], k, v => [(k, v)]
  | (k0, v0) :: rest, k, v =>
      if k0 = k then (k0, v) :: rest else (k0, v0) :: ains rest k v

/-- Last-match lookup over a raw key-value list: the value a Python dict
built from that list would hold (later duplicates win). -/
def lastLookup {α : Type} : AList α → String → Option α
  | [], _ => none
  | (k0, v0) :: rest, k =>
      match lastLookup rest k with
      | some v => some v
      | none => if k0 = k then some v0 else none

/-- Python dict-spread a ∪ b with b winning, as in the expression that
merges two dicts: fold assignment of every pair of b into a. -/
def aunion {α : Type} (a b : AList α) : AList α :=
  b.foldl (fun d kv => ains d kv.1 kv.2) a

/-- Canonical dict built from a raw key-value list (what json.loads does
with a JSON object: later duplicate keys win, first position kept). -/
def aofList {α : Type} (l : AList α) : AList α := aunion [] l

/-- Keys of a dict. -/
def akeys {α : Type} (d : AList α) : List String := d.map Prod.fst

/-- Values of a dict, in insertion order (Python dict .values()). -/
def avalues {α : Type} (d : AList α) : List α := d.map Prod.snd

/-- One loop of the merge engine: fold items through an extractor g
(returning the stringified key and a payload for valid items) and an
update function combining the previous stored value with the payload.
All three loops of the crop-season / field merge have this shape. -/
def keyedFold {γ δ β : Type} (g : γ → Option (String × δ))
    (combine : Option β → δ → β) (m : AList β) (l : List γ) : AList β :=
  l.foldl (fun m x =>
    match g x with
    | none => m
    | some (k, d) => ains m k (combine (aget m k) d)) m

/-! ### Merge engine (`_merge_crop_seasons`, `_merge_fields_v2_by_uuid`,
`_extract_farm_uuids_from_fields` in apps/api/main.py) -/

/-- Python `x is None` on an embedded JSON value. -/
def isNull : JVal → Bool
  | .null => true
  | _ => false

/-- Elements iterated by `(x or []) if isinstance(x, list) else []`: the
items of a JSON array, and nothing for any other shape. -/
def listItems : JVal → List JVal
  | .arr xs => xs
  | _ => []

/-- Python d.get(k): the stored value, or None when the key is absent. -/
def pyGetV (d : AList JVal) (k : String) : JVal := (aget d k).getD .null

/-- The guard shared by every merge loop: the item must be a dict with a
truthy "uuid"; on success return str(uuid) and the dict view of the item. -/
def keyedDict : JVal → Option (String × AList JVal)
  | .obj kvs =>
      let d := aofList kvs
      let u := pyGetV d "uuid"
      if jTruthy u then some (jStr u, d) else none
  | _ => none

/-- The "cropSeasonsV2" attribute name. -/
def csk : String := "cropSeasonsV2"

/-- First loop of `_merge_crop_seasons`: seed the output dict with a copy of
every valid season of the previous list, keyed by str(uuid). -/
def mergeCropSeasonsFirst (prevList : JVal) : AList (AList JVal) :=
  keyedFold keyedDict (fun _ d => d) [] (listItems prevList)

/-- `_merge_crop_seasons(prev_list, next_list)` as the keyed output dict:
seed from the previous list, then dict-spread every valid season of the
next list over the stored one. -/
def mergeCropSeasons (prevList nextList : JVal) : AList (AList JVal) :=
  keyedFold keyedDict (fun prev d => aunion (prev.getD []) d)
    (mergeCropSeasonsFirst prevList) (listItems nextList)

/-- Body of the per-field update in `_merge_fields_v2_by_uuid`: dict-spread
the new entity over the accumulated one, and if either side carries a
non-None "cropSeasonsV2", replace it by the recomputed season merge. -/
def entityCombine (prev fD : AList JVal) : AList JVal :=
  let combined := aunion prev fD
  let pPrev := pyGetV prev csk
  let pNext := pyGetV fD csk
  if isNull pPrev && isNull pNext then combined
  else ains combined csk (.arr ((avalues (mergeCropSeasons pPrev pNext)).map .obj))

/-- Processing one source list of `_merge_fields_v2_by_uuid`: skip non-list
sources, fold valid entities into the accumulated map keyed by str(uuid). -/
def mergeSourceStep (m : AList (AList JVal)) (src : JVal) : AList (AList JVal) :=
  keyedFold keyedDict (fun prev fD => entityCombine (prev.getD []) fD) m (listItems src)

/-- The accumulated map of `_merge_fields_v2_by_uuid` over all sources. -/
def mergeFieldsMap (fieldLists : List JVal) : AList (AList JVal) :=
  fieldLists.foldl mergeSourceStep []

/-- `_merge_fields_v2_by_uuid(field_lists)`: the merged field entities, in
first-seen uuid order. -/
def mergeFieldsV2ByUuid (fieldLists : List JVal) : List (AList JVal) :=
  avalues (mergeFieldsMap fieldLists)

/-- Python `a or b` on embedded JSON values. -/
def pyOr (a b : JVal) : JVal := if jTruthy a then a else b

/-- The owning-farm reference of a merged field entity:
`(f.get("farmV2") or f.get("farm") or {}).get("uuid")` guarded by the
isinstance-dict check. -/
def farmUuidOf (f : AList JVal) : JVal :=
  let farm := pyOr (pyGetV f "farmV2") (pyOr (pyGetV f "farm") (.obj []))
  match farm with
  | .obj kvs => pyGetV (aofList kvs) "uuid"
  | _ => .null

/-- `_extract_farm_uuids_from_fields`: de-duplicated, order-preserving list
of truthy owning-farm uuids of the given entities. -/
def extractFarmUuidsFromFields (fields : List (AList JVal)) : List String :=
  fields.foldl (fun out f =>
    let uuid := farmUuidOf f
    if jTruthy uuid then
      let key := jStr uuid
      if key ∈ out then out else out ++ [key]
    else out) []

/-- Season uuids listed under a JSON value taken as a crop-season
collection: str(uuid) of every valid (dict-shaped, truthy-uuid) season. -/
def jSeasonUuids (v : JVal) : List String :=
  (listItems v).filterMap (fun cs => (keyedDict cs).map Prod.fst)

/-- Season uuids recorded in a field entity's "cropSeasonsV2" value. -/
def seasonUuids (d : AList JVal) : List String := jSeasonUuids (pyGetV d csk)

/-- A well-formed upstream field list: the valid entities carry pairwise
distinct uuids, and each entity's crop seasons carry pairwise distinct
uuids (what one fieldsV2 response from the upstream system looks like). -/
def FieldListValid (X : JVal) : Prop :=
  (((listItems X).filterMap keyedDict).map Prod.fst).Nodup ∧
  ∀ f ∈ listItems X, ∀ u fD, keyedDict f = some (u, fD) → (seasonUuids fD).Nodup

/-! ### Chunked fan-out controller (`_chunk_list`, `_run_combined_chunk_pass`,
`_combined_fields_chunked` in apps/api/main.py).

One attempt of the single-set pipeline for a chunk is abstracted as an
environment value describing what the pass inspects: either a JSON
response with a status code and parsed body, a response of an unexpected
type, an HTTPException, or another exception.  The environment is indexed
by pass number (initial pass 0, retry round 1), the chunk's farm list and
the attempt number, so retried attempts may behave differently. -/

/-- Outcome of one awaited `_combined_fields_single(subreq)` call as seen
by `_run_combined_chunk_pass`. -/
inductive AttemptOut where
  | jsonResp (status : Int) (body : JVal)
  | otherResp (typeName : String)
  | httpExc (status : Int) (detail : String)
  | otherExc (detail : String) (excType : String)

/-- Python isinstance(x, dict). -/
def isObj : JVal → Bool
  | .obj _ => true
  | _ => false

/-- Python isinstance(x, list). -/
def isArr : JVal → Bool
  | .arr _ => true
  | _ => false

/-- Test for the JSON literal False. -/
def isFalseVal : JVal → Bool
  | .bool false => true
  | _ => false

/-- Python v.get(k) on a value known to be a dict; None on other shapes
(callers guard with isinstance). -/
def pyGetJ (v : JVal) (k : String) : JVal :=
  match v with
  | .obj kvs => pyGetV (aofList kvs) k
  | _ => .null

/-- Python v.get(k) where v may not be a dict: none models the
AttributeError raised on non-dict receivers. -/
def pyGetAttr (v : JVal) (k : String) : Option JVal :=
  match v with
  | .obj kvs => some (pyGetV (aofList kvs) k)
  | _ => none

/-- The expression
`(((parsed.get("response") or {}).get("data") or {}).get("fieldsV2") or [])`
with its possible AttributeError (none) on non-dict intermediate values. -/
def respFieldsE (parsed : JVal) : Option JVal := do
  let r1 := pyOr (pyGetJ parsed "response") (.obj [])
  let b ← pyGetAttr r1 "data"
  let r2 := pyOr b (.obj [])
  let c ← pyGetAttr r2 "fieldsV2"
  pure (pyOr c (.arr []))

/-- Error value recorded as last_error for a failing attempt. -/
inductive ChunkErr where
  | unexpectedType (typeName : String)
  | statusBody (status : Int) (body : JVal)
  | httpDetail (status : Int) (detail : String)
  | excDetail (status : Int) (detail : String) (excType : String)

/-- Classification of one attempt: the parsed body on a qualifying
success (status below 400, dict body whose "ok" is not False and whose
field list is a list), otherwise the recorded last_error value. -/
def attemptEval (o : AttemptOut) : Except ChunkErr JVal :=
  match o with
  | .otherResp t => .error (.unexpectedType t)
  | .httpExc st d => .error (.httpDetail st d)
  | .otherExc d t => .error (.excDetail 500 d t)
  | .jsonResp status body =>
      if status < 400 ∧ isObj body = true ∧ isFalseVal (pyGetJ body "ok") = false then
        match respFieldsE body with
        | some fields => if isArr fields then .ok body else .error (.statusBody status body)
        | none => .error (.excDetail 500 "attribute error" "AttributeError")
      else .error (.statusBody status body)

/-- Attempt loop of `_run_combined_chunk_pass` for one chunk, from attempt
number i with rem attempts left: first qualifying success wins, otherwise
the error of the final attempt is kept; none when zero attempts are
configured (the chunk is then neither a success nor a failure). -/
def tryChunkFrom (env : Nat → List String → Nat → AttemptOut) (passIdx : Nat)
    (chunk : List String) : Nat → Nat → Option (Except ChunkErr JVal)
  | _, 0 => none
  | i, rem + 1 =>
      match attemptEval (env passIdx chunk i) with
      | .ok p => some (.ok p)
      | .error e => if rem = 0 then some (.error e) else tryChunkFrom env passIdx chunk (i + 1) rem

/-- One chunk of `_run_combined_chunk_pass`: up to the configured number
of attempts, starting at attempt 1. -/
def tryChunk (env : Nat → List String → Nat → AttemptOut) (passIdx : Nat)
    (chunk : List String) (attempts : Nat) : Option (Except ChunkErr JVal) :=
  tryChunkFrom env passIdx chunk 1 attempts

/-- `_run_combined_chunk_pass`: drive every chunk, collecting parsed
success bodies and (chunk, last_error) failures in order. -/
def runChunkPass (env : Nat → List String → Nat → AttemptOut) (passIdx : Nat)
    (chunks : List (List String)) (attempts : Nat) :
    List JVal × List (List String × ChunkErr) :=
  chunks.foldl (fun acc chunk =>
    match tryChunk env passIdx chunk attempts with
    | some (.ok parsed) => (acc.1 ++ [parsed], acc.2)
    | some (.error e) => (acc.1, acc.2 ++ [(chunk, e)])
    | none => acc) ([], [])

/-- `_chunk_list` with a positive chunk width n + 1: contiguous,
order-preserving slices.  The fuel argument (instantiated with the item
count, an upper bound on the number of chunks) makes the recursion
structural. -/
def chunkListGo : Nat → List String → Nat → List (List String)
  | 0, _, _ => []
  | _, [], _ => []
  | fuel + 1, x :: xs, n => (x :: xs.take n) :: chunkListGo fuel (xs.drop n) n

/-- `_chunk_list(items, size)`: contiguous order-preserving slices of
width max(1, size). -/
def chunkList (items : List String) (size : Int) : List (List String) :=
  chunkListGo items.length items (max 1 size.toNat - 1)

/-- Order-preserving de-duplication (dict.fromkeys / seen-set pattern). -/
def dedupStr (l : List String) : List String :=
  l.foldl (fun acc x => if x ∈ acc then acc else acc ++ [x]) []

/-- `list(dict.fromkeys(str(u) for u in farms if u))`: the de-duplicated
requested farm uuids, dropping empty strings. -/
def requestedOf (farms : List String) : List String :=
  dedupStr (farms.filter (fun u => !u.isEmpty))

/-- Warnings copied out of the successful chunk bodies (dict-shaped
entries of each body's "warnings" list). -/
def successWarnings (successes : List JVal) : List JVal :=
  successes.flatMap (fun s => (listItems (pyGetJ s "warnings")).filter (fun w => isObj w))

/-- Outcome of both chunk passes: successes, surviving failures and the
farm uuids pushed into the retry round. -/
structure PhaseOut where
  successes : List JVal
  failures : List (List String × ChunkErr)
  retried : List String

/-- The two passes of `_combined_fields_chunked`: the initial pass over
the chunked farm list and, when some chunk failed, one retry round over
the de-duplicated failed farm uuids. -/
def chunkedPhase (env : Nat → List String → Nat → AttemptOut) (farms : List String)
    (chunkSize : Int) (attempts : Nat) : PhaseOut :=
  let p1 := runChunkPass env 0 (chunkList farms chunkSize) attempts
  if p1.2.isEmpty then ⟨p1.1, p1.2, []⟩
  else
    let failedFarms := dedupStr (p1.2.flatMap (fun q => q.1))
    if failedFarms.isEmpty then ⟨p1.1, p1.2, []⟩
    else
      let p2 := runChunkPass env 1 (chunkList failedFarms chunkSize) attempts
      ⟨p1.1 ++ p2.1, p2.2, failedFarms⟩

/-- The merged field list of the chunked controller. -/
def chunkedMergedFields (env : Nat → List String → Nat → AttemptOut)
    (farms : List String) (chunkSize : Int) (attempts : Nat) : List (AList JVal) :=
  mergeFieldsV2ByUuid
    ((chunkedPhase env farms chunkSize attempts).successes.map
      (fun s => (respFieldsE s).getD (.arr [])))

/-- Covered farm uuids extracted from the merged entities. -/
def chunkedCovered (env : Nat → List String → Nat → AttemptOut)
    (farms : List String) (chunkSize : Int) (attempts : Nat) : List String :=
  extractFarmUuidsFromFields (chunkedMergedFields env farms chunkSize attempts)

/-- Requested farm uuids not covered by the merged entities, in request
order. -/
def chunkedMissing (env : Nat → List String → Nat → AttemptOut)
    (farms : List String) (chunkSize : Int) (attempts : Nat) : List String :=
  (requestedOf farms).filter (fun u => u ∉ chunkedCovered env farms chunkSize attempts)

/-- Diagnostics block of the chunked controller's response. -/
structure ChunkedDiag where
  requestedFarmCount : Nat
  coveredFarmCount : Nat
  missingFarmUuids : List String
  retriedFailedFarmUuids : List String
  deriving DecidableEq

/-- One entry of the chunked response's warnings list. -/
inductive ChunkedWarn where
  | fromChunk (w : JVal)
  | boundaryOmitted
  | subOmitted
  | chunkedPartial (failedChunks : Nat)
  | failedRetried (farms : List String)
  | missingFarms (farms : List String)

/-- Detail payload of the two HTTPException raises of the chunked
controller. -/
inductive ChunkedErrDetail where
  | allChunksFailed (failedChunks : List (List String × ChunkErr))
  | incomplete (failedChunks : List (List String × ChunkErr)) (partialFields : Nat)
      (missing : List String) (retried : List String)

/-- Successful JSON body of the chunked controller.  The request echo and
warmup fields, which depend only on the request and the warmup
collaborator, are not modelled. -/
structure ChunkedOut where
  okFlag : Bool
  status : Int
  source : String
  diagnostics : ChunkedDiag
  fields : List (AList JVal)
  warnings : List ChunkedWarn

/-- Result of `_combined_fields_chunked`: an HTTPException or a JSON body. -/
inductive ChunkedResult where
  | err (status : Int) (detail : ChunkedErrDetail)
  | ok (out : ChunkedOut)

/-- Warnings list of the chunked response: warnings copied from the
successful chunk bodies, then the boundary / sub-response omission notes,
the partial-fetch note, the retried-farms note and the missing-farms
note, in that order. -/
def chunkedWarns (env : Nat → List String → Nat → AttemptOut) (farms : List String)
    (includeSubResponses withBoundarySvg : Bool) (chunkSize : Int) (attempts : Nat) :
    List ChunkedWarn :=
  let ph := chunkedPhase env farms chunkSize attempts
  let missing := chunkedMissing env farms chunkSize attempts
  (successWarnings ph.successes).map ChunkedWarn.fromChunk
    ++ (if withBoundarySvg then [.boundaryOmitted] else [])
    ++ (if includeSubResponses then [.subOmitted] else [])
    ++ (if !ph.failures.isEmpty then [.chunkedPartial ph.failures.length] else [])
    ++ (if !ph.retried.isEmpty then [.failedRetried (ph.retried.take 100)] else [])
    ++ (if !missing.isEmpty then [.missingFarms (missing.take 100)] else [])

/-- The successful JSON body of the chunked controller. -/
def chunkedOkBody (env : Nat → List String → Nat → AttemptOut) (farms : List String)
    (includeSubResponses withBoundarySvg : Bool) (chunkSize : Int) (attempts : Nat) :
    ChunkedOut :=
  let ph := chunkedPhase env farms chunkSize attempts
  let missing := chunkedMissing env farms chunkSize attempts
  let hasIncomplete := !ph.failures.isEmpty || !missing.isEmpty
  { okFlag := !hasIncomplete
    status := if hasIncomplete then 206 else 200
    source := "api"
    diagnostics := {
      requestedFarmCount := (requestedOf farms).length
      coveredFarmCount := (chunkedCovered env farms chunkSize attempts).length
      missingFarmUuids := missing.take 100
      retriedFailedFarmUuids := ph.retried.take 100 }
    fields := chunkedMergedFields env farms chunkSize attempts
    warnings := chunkedWarns env farms includeSubResponses withBoundarySvg chunkSize attempts }

/-- `_combined_fields_chunked` after the two passes: fail when nothing
succeeded; merge, diff covered against requested, build warnings; fail
in strict (requireComplete) mode on any failure or missing farm; report
partial content (206, ok false) or full success (200, ok true). -/
def chunkedController (env : Nat → List String → Nat → AttemptOut)
    (farms : List String) (requireComplete includeSubResponses withBoundarySvg : Bool)
    (chunkSize : Int) (attempts : Nat) : ChunkedResult :=
  let ph := chunkedPhase env farms chunkSize attempts
  if ph.successes.isEmpty then .err 502 (.allChunksFailed (ph.failures.take 50))
  else
    let missing := chunkedMissing env farms chunkSize attempts
    if requireComplete && (!ph.failures.isEmpty || !missing.isEmpty) then
      .err 502 (.incomplete (ph.failures.take 50)
        (chunkedMergedFields env farms chunkSize attempts).length
        (missing.take 100) (ph.retried.take 100))
    else
      .ok (chunkedOkBody env farms includeSubResponses withBoundarySvg chunkSize attempts)

/-- Projection to the success body of a chunked result. -/
def chunkedOutOf : ChunkedResult → Option ChunkedOut
  | .ok o => some o
  | .err _ _ => none

/-- Projection to the diagnostics block of a chunked result. -/
def chunkedDiagOf (r : ChunkedResult) : Option ChunkedDiag :=
  (chunkedOutOf r).map (fun o => o.diagnostics)

/-! Concrete environments used by counterexamples and witnesses. -/

/-- A well-shaped ok body with the given field list. -/
def okBodyOf (fields : List JVal) : JVal :=
  .obj [("ok", .bool true),
        ("response", .obj [("data", .obj [("fieldsV2", .arr fields)])])]

/-- A minimal field entity owned by the given farm. -/
def fieldWithFarm (fu farm : String) : JVal :=
  .obj [("uuid", .str fu), ("farmV2", .obj [("uuid", .str farm)])]

/-- Upstream that answers every chunk with two fields owned by farms the
caller never asked for. -/
def envOverrun : Nat → List String → Nat → AttemptOut := fun _ _ _ =>
  .jsonResp 200 (okBodyOf [fieldWithFarm "f1" "x", fieldWithFarm "f2" "y"])

/-- Upstream that answers every chunk with an empty field list. -/
def envNoFields : Nat → List String → Nat → AttemptOut := fun _ _ _ =>
  .jsonResp 200 (okBodyOf [])

/-- Upstream that fails every attempt with an HTTPException. -/
def envBoom : Nat → List String → Nat → AttemptOut := fun _ _ _ =>
  .httpExc 500 "boom"

/-- Upstream whose field list contains one entity lacking a uuid key. -/
def envWithBadEntity : Nat → List String → Nat → AttemptOut := fun _ _ _ =>
  .jsonResp 200 (okBodyOf [fieldWithFarm "f1" "a", .obj [("x", .num 1)]])

/-- The same upstream without the uuid-less entity. -/
def envWithoutBadEntity : Nat → List String → Nat → AttemptOut := fun _ _ _ =>
  .jsonResp 200 (okBodyOf [fieldWithFarm "f1" "a"])

/-- A one-entity valid field list used to witness merge idempotence. -/
def idemX : JVal := .arr [.obj [("uuid", .str "a"), ("x", .num 1)]]

/-! ### Single-set pipeline (`_combined_fields_single`, non-stream path).

Upstream envelopes are modelled as a structure carrying the fields this
pipeline inspects: ok, status, source, the request echo (reduced to its
url, the only field read back), the "response" value and the embedded
`_sub_responses` map.  One upstream call is a (duration, outcome) pair;
elapsed time is integral.  The external collaborators (location
enrichment, warmup) enter as parameters. -/

/-- The request echo of an envelope, reduced to what
`_combined_fields_single` reads back when building its response: the url
value and whether a headers dict is present (both are indexed directly,
so their absence is a KeyError). -/
structure ReqInfo where
  url : Option String
  headersOk : Bool
  deriving DecidableEq

/-- An upstream envelope / cached response body. -/
inductive Env0 where
  | mk (ok : Option Bool) (status : Option Int) (source : Option String)
      (request : Option ReqInfo) (response : Option JVal)
      (subs : Option (List (String × Env0)))

/-- The envelope's "ok" value. -/
def Env0.ok : Env0 → Option Bool
  | .mk o _ _ _ _ _ => o

/-- The envelope's "status" value. -/
def Env0.status : Env0 → Option Int
  | .mk _ s _ _ _ _ => s

/-- The envelope's "source" value. -/
def Env0.source : Env0 → Option String
  | .mk _ _ s _ _ _ => s

/-- The envelope's "request" value. -/
def Env0.request : Env0 → Option ReqInfo
  | .mk _ _ _ r _ _ => r

/-- The envelope's "response" value. -/
def Env0.response : Env0 → Option JVal
  | .mk _ _ _ _ r _ => r

/-- The envelope's embedded "_sub_responses" map. -/
def Env0.subs : Env0 → Option (List (String × Env0))
  | .mk _ _ _ _ _ s => s

/-- Replace the envelope's "response" value. -/
def Env0.withResponse : Env0 → JVal → Env0
  | .mk o s so r _ su, resp => .mk o s so r (some resp) su

/-- Outcome of awaiting one `call_graphql` coroutine: an envelope, or an
exception. -/
inductive CallOut where
  | ret (e : Env0)
  | exc (msg : String)

/-- One upstream call: how long it runs and what it produces. -/
structure CallSpec where
  duration : Int
  out : CallOut

/-- A value of the `fetched` map: an envelope, a propagated exception, a
wait_for timeout, or the budget-expiry TimeoutError recorded without
issuing the call. -/
inductive FetchRes where
  | env (e : Env0)
  | excGeneral (msg : String)
  | excTimeout (label : String)
  | excBudget (label : String)

/-- `_is_error`: an Exception, or a dict whose ok is False. -/
def isErrRes : FetchRes → Bool
  | .env e =>
      match e.ok with
      | some false => true
      | _ => false
  | _ => true

/-- `_is_error(fetched.get(l))`: None is not an error. -/
def isErrOpt : Option FetchRes → Bool
  | some r => isErrRes r
  | none => false

/-- isinstance(x, Exception) on a fetched value. -/
def isExcRes : FetchRes → Bool
  | .env _ => false
  | _ => true

/-- The labels of request_configs, in dict-literal order; the two task
labels exist only when includeTasks is set. -/
def configLabels (includeTasks : Bool) : List String :=
  ["base", "insights", "predictions", "risk1", "risk2"]
    ++ (if includeTasks then ["tasks", "tasks_sprayings"] else [])

/-- The only conditional spec: tasks_sprayings applies when the request
asks for sprayings. -/
def labelApplicable (withSprayingsV2 : Bool) (l : String) : Bool :=
  l != "tasks_sprayings" || withSprayingsV2

/-- Labels whose condition holds for this request. -/
def applicableLabels (includeTasks withSprayingsV2 : Bool) : List String :=
  (configLabels includeTasks).filter (labelApplicable withSprayingsV2)

/-- Labels whose config is marked optional: every non-base config. -/
def optionalWithTimeout (includeTasks : Bool) (l : String) : Bool :=
  (configLabels includeTasks).contains l && l != "base"

/-- The request parameters the single pipeline branches on. -/
structure SReq where
  includeTasks : Bool
  withSprayingsV2 : Bool
  withBoundarySvg : Bool
  includeTokens : Bool
  includeSubResponses : Bool

/-- Preparing one cached envelope: mark it cache-sourced and default its
request echo (setdefault adds a payload-only echo without url or
headers). -/
def prepareCached (e : Env0) : Env0 :=
  .mk e.ok e.status (some "cache") (some (e.request.getD ⟨none, false⟩))
    e.response e.subs

/-- The guard of the prepared-cache loop: keep a hit unless its ok is
literally False. -/
def cacheGuard (cacheLookup : String → Option Env0) (l : String) :
    Option (String × Env0) :=
  match cacheLookup l with
  | none => none
  | some c =>
      match c.ok with
      | some false => none
      | _ => some (l, prepareCached c)

/-- The prepared cache: cache hits with usable ok for every applicable
label. -/
def preparedCache (req : SReq) (cacheLookup : String → Option Env0) : AList Env0 :=
  keyedFold (cacheGuard cacheLookup) (fun _ c => c) []
    (applicableLabels req.includeTasks req.withSprayingsV2)

/-- Reuse of sub-responses embedded in a combined-fields cache hit under
the tasks label: fill base / insights / predictions and replace tasks. -/
def subsFill (req : SReq) (cacheLookup : String → Option Env0)
    (pc : AList Env0) : AList Env0 :=
  let tc :=
    match aget pc "tasks" with
    | some c => some c
    | none =>
        if "tasks" ∈ applicableLabels req.includeTasks req.withSprayingsV2 then
          cacheLookup "tasks"
        else none
  match tc with
  | none => pc
  | some c =>
      match c.subs with
      | none => pc
      | some subsL =>
          if subsL.isEmpty then pc
          else
            ["base", "insights", "predictions", "tasks"].foldl (fun acc key =>
              match aget subsL key with
              | none => acc
              | some sub =>
                  if !(akeys acc).contains key || key == "tasks" then ains acc key sub
                  else acc) pc

/-- The fetch plan: base first when it is not cached, then every
applicable non-cached label (base enters twice when uncached; the
awaited plan map de-duplicates by label). -/
def fetchPlanLabels (req : SReq) (pc : AList Env0) : List String :=
  (if "base" ∈ akeys pc then [] else ["base"])
    ++ (applicableLabels req.includeTasks req.withSprayingsV2).filter
        (fun l => !(akeys pc).contains l)

/-- A record of one issued upstream call. -/
inductive CallRecord where
  | first (label : String)
  | baseRetry
  | insightsRetry (attempt : Nat)
  deriving DecidableEq

/-- State of the scheduler: elapsed time since start_t, the fetched map
and the calls issued so far. -/
structure SchedState where
  now : Int
  fetched : AList FetchRes
  calls : List CallRecord

/-- asyncio.wait_for on one call: the call's own outcome after its
duration when it fits the timeout, a TimeoutError after the timeout
otherwise. -/
def waitFor (spec : CallSpec) (timeout : Int) (label : String) : Int × FetchRes :=
  if spec.duration ≤ timeout then
    (spec.duration,
      match spec.out with
      | .ret e => .env e
      | .exc m => .excGeneral m)
  else (timeout, .excTimeout label)

/-- The critical base fetch: wait up to the base timeout, and on an
exception retry once without boundary when boundary was requested. -/
def baseFetch (req : SReq) (plan : List String) (callEnv : String → CallSpec)
    (baseRetrySpec : CallSpec) (baseTimeout : Int) (st0 : SchedState) : SchedState :=
  if "base" ∈ plan then
    let r1 := waitFor (callEnv "base") baseTimeout "base"
    let st1 : SchedState :=
      ⟨st0.now + r1.1, ains st0.fetched "base" r1.2, st0.calls ++ [.first "base"]⟩
    if isExcRes r1.2 && req.withBoundarySvg then
      let r2 := waitFor baseRetrySpec (max baseTimeout 60) "base"
      ⟨st1.now + r2.1, ains st1.fetched "base" r2.2, st1.calls ++ [.baseRetry]⟩
    else st1
  else st0

/-- One iteration of the optional dispatch loop: skip base, non-planned
and condition-false labels; when the shared budget is spent record a
TimeoutError without issuing the call (for the flagged optional labels),
otherwise wait_for the call on the remaining budget. -/
def optionalStep (req : SReq) (plan : List String) (callEnv : String → CallSpec)
    (optTimeout : Int) (st : SchedState) (l : String) : SchedState :=
  if l == "base" then st
  else if l ∉ plan then st
  else if !(labelApplicable req.withSprayingsV2 l) then st
  else
    let remaining := optTimeout - st.now
    if remaining ≤ 0 then
      if optionalWithTimeout req.includeTasks l then
        ⟨st.now, ains st.fetched l (.excBudget l), st.calls⟩
      else
        let spec := callEnv l
        ⟨st.now + spec.duration,
          ains st.fetched l
            (match spec.out with
             | .ret e => .env e
             | .exc m => .excGeneral m),
          st.calls ++ [.first l]⟩
    else
      let spec := callEnv l
      let r := waitFor spec remaining l
      ⟨st.now + r.1, ains st.fetched l r.2, st.calls ++ [.first l]⟩

/-- The optional dispatch loop over the config labels. -/
def optionalLoop (req : SReq) (plan : List String) (callEnv : String → CallSpec)
    (optTimeout : Int) (labels : List String) (st : SchedState) : SchedState :=
  labels.foldl (optionalStep req plan callEnv optTimeout) st

/-- The dedicated insights retry: up to two attempts, first success wins,
otherwise the exception of the second attempt. -/
def insightsRetryLoop (retryEnv : Nat → CallOut) : FetchRes × List CallRecord :=
  match retryEnv 1 with
  | .ret e => (.env e, [.insightsRetry 1])
  | .exc _ =>
      match retryEnv 2 with
      | .ret e => (.env e, [.insightsRetry 1, .insightsRetry 2])
      | .exc m2 => (.excGeneral m2, [.insightsRetry 1, .insightsRetry 2])

/-- The whole fetch stage: base first, then the budgeted optional loop
(nothing when the plan is empty), then the budget-independent insights
retry whenever insights is uncached and its entry is an error. -/
def singleFetchStage (req : SReq) (pc : AList Env0) (callEnv : String → CallSpec)
    (baseRetrySpec : CallSpec) (insightsRetryEnv : Nat → CallOut)
    (baseTimeout optTimeout : Int) : AList FetchRes × List CallRecord :=
  let plan := fetchPlanLabels req pc
  let st :=
    if plan.isEmpty then (⟨0, [], []⟩ : SchedState)
    else
      optionalLoop req plan callEnv optTimeout (configLabels req.includeTasks)
        (baseFetch req plan callEnv baseRetrySpec baseTimeout ⟨0, [], []⟩)
  if !(akeys pc).contains "insights" && isErrOpt (aget st.fetched "insights") then
    let r := insightsRetryLoop insightsRetryEnv
    (ains st.fetched "insights" r.1, st.calls ++ r.2)
  else (st.fetched, st.calls)

/-! ### Post-processing: diagnostics, error branch, payload merges, out. -/

/-- Python d[k] on an arbitrary value: the stored value when the receiver
is a dict holding the key, otherwise the KeyError / TypeError. -/
def pyIndex : JVal → String → Option JVal
  | .obj kvs, k => aget (aofList kvs) k
  | _, _ => none

/-- Assignment d[k] = v through a JSON value (no-op mutation is
impossible on non-dicts along the paths where this is used). -/
def jSet (v : JVal) (k : String) (newv : JVal) : JVal :=
  match v with
  | .obj kvs => .obj (ains (aofList kvs) k newv)
  | _ => v

/-- Lookup in a Python dict keyed by raw JSON values. -/
def jaget {α : Type} : List (JVal × α) → JVal → Option α
  | [], _ => none
  | (k0, v0) :: rest, k => if jEq k0 k then some v0 else jaget rest k

/-- Assignment in a Python dict keyed by raw JSON values: overwrite in
place, append otherwise. -/
def jains {α : Type} : List (JVal × α) → JVal → α → List (JVal × α)
  | [], k, v => [(k, v)]
  | (k0, v0) :: rest, k, v =>
      if jEq k0 k then (k0, v) :: rest else (k0, v0) :: jains rest k v

/-- Option-valued map over a list: none as soon as one element fails
(the first exception aborts the whole statement). -/
def omap {α β : Type} (f : α → Option β) : List α → Option (List β)
  | [] => some []
  | a :: as =>
      match f a with
      | none => none
      | some b =>
          match omap f as with
          | none => none
          | some bs => some (b :: bs)

/-- Option-valued left fold: none as soon as one step fails. -/
def ofoldl {α β : Type} (f : β → α → Option β) : β → List α → Option β
  | b, [] => some b
  | b, a :: as =>
      match f b a with
      | none => none
      | some b2 => ofoldl f b2 as

/-- A `{cs_key: cs for cs in seasons}` comprehension keeps, per key, the
LAST season carrying it, and `.update` mutates exactly that dict.  This
rebuilds the season list applying `upd` to the chosen occurrences only:
a right fold marks the last occurrence of each key. -/
def updateChosenGo (keyOf : AList JVal → Option JVal)
    (upd : JVal → AList JVal → AList JVal) :
    List (AList JVal) → List JVal × List (AList JVal)
  | [] => ([], [])
  | cd :: rest =>
      let acc := updateChosenGo keyOf upd rest
      match keyOf cd with
      | none => (acc.1, cd :: acc.2)
      | some cu =>
          if acc.1.any (fun s => jEq s cu) then (cu :: acc.1, cd :: acc.2)
          else (cu :: acc.1, upd cu cd :: acc.2)

/-- The rebuilt season list (see `updateChosenGo`: the first component
collects the keys seen to the right, so the chosen occurrence of a key
is the rightmost). -/
def updateChosen (keyOf : AList JVal → Option JVal)
    (upd : JVal → AList JVal → AList JVal) (csDs : List (AList JVal)) :
    List (AList JVal) :=
  (updateChosenGo keyOf upd csDs).2

/-- The dict view of a JSON value required by iteration bodies that call
methods on it (AttributeError — none — on non-dicts). -/
def objDict : JVal → Option (AList JVal)
  | .obj kvs => some (aofList kvs)
  | _ => none

/-- `{f["uuid"]: f for f in ds if f.get("uuid")}`: the truthy-uuid keyed
map of a list of dicts (later entries win). -/
def uuidMapOf (ds : List (AList JVal)) : List (JVal × AList JVal) :=
  ds.foldl (fun m d =>
    let u := pyGetV d "uuid"
    if jTruthy u then jains m u d else m) []

/-- The per-field season update of `_merge_cropseason_payload`: the core
season map filters for truthy uuids, and each extra season with a truthy
uuid present in the map is merged over the chosen core season. -/
def mcpUpdateField (exDs : List (AList JVal)) (csDs : List (AList JVal)) :
    List (AList JVal) :=
  updateChosen
    (fun cd => let cu := pyGetV cd "uuid"; if jTruthy cu then some cu else none)
    (fun cu cd =>
      exDs.foldl (fun acc ud =>
        let uu := pyGetV ud "uuid"
        if jTruthy uu && jEq uu cu then aunion acc ud else acc) cd)
    csDs

/-- One core field of the `_merge_cropseason_payload` loop: fields with
a falsy uuid or without a counterpart in the extra map pass through;
otherwise the field's season list is rebuilt with the extra seasons
merged in.  none models an exception inside the try block (the caller
then returns core unchanged; the partial in-place updates a mid-loop
exception leaves behind are not modelled). -/
def mcpFieldPhi (extraMap : List (JVal × AList JVal)) (f : JVal) :
    Option JVal :=
  match f with
  | .obj kvs =>
      let fD := aofList kvs
      let fu := pyGetV fD "uuid"
      if !jTruthy fu then some f
      else
        match jaget extraMap fu with
        | none => some f
        | some exD =>
            match (aget fD "cropSeasonsV2").getD (.arr []) with
            | .arr coreItems =>
                match omap objDict coreItems with
                | none => none
                | some coreDs =>
                    match (aget exD "cropSeasonsV2").getD (.arr []) with
                    | .arr exItems =>
                        match omap objDict exItems with
                        | none => none
                        | some exDs =>
                            match aget fD "cropSeasonsV2" with
                            | none => some f
                            | some _ =>
                                some (.obj (ains fD "cropSeasonsV2"
                                  (.arr ((mcpUpdateField exDs coreDs).map .obj))))
                    | _ => none
            | _ => none
  | _ => none

/-- The field loop of the `_merge_cropseason_payload` try block. -/
def mcpFields (coreFields extraFields : List JVal) : Option (List JVal) :=
  match omap objDict extraFields with
  | none => none
  | some extraDs => omap (mcpFieldPhi (uuidMapOf extraDs)) coreFields

/-- `_merge_cropseason_payload`: falsy extra keeps core, falsy core takes
extra, and otherwise season-level data from extra is merged into core's
fields, any exception falling back to core unchanged. -/
def mergeCropseasonPayload (core extra : Option Env0) : Option Env0 :=
  match extra with
  | none => core
  | some ex =>
      match core with
      | none => some ex
      | some co =>
          let attempt : Option Env0 :=
            match co.response with
            | none => none
            | some respC =>
                match pyIndex respC "data" with
                | none => none
                | some dC =>
                    match pyIndex dC "fieldsV2" with
                    | some (.arr coreFields) =>
                        match ex.response with
                        | none => none
                        | some respE =>
                            match pyIndex respE "data" with
                            | none => none
                            | some dE =>
                                match pyIndex dE "fieldsV2" with
                                | some (.arr extraFields) =>
                                    match mcpFields coreFields extraFields with
                                    | none => none
                                    | some newFields =>
                                        some (co.withResponse
                                          (jSet respC "data"
                                            (jSet dC "fieldsV2" (.arr newFields))))
                                | _ => none
                    | _ => none
          match attempt with
          | some co2 => some co2
          | none => some co

/-- One field_update of a `merge_fields_data` source pass: index the
update's uuid (KeyError when absent), skip uuids outside the base map,
and when the update carries a truthy cropSeasonsV2 list merge each
update season over the last core season holding the same raw uuid
(`cs_map[cs_update['uuid']].update(cs_update)`; both comprehensions
index 'uuid' directly, so a season without it is a KeyError). -/
def mfdFieldStep (mm : List (JVal × AList JVal)) (fu : JVal) :
    Option (List (JVal × AList JVal)) :=
  match fu with
  | .obj k =>
      let fuD := aofList k
      match aget fuD "uuid" with
      | none => none
      | some uval =>
          match jaget mm uval with
          | none => some mm
          | some coreD =>
              if (aget fuD "cropSeasonsV2").isSome
                  && jTruthy (pyGetV fuD "cropSeasonsV2") then
                match (aget coreD "cropSeasonsV2").getD (.arr []) with
                | .arr coreItems =>
                    match omap objDict coreItems with
                    | none => none
                    | some coreDs =>
                        match omap (fun cd => aget cd "uuid") coreDs with
                        | none => none
                        | some _ =>
                            match pyGetV fuD "cropSeasonsV2" with
                            | .arr upItems =>
                                match omap objDict upItems with
                                | none => none
                                | some upDs =>
                                    match omap (fun ud => aget ud "uuid") upDs with
                                    | none => none
                                    | some _ =>
                                        let newCs := updateChosen
                                          (fun cd => aget cd "uuid")
                                          (fun cu cd =>
                                            upDs.foldl (fun acc ud =>
                                              match aget ud "uuid" with
                                              | some uu =>
                                                  if jEq uu cu then aunion acc ud
                                                  else acc
                                              | none => acc) cd)
                                          coreDs
                                        match aget coreD "cropSeasonsV2" with
                                        | none => some mm
                                        | some _ =>
                                            some (jains mm uval
                                              (ains coreD "cropSeasonsV2"
                                                (.arr (newCs.map .obj))))
                            | _ => none
                | _ => none
              else some mm
  | _ => none

/-- One source pass of `merge_fields_data`: skip falsy sources or
sources without truthy data.fieldsV2, crash (none) on the
AttributeError / TypeError paths, and fold the update fields through
the base map. -/
def mfdApplySource (m : List (JVal × AList JVal)) (src : Option JVal) :
    Option (List (JVal × AList JVal)) :=
  match src with
  | none => some m
  | some sv =>
      if !jTruthy sv then some m
      else
        match pyGetAttr sv "data" with
        | none => none
        | some dv =>
            if !jTruthy dv then some m
            else
              match pyGetAttr dv "fieldsV2" with
              | none => none
              | some fv =>
                  if !jTruthy fv then some m
                  else
                    match fv with
                    | .arr items => ofoldl mfdFieldStep m items
                    | _ => none

/-- `{field['uuid']: field for field in ...}` entry: the raw uuid value
(KeyError when absent) paired with the field's dict view. -/
def uuidPairOf (f : JVal) : Option (JVal × AList JVal) :=
  match f with
  | .obj kvs => (aget (aofList kvs) "uuid").map (fun u => (u, aofList kvs))
  | _ => none

/-- `merge_fields_data`: build the base fields map (raw-uuid keyed,
direct indexing), fold the three optional sources through it, then
enrich every merged field.  Error carries the crash reason. -/
def mergeFieldsData (baseData : JVal) (ins pred tasks : Option JVal)
    (enrich : AList JVal → AList JVal) :
    Except String (List (AList JVal)) :=
  match pyIndex baseData "data" with
  | none => .error "base data unavailable"
  | some d =>
      match pyIndex d "fieldsV2" with
      | some (.arr bl) =>
          match omap uuidPairOf bl with
          | none => .error "field uuid unavailable"
          | some pairs =>
              let fmap0 := pairs.foldl (fun m p => jains m p.1 p.2)
                ([] : List (JVal × AList JVal))
              match ofoldl mfdApplySource fmap0 [ins, pred, tasks] with
              | none => .error "source merge crashed"
              | some m => .ok ((m.map Prod.snd).map enrich)
      | _ => .error "base fieldsV2 unavailable"

/-- Summary of one sub-query outcome (`_summarize_response`, reduced to
the fields the envelope model carries). -/
inductive Summary where
  | missing (label : String)
  | fromExc (label : String) (msg : String)
  | fromEnv (label : String) (ok : Option Bool) (status : Option Int)
      (source : Option String)

/-- Render a fetched value for `_summarize_response`. -/
def summarize (label : String) (r : Option FetchRes) : Summary :=
  match r with
  | none => .missing label
  | some (.env e) => .fromEnv label e.ok e.status e.source
  | some (.excGeneral m) => .fromExc label m
  | some (.excTimeout l) => .fromExc label (l ++ " wait timed out")
  | some (.excBudget l) => .fromExc label (l ++ " timed out (budget)")

/-- The labels the diagnostics dict covers: base, insights, predictions,
and tasks when tasks are requested. -/
def diagLabels (includeTasks : Bool) : List String :=
  ["base", "insights", "predictions"] ++ (if includeTasks then ["tasks"] else [])

/-- The diagnostics dict: per covered label, the summary of the prepared
cache entry, else the fetched value, else the raw cache hit. -/
def diagnosticsOf (req : SReq) (cacheLookup : String → Option Env0)
    (pc : AList Env0) (fetched : AList FetchRes) : List (String × Summary) :=
  (diagLabels req.includeTasks).map (fun l =>
    (l, summarize l
      (match aget pc l with
       | some e => some (.env e)
       | none =>
           match aget fetched l with
           | some fr => some fr
           | none =>
               (if l ∈ applicableLabels req.includeTasks req.withSprayingsV2 then
                  cacheLookup l
                else none).map .env)))

/-- errors_by_label source: `{**prepared_cache, **fetched}`. -/
def combinedMap (pc : AList Env0) (fetched : AList FetchRes) : AList FetchRes :=
  aunion (pc.map (fun p => (p.1, FetchRes.env p.2))) fetched

/-- `prepared_cache.get(l) or fetched.get(l)` (prepared envelopes are
never falsy). -/
def candOf (pc : AList Env0) (fetched : AList FetchRes) (l : String) :
    Option FetchRes :=
  match aget pc l with
  | some e => some (.env e)
  | none => aget fetched l

/-- An optional-source candidate: a dict whose ok is not literally
False, anything else collapsing to None. -/
def candValid (pc : AList Env0) (fetched : AList FetchRes) (l : String) :
    Option Env0 :=
  match candOf pc fetched l with
  | some (.env e) =>
      match e.ok with
      | some false => none
      | _ => some e
  | _ => none

/-- str(err) for a fetched error, up to the exact exception rendering. -/
def errStr : FetchRes → String
  | .env _ => "error envelope"
  | .excGeneral m => m
  | .excTimeout l => l ++ " wait timed out"
  | .excBudget l => l ++ " timed out (budget)"

/-- One warning entry of the single pipeline. -/
inductive SingleWarn where
  | insightsUnavailable (detail : String)
  | predictionsUnavailable (detail : String)
  | tasksUnavailable (detail : String)
  | tasksSprayingsUnavailable (detail : String)
  | riskRecommendationsUnavailable (detail : String)
  | riskStatusUnavailable (detail : String)
  deriving DecidableEq

/-- The warnings loop: walk the optional-label errors of
`{**prepared_cache, **fetched}` and warn for each source that ended up
without a usable candidate. -/
def singleWarnings (req : SReq) (fm : AList FetchRes)
    (insightsRes predictionsRes tasksRes tasksSprRes risk1Res risk2Res :
      Option Env0) : List SingleWarn :=
  let optLabels := (configLabels req.includeTasks).filter (fun l => l != "base")
  (fm.filter (fun p => isErrRes p.2 && optLabels.contains p.1)).foldl
    (fun acc p =>
      acc
        ++ (if p.1 == "insights" && insightsRes.isNone then
              [.insightsUnavailable (errStr p.2)] else [])
        ++ (if p.1 == "predictions" && predictionsRes.isNone then
              [.predictionsUnavailable (errStr p.2)] else [])
        ++ (if p.1 == "tasks" && tasksRes.isNone then
              [.tasksUnavailable (errStr p.2)] else [])
        ++ (if p.1 == "tasks_sprayings" && tasksSprRes.isNone then
              [.tasksSprayingsUnavailable (errStr p.2)] else [])
        ++ (if p.1 == "risk1" && risk1Res.isNone then
              [.riskRecommendationsUnavailable (errStr p.2)] else [])
        ++ (if p.1 == "risk2" && risk2Res.isNone then
              [.riskStatusUnavailable (errStr p.2)] else [])) []

/-- The successful response body of the single pipeline (the request
echo, warmup echo and sub-response duplication are outward plumbing
independent of the merged payload and are not modelled). -/
structure SingleOut where
  ok : Bool
  status : Int
  source : String
  fields : List (AList JVal)
  warnings : List SingleWarn

/-- Outcome of the single pipeline: a raised HTTPException with
diagnostics, an error body with diagnostics and the plan labels, the
base-missing 500, an unhandled post-processing crash (FastAPI 500), or
the success body.  Neither error outcome carries merged fields. -/
inductive SingleResult where
  | raised (status : Int) (reason : String) (diag : List (String × Summary))
  | errBody (status : Int) (reason : String) (diag : List (String × Summary))
      (fetchPlan : List String)
  | baseMissing
  | crashed (what : String)
  | success (out : SingleOut)

/-- `prepared_cache.get(l) or fetched.get(l)` without the ok filter (the
base candidate): an envelope passes through, an exception is falsy-like
only through later crashes and is collapsed to None here since the
critical check has already excluded it. -/
def candRaw (pc : AList Env0) (fetched : AList FetchRes) (l : String) :
    Option Env0 :=
  match candOf pc fetched l with
  | some (.env e) => some e
  | _ => none

/-- The embedded sub-response reuse of lines 1659-1664: when the tasks
candidate carries a truthy _sub_responses dict, base / insights /
predictions fall back to it and tasks is replaced by its tasks entry. -/
def subsReuse (baseRes0 insightsRes0 predictionsRes0 tasksRes0 : Option Env0) :
    Option Env0 × Option Env0 × Option Env0 × Option Env0 :=
  match tasksRes0 with
  | some t =>
      match t.subs with
      | some subsL =>
          if subsL.isEmpty then (baseRes0, insightsRes0, predictionsRes0, some t)
          else
            (match baseRes0 with
             | some b => some b
             | none => aget subsL "base",
             match insightsRes0 with
             | some i => some i
             | none => aget subsL "insights",
             match predictionsRes0 with
             | some p => some p
             | none => aget subsL "predictions",
             match aget subsL "tasks" with
             | some t2 => some t2
             | none => some t)
      | none => (baseRes0, insightsRes0, predictionsRes0, some t)
  | none => (baseRes0, insightsRes0, predictionsRes0, none)

/-- `x['response'] if x else None`: None passes through, an envelope
must carry its response key (KeyError otherwise). -/
def optRespOf (r : Option Env0) : Option (Option JVal) :=
  match r with
  | none => some none
  | some e =>
      match e.response with
      | some v => some (some v)
      | none => none

/-- The success-side post-processing: candidates, embedded sub-response
reuse, warnings, crop-season payload merges, the field merge and the
response body (the forced location-warmup re-enrichment is a no-op for
idempotent enrichment and is not modelled). -/
def singlePost (req : SReq) (pc : AList Env0) (fetched : AList FetchRes)
    (plan : List String) (enrich : AList JVal → AList JVal) : SingleResult :=
  let fm := combinedMap pc fetched
  let tasksSprRes := candValid pc fetched "tasks_sprayings"
  let risk1Res := candValid pc fetched "risk1"
  let risk2Res := candValid pc fetched "risk2"
  let four := subsReuse (candRaw pc fetched "base")
    (candValid pc fetched "insights") (candValid pc fetched "predictions")
    (candValid pc fetched "tasks")
  match four.1 with
  | none => .baseMissing
  | some be =>
      let warns := singleWarnings req fm four.2.1 four.2.2.1 four.2.2.2
        tasksSprRes risk1Res risk2Res
      let tasksMerged := mergeCropseasonPayload
        (mergeCropseasonPayload
          (mergeCropseasonPayload four.2.2.2 tasksSprRes) risk1Res) risk2Res
      match be.response with
      | none => .crashed "base response missing"
      | some respB =>
          match optRespOf four.2.1, optRespOf four.2.2.1,
              optRespOf tasksMerged with
          | some insJ, some predJ, some tasksJ =>
              match mergeFieldsData respB insJ predJ tasksJ enrich with
              | .error e => .crashed e
              | .ok fields =>
                  match be.request with
                  | none => .crashed "base request echo missing"
                  | some ri =>
                      match ri.url with
                      | none => .crashed "base request url missing"
                      | some _ =>
                          if ri.headersOk then
                            .success
                              { ok := true
                                status := 200
                                source := if plan.isEmpty then "cache" else "api"
                                fields := fields
                                warnings := warns }
                          else .crashed "base request headers missing"
          | _, _, _ => .crashed "sub response missing"

/-- The whole non-stream single pipeline: prepared cache, fetch stage,
diagnostics, the critical-error branch, and the success-side
post-processing; paired with the upstream calls it issued. -/
def singleController (req : SReq) (cacheLookup : String → Option Env0)
    (callEnv : String → CallSpec) (baseRetrySpec : CallSpec)
    (insightsRetryEnv : Nat → CallOut) (baseTimeout optTimeout : Int)
    (enrich : AList JVal → AList JVal) : SingleResult × List CallRecord :=
  let pc := subsFill req cacheLookup (preparedCache req cacheLookup)
  let plan := fetchPlanLabels req pc
  let fc := singleFetchStage req pc callEnv baseRetrySpec insightsRetryEnv
    baseTimeout optTimeout
  let fm := combinedMap pc fc.1
  let diag := diagnosticsOf req cacheLookup pc fc.1
  match aget fm "base" with
  | some (.excGeneral _) | some (.excTimeout _) | some (.excBudget _) =>
      (.raised 500 "combined_fields_failed" diag, fc.2)
  | some (.env e) =>
      match e.ok with
      | some false =>
          (.errBody (e.status.getD 500) "combined_fields_failed" diag plan, fc.2)
      | _ => (singlePost req pc fc.1 plan enrich, fc.2)
  | none => (singlePost req pc fc.1 plan enrich, fc.2)

/-- The prepared cache after sub-response reuse, as the controller
computes it. -/
def pcOf (req : SReq) (cacheLookup : String → Option Env0) : AList Env0 :=
  subsFill req cacheLookup (preparedCache req cacheLookup)

/-- The fetch-stage outcome as the controller computes it. -/
def fetchOf (req : SReq) (cacheLookup : String → Option Env0)
    (callEnv : String → CallSpec) (baseRetrySpec : CallSpec)
    (insightsRetryEnv : Nat → CallOut) (baseTimeout optTimeout : Int) :
    AList FetchRes × List CallRecord :=
  singleFetchStage req (pcOf req cacheLookup) callEnv baseRetrySpec
    insightsRetryEnv baseTimeout optTimeout

/-- The diagnostics dict as the controller computes it. -/
def singleDiag (req : SReq) (cacheLookup : String → Option Env0)
    (callEnv : String → CallSpec) (baseRetrySpec : CallSpec)
    (insightsRetryEnv : Nat → CallOut) (baseTimeout optTimeout : Int) :
    List (String × Summary) :=
  diagnosticsOf req cacheLookup (pcOf req cacheLookup)
    (fetchOf req cacheLookup callEnv baseRetrySpec insightsRetryEnv
      baseTimeout optTimeout).1

/-! ### Shape predicates for cached envelopes (used to state the
warm-cache scenario): the response must carry the structure the merge
path indexes without guards. -/

/-- A crop season the merge paths can process: a dict carrying a uuid
key. -/
def seasonOkB (cs : JVal) : Bool :=
  match cs with
  | .obj ck => (aget (aofList ck) "uuid").isSome
  | _ => false

/-- A field entity the merge paths can process: a dict with a uuid key
whose cropSeasonsV2, when present, is a list of processable seasons. -/
def fieldOkB (f : JVal) : Bool :=
  match f with
  | .obj kvs =>
      (aget (aofList kvs) "uuid").isSome
        && (match aget (aofList kvs) "cropSeasonsV2" with
            | none => true
            | some (.arr css) => css.all seasonOkB
            | some _ => false)
  | _ => false

/-- A response value whose data.fieldsV2 is a list of processable field
entities. -/
def respWF (resp : JVal) : Bool :=
  match pyIndex resp "data" with
  | some d =>
      match pyIndex d "fieldsV2" with
      | some (.arr fs) => fs.all fieldOkB
      | _ => false
  | none => false

/-- A cached envelope the single pipeline can post-process without an
unhandled exception: a well-formed response, a request echo with url and
headers, and no embedded sub-responses. -/
def envWF (e : Env0) : Bool :=
  (match e.response with
   | some r => respWF r
   | none => false)
    && (match e.request with
        | some ri => ri.url.isSome && ri.headersOk
        | none => false)
    && e.subs.isNone

/-- A crop-season dict the merge paths keep well-formed: canonical keys
and a present uuid. -/
def seasonEntryOk (cd : AList JVal) : Prop :=
  (akeys cd).Nodup ∧ (aget cd "uuid").isSome

/-- A field dict of the merge map: canonical keys, and its
cropSeasonsV2 value, when present, a list of processable seasons. -/
def coreEntryOk (d : AList JVal) : Prop :=
  (akeys d).Nodup
    ∧ ∀ v, aget d "cropSeasonsV2" = some v →
        ∃ l, v = .arr l ∧ ∀ cs ∈ l, seasonOkB cs = true

/-- Invariant of the `merge_fields_data` fields map. -/
def mapOk (m : List (JVal × AList JVal)) : Prop :=
  ∀ p ∈ m, coreEntryOk p.2

/-- An envelope whose response the merge paths can process. -/
def envReady (e : Env0) : Prop :=
  ∃ r, e.response = some r ∧ respWF r = true

/-- envReady for an optional envelope. -/
def optReady (o : Option Env0) : Prop :=
  ∀ e, o = some e → envReady e

/-! ### The `/combined-fields` dispatcher (`combined_fields`). -/

/-- `list(dict.fromkeys(str(u) for u in (req.farm_uuids or []) if
str(u)))`: de-duplicated, empty-string-filtered farm uuids. -/
def combinedFarms (raw : List String) : List String :=
  dedupStr (raw.filter (fun u => !u.isEmpty))

/-- Which way the dispatcher routes a request: a 422 rejection carrying
the reason and counts (raised before any sub-query is planned or
issued), the forced-reliability chunked path, the plain chunked path,
or the single pipeline. -/
inductive DispatchResult where
  | reject422 (reason : String) (received : Nat) (maxFarms syncMax : Int)
  | chunkedForced
  | chunkedPlain
  | single
  deriving DecidableEq

/-- The `combined_fields` entrypoint up to the choice of pipeline: the
hard cap is max(sync_max_farms, hard_max_farms) (env defaults 200 and
500); above it the call is rejected 422/too_many_farms, above sync_max
the chunked path is forced, at or above the chunk threshold without
streaming the chunked path is used, otherwise the single pipeline. -/
def combinedFieldsDispatch (raw : List String) (stream : Bool)
    (syncMax hardRaw threshold : Int) : DispatchResult :=
  let farms := combinedFarms raw
  let hardMax := max syncMax hardRaw
  if (farms.length : Int) > hardMax then
    .reject422 "too_many_farms" farms.length hardMax syncMax
  else if (farms.length : Int) > syncMax then .chunkedForced
  else if !stream && threshold ≤ (farms.length : Int) then .chunkedPlain
  else .single

/-! Concrete data for the single-pipeline scenarios. -/

/-- A request with tasks and sprayings, no boundary, no tokens, no
sub-responses. -/
def sReqA : SReq := ⟨true, true, false, false, false⟩

/-- A well-formed response value with one field and one crop season. -/
def wfResp : JVal :=
  .obj [("data", .obj [("fieldsV2",
    .arr [.obj [("uuid", .str "f1"),
                ("cropSeasonsV2", .arr [.obj [("uuid", .str "s1"), ("x", .num 1)]])]])])]

/-- A successful well-formed envelope. -/
def wfEnv : Env0 :=
  .mk (some true) (some 200) (some "api") (some ⟨some "http://u", true⟩)
    (some wfResp) none

/-- A cache with a hit for every operation. -/
def warmLookup : String → Option Env0 := fun _ => some wfEnv

/-- An empty cache. -/
def coldLookup : String → Option Env0 := fun _ => none

/-- An upstream where base succeeds and every optional call raises. -/
def callEnvRetBase : String → CallSpec := fun l =>
  if l == "base" then ⟨5, .ret wfEnv⟩ else ⟨1, .exc "upstream failed"⟩

/-- An upstream where base raises and every optional call raises. -/
def callEnvBoom : String → CallSpec := fun l =>
  if l == "base" then ⟨5, .exc "boom"⟩ else ⟨1, .exc "upstream failed"⟩

/-- A failing boundary-less base retry. -/
def baseRetryFix : CallSpec := ⟨1, .exc "retry failed"⟩

/-- An insights retry environment that succeeds at once. -/
def retryRet : Nat → CallOut := fun _ => .ret wfEnv

/-- An insights retry environment that keeps failing. -/
def retryExc : Nat → CallOut := fun _ => .exc "insights retry failed"

@[simp] theorem aget_nil {α : Type} (k : String) : aget ([] : AList α) k = none := rfl

@[simp] theorem aget_cons {α : Type} (k0 k : String) (v0 : α) (rest : AList α) :
    aget ((k0, v0) :: rest) k = if k0 = k then some v0 else aget rest k := rfl

theorem aget_ains {α : Type} (d : AList α) (k k' : String) (v : α) :
    aget (ains d k v) k' = if k = k' then some v else aget d k' := by
  induction d with
  | nil => simp [ains]
  | cons hd tl ih =>
      obtain ⟨k0, v0⟩ := hd
      by_cases h0 : k0 = k
      · subst h0
        by_cases h : k0 = k'
        · simp [ains, h]
        · simp [ains, h]
      · by_cases h : k0 = k'
        · have hkk : ¬ k = k' := by
            intro hh; exact h0 (h.trans hh.symm)
          have hne : ¬ k' = k := fun hh => hkk hh.symm
          simp [ains, h0, h, hkk, hne]
        · simp [ains, h0, h, ih]

theorem aget_aunion {α : Type} (a b : AList α) (k : String) :
    aget (aunion a b) k =
      match lastLookup b k with
      | some v => some v
      | none => aget a k := by
  induction b generalizing a with
  | nil => simp [aunion, lastLookup]
  | cons hd tl ih =>
      obtain ⟨k0, v0⟩ := hd
      show aget (aunion (ains a k0 v0) tl) k = _
      rw [ih]
      simp only [lastLookup]
      cases h : lastLookup tl k with
      | some v => simp
      | none =>
          simp only [aget_ains]
          by_cases hk : k0 = k
          · simp [hk]
          · simp [hk]

theorem aget_aofList {α : Type} (l : AList α) (k : String) :
    aget (aofList l) k = lastLookup l k := by
  rw [aofList, aget_aunion]
  cases lastLookup l k <;> simp

theorem mem_akeys_ains {α : Type} (d : AList α) (k k' : String) (v : α) :
    k' ∈ akeys (ains d k v) ↔ k' = k ∨ k' ∈ akeys d := by
  induction d with
  | nil => simp [ains, akeys]
  | cons hd tl ih =>
      obtain ⟨k0, v0⟩ := hd
      by_cases h0 : k0 = k
      · subst h0
        have hsimp : ains ((k0, v0) :: tl) k0 v = (k0, v) :: tl := by simp [ains]
        rw [hsimp]
        simp only [akeys, List.map_cons, List.mem_cons]
        tauto
      · simp only [ains, if_neg h0, akeys, List.map_cons, List.mem_cons]
        simp only [akeys] at ih
        rw [ih]
        tauto

theorem aget_isSome_of_mem_akeys {α : Type} (d : AList α) (k : String)
    (h : k ∈ akeys d) : (aget d k).isSome := by
  induction d with
  | nil => simp [akeys] at h
  | cons hd tl ih =>
      obtain ⟨k0, v0⟩ := hd
      by_cases h0 : k0 = k
      · simp [h0]
      · simp only [akeys, List.map_cons, List.mem_cons] at h
        rcases h with h | h
        · exact absurd h.symm h0
        · simp [h0, ih h]

theorem mem_akeys_of_aget {α : Type} (d : AList α) (k : String) (v : α)
    (h : aget d k = some v) : k ∈ akeys d := by
  induction d with
  | nil => simp [aget] at h
  | cons hd tl ih =>
      obtain ⟨k0, v0⟩ := hd
      by_cases h0 : k0 = k
      · simp [akeys, h0]
      · simp only [aget_cons, if_neg h0] at h
        have := ih h
        simp only [akeys, List.map_cons, List.mem_cons]
        exact Or.inr this

theorem aget_mem_avalues {α : Type} (d : AList α) (k : String) (v : α)
    (h : aget d k = some v) : v ∈ avalues d := by
  induction d with
  | nil => simp [aget] at h
  | cons hd tl ih =>
      obtain ⟨k0, v0⟩ := hd
      by_cases h0 : k0 = k
      · simp only [aget_cons, if_pos h0] at h
        cases h
        simp [avalues]
      · simp only [aget_cons, if_neg h0] at h
        have := ih h
        simp only [avalues, List.map_cons, List.mem_cons]
        exact Or.inr this

theorem aget_eq_none_iff {α : Type} (d : AList α) (k : String) :
    aget d k = none ↔ k ∉ akeys d := by
  constructor
  · intro h hk
    have := aget_isSome_of_mem_akeys d k hk
    rw [h] at this
    simp at this
  · intro hk
    cases h : aget d k with
    | none => rfl
    | some v => exact absurd (mem_akeys_of_aget d k v h) hk

theorem nodup_akeys_ains {α : Type} (d : AList α) (k : String) (v : α)
    (h : (akeys d).Nodup) : (akeys (ains d k v)).Nodup := by
  induction d with
  | nil => simp [ains, akeys]
  | cons hd tl ih =>
      obtain ⟨k0, v0⟩ := hd
      simp only [akeys, List.map_cons, List.nodup_cons] at h
      by_cases h0 : k0 = k
      · simpa [ains, h0, akeys] using h
      · simp only [ains, if_neg h0, akeys, List.map_cons, List.nodup_cons]
        refine ⟨?_, ih h.2⟩
        intro hmem
        have := (mem_akeys_ains tl k k0 v).mp hmem
        rcases this with h1 | h1
        · exact h0 h1
        · exact h.1 h1

theorem nodup_akeys_aunion {α : Type} (a b : AList α)
    (h : (akeys a).Nodup) : (akeys (aunion a b)).Nodup := by
  induction b generalizing a with
  | nil => exact h
  | cons hd tl ih =>
      obtain ⟨k0, v0⟩ := hd
      exact ih (ains a k0 v0) (nodup_akeys_ains a k0 v0 h)

theorem nodup_akeys_aofList {α : Type} (l : AList α) : (akeys (aofList l)).Nodup :=
  nodup_akeys_aunion [] l (by simp [akeys])

theorem lastLookup_eq_aget_of_nodup {α : Type} (d : AList α)
    (h : (akeys d).Nodup) (k : String) : lastLookup d k = aget d k := by
  induction d with
  | nil => rfl
  | cons hd tl ih =>
      obtain ⟨k0, v0⟩ := hd
      simp only [akeys, List.map_cons, List.nodup_cons] at h
      have htl := ih h.2
      by_cases h0 : k0 = k
      · subst h0
        have : aget tl k0 = none := (aget_eq_none_iff tl k0).mpr h.1
        simp [lastLookup, htl, this]
      · simp only [lastLookup, htl, aget_cons, if_neg h0]
        cases aget tl k <;> simp [h0]

theorem lastLookup_aofList {α : Type} (l : AList α) (k : String) :
    lastLookup (aofList l) k = lastLookup l k := by
  rw [lastLookup_eq_aget_of_nodup (aofList l) (nodup_akeys_aofList l), aget_aofList]

theorem ains_id {α : Type} (d : AList α) (k : String) (v : α)
    (h : aget d k = some v) : ains d k v = d := by
  induction d with
  | nil => simp [aget] at h
  | cons hd tl ih =>
      obtain ⟨k0, v0⟩ := hd
      by_cases h0 : k0 = k
      · simp only [aget_cons, if_pos h0] at h
        cases h
        simp [ains, h0]
      · simp only [aget_cons, if_neg h0] at h
        simp [ains, h0, ih h]

theorem ains_ains_same {α : Type} (d : AList α) (k : String) (v w : α) :
    ains (ains d k v) k w = ains d k w := by
  induction d with
  | nil => simp [ains]
  | cons hd tl ih =>
      obtain ⟨k0, v0⟩ := hd
      by_cases h0 : k0 = k
      · simp [ains, h0]
      · simp [ains, h0, ih]

theorem aunion_absorb {α : Type} (a b : AList α)
    (h : ∀ kv ∈ b, aget a kv.1 = some kv.2) : aunion a b = a := by
  induction b with
  | nil => rfl
  | cons hd tl ih =>
      obtain ⟨k0, v0⟩ := hd
      show aunion (ains a k0 v0) tl = a
      have h0 : aget a k0 = some v0 := h (k0, v0) (by simp)
      rw [ains_id a k0 v0 h0]
      exact ih fun kv hkv => h kv (by simp [hkv])

theorem ains_append_of_not_mem {α : Type} (d : AList α) (k : String) (v : α)
    (h : k ∉ akeys d) : ains d k v = d ++ [(k, v)] := by
  induction d with
  | nil => simp [ains]
  | cons hd tl ih =>
      obtain ⟨k0, v0⟩ := hd
      simp only [akeys, List.map_cons, List.mem_cons] at h
      push_neg at h
      have h0 : ¬ k0 = k := fun hh => h.1 hh.symm
      simp [ains, h0, ih h.2]

theorem aget_append_left_none {α : Type} (l1 l2 : AList α) (k : String)
    (h : k ∉ akeys l1) : aget (l1 ++ l2) k = aget l2 k := by
  induction l1 with
  | nil => simp
  | cons hd tl ih =>
      obtain ⟨k0, v0⟩ := hd
      simp only [akeys, List.map_cons, List.mem_cons] at h
      push_neg at h
      have h0 : ¬ k0 = k := fun hh => h.1 hh.symm
      simp [aget_cons, h0, ih h.2]

theorem aofList_id_of_nodup {α : Type} (d : AList α)
    (h : (akeys d).Nodup) : aofList d = d := by
  have main : ∀ (b a : AList α), (akeys b).Nodup →
      (∀ k ∈ akeys b, k ∉ akeys a) → aunion a b = a ++ b := by
    intro b
    induction b with
    | nil => intro a _ _; simp [aunion]
    | cons hd tl ih =>
        intro a hnd hdisj
        obtain ⟨k0, v0⟩ := hd
        simp only [akeys, List.map_cons, List.nodup_cons] at hnd
        have hk0 : k0 ∉ akeys a := hdisj k0 (by simp [akeys])
        show aunion (ains a k0 v0) tl = a ++ (k0, v0) :: tl
        rw [ains_append_of_not_mem a k0 v0 hk0]
        rw [ih (a ++ [(k0, v0)]) hnd.2 ?_]
        · simp
        · intro k hk
          simp only [akeys, List.map_append, List.mem_append]
          push_neg
          constructor
          · intro hmem
            refine hdisj k ?_ hmem
            simp only [akeys, List.map_cons, List.mem_cons]
            exact Or.inr hk
          · simp only [List.map_cons, List.map_nil, List.mem_singleton]
            intro hkk
            exact hnd.1 (hkk ▸ hk)
  have := main d [] h (by simp [akeys])
  simpa [aofList] using this

/-! ### Generic keyed-fold helpers

The merge engine consists of three loops of the same shape: iterate a raw
list, skip entries that are not dicts or lack a truthy uuid, and assign
into an accumulator dict keyed by the stringified uuid.  The two lemmas
below characterize such folds when the incoming keys are fresh
(first pass) and when every assignment is the identity (replay pass). -/

theorem keyedFold_nil {γ δ β : Type} (g : γ → Option (String × δ))
    (combine : Option β → δ → β) (m : AList β) : keyedFold g combine m [] = m := rfl

theorem keyedFold_append {γ δ β : Type} (g : γ → Option (String × δ))
    (combine : Option β → δ → β) (m : AList β) (l1 l2 : List γ) :
    keyedFold g combine m (l1 ++ l2) = keyedFold g combine (keyedFold g combine m l1) l2 := by
  simp [keyedFold, List.foldl_append]

/-- First-pass shape: when the valid keys of the list are distinct and
absent from the accumulator, the fold appends one entry per valid item,
combining from an absent previous value. -/
theorem keyedFold_fresh_shape {γ δ β : Type} (g : γ → Option (String × δ))
    (combine : Option β → δ → β) (l : List γ) (m : AList β)
    (hnd : ((l.filterMap g).map Prod.fst).Nodup)
    (hfresh : ∀ p ∈ l.filterMap g, p.1 ∉ akeys m) :
    keyedFold g combine m l = m ++ (l.filterMap g).map (fun p => (p.1, combine none p.2)) := by
  induction l generalizing m with
  | nil => simp [keyedFold]
  | cons x xs ih =>
      cases hg : g x with
      | none =>
          have : keyedFold g combine m (x :: xs) = keyedFold g combine m xs := by
            simp [keyedFold, hg]
          rw [this, ih m ?_ ?_]
          · simp [List.filterMap_cons, hg]
          · simpa [List.filterMap_cons, hg] using hnd
          · intro p hp
            exact hfresh p (by simp [List.filterMap_cons, hg, hp])
      | some kd =>
          obtain ⟨k, d⟩ := kd
          have hkm : k ∉ akeys m := hfresh (k, d) (by simp [List.filterMap_cons, hg])
          have hget : aget m k = none := (aget_eq_none_iff m k).mpr hkm
          have hstep : keyedFold g combine m (x :: xs)
              = keyedFold g combine (m ++ [(k, combine none d)]) xs := by
            simp only [keyedFold, List.foldl_cons, hg, hget]
            rw [ains_append_of_not_mem m k (combine none d) hkm]
          rw [hstep]
          simp only [List.filterMap_cons, hg] at hnd hfresh ⊢
          simp only [List.map_cons, List.nodup_cons] at hnd
          rw [ih (m ++ [(k, combine none d)]) hnd.2 ?_]
          · simp
          · intro p hp
            simp only [akeys, List.map_append, List.mem_append]
            push_neg
            constructor
            · exact fun hmem => hfresh p (List.mem_cons.mpr (Or.inr hp)) hmem
            · simp only [List.map_cons, List.map_nil, List.mem_singleton]
              intro hkk
              exact hnd.1 (hkk ▸ (List.mem_map_of_mem Prod.fst hp))

/-- Replay shape: when every valid item combines back to the value the
accumulator already stores for its key, the fold leaves the accumulator
unchanged. -/
theorem keyedFold_absorb {γ δ β : Type} (g : γ → Option (String × δ))
    (combine : Option β → δ → β) (l : List γ) (m : AList β)
    (h : ∀ x ∈ l, ∀ k d, g x = some (k, d) →
        ∃ e, aget m k = some e ∧ combine (some e) d = e) :
    keyedFold g combine m l = m := by
  induction l with
  | nil => rfl
  | cons x xs ih =>
      cases hg : g x with
      | none =>
          have : keyedFold g combine m (x :: xs) = keyedFold g combine m xs := by
            simp [keyedFold, hg]
          rw [this]
          exact ih fun y hy => h y (by simp [hy])
      | some kd =>
          obtain ⟨k, d⟩ := kd
          obtain ⟨e, he, hce⟩ := h x (by simp) k d hg
          have hstep : keyedFold g combine m (x :: xs) = keyedFold g combine m xs := by
            simp only [keyedFold, List.foldl_cons, hg, he]
            rw [hce, ains_id m k e he]
          rw [hstep]
          exact ih fun y hy => h y (by simp [hy])

theorem aget_mem_pair {α : Type} (d : AList α) (k : String) (v : α)
    (h : aget d k = some v) : (k, v) ∈ d := by
  induction d with
  | nil => simp [aget] at h
  | cons hd tl ih =>
      obtain ⟨k0, v0⟩ := hd
      by_cases h0 : k0 = k
      · subst h0
        simp only [aget_cons, if_pos rfl] at h
        cases h
        exact List.mem_cons.mpr (Or.inl rfl)
      · simp only [aget_cons, if_neg h0] at h
        exact List.mem_cons.mpr (Or.inr (ih h))

theorem mem_ains {α : Type} (d : AList α) (k : String) (v : α) (p : String × α) :
    p ∈ ains d k v → p = (k, v) ∨ p ∈ d := by
  induction d with
  | nil =>
      intro h
      simpa [ains] using h
  | cons hd tl ih =>
      obtain ⟨k0, v0⟩ := hd
      intro h
      by_cases h0 : k0 = k
      · subst h0
        rw [show ains ((k0, v0) :: tl) k0 v = (k0, v) :: tl by simp [ains]] at h
        rcases List.mem_cons.mp h with h | h
        · exact Or.inl h
        · exact Or.inr (List.mem_cons.mpr (Or.inr h))
      · rw [show ains ((k0, v0) :: tl) k v = (k0, v0) :: ains tl k v by
            simp [ains, h0]] at h
        rcases List.mem_cons.mp h with h | h
        · exact Or.inr (List.mem_cons.mpr (Or.inl h))
        · rcases ih h with h1 | h1
          · exact Or.inl h1
          · exact Or.inr (List.mem_cons.mpr (Or.inr h1))

theorem mem_akeys_keyedFold_of_mem {γ δ β : Type} (g : γ → Option (String × δ))
    (combine : Option β → δ → β) (l : List γ) (m : AList β) (k : String)
    (h : k ∈ akeys m) : k ∈ akeys (keyedFold g combine m l) := by
  induction l generalizing m with
  | nil => exact h
  | cons x xs ih =>
      cases hg : g x with
      | none =>
          have hs : keyedFold g combine m (x :: xs) = keyedFold g combine m xs := by
            simp [keyedFold, hg]
          rw [hs]; exact ih m h
      | some kd =>
          obtain ⟨k0, d⟩ := kd
          have hs : keyedFold g combine m (x :: xs)
              = keyedFold g combine (ains m k0 (combine (aget m k0) d)) xs := by
            simp [keyedFold, hg]
          rw [hs]
          exact ih _ ((mem_akeys_ains m k0 k _).mpr (Or.inr h))

theorem mem_akeys_keyedFold_of_item {γ δ β : Type} (g : γ → Option (String × δ))
    (combine : Option β → δ → β) (l1 l2 : List γ) (x : γ) (m : AList β)
    (k : String) (d : δ) (hx : g x = some (k, d)) :
    k ∈ akeys (keyedFold g combine m (l1 ++ x :: l2)) := by
  rw [keyedFold_append]
  set m1 := keyedFold g combine m l1
  have hs : keyedFold g combine m1 (x :: l2)
      = keyedFold g combine (ains m1 k (combine (aget m1 k) d)) l2 := by
    simp [keyedFold, hx]
  rw [hs]
  exact mem_akeys_keyedFold_of_mem g combine l2 _ k
    ((mem_akeys_ains m1 k k _).mpr (Or.inl rfl))

theorem aget_keyedFold_of_ne {γ δ β : Type} (g : γ → Option (String × δ))
    (combine : Option β → δ → β) (l : List γ) (m : AList β) (u : String)
    (h : ∀ x ∈ l, ∀ p, g x = some p → p.1 ≠ u) :
    aget (keyedFold g combine m l) u = aget m u := by
  induction l generalizing m with
  | nil => rfl
  | cons x xs ih =>
      cases hg : g x with
      | none =>
          have hs : keyedFold g combine m (x :: xs) = keyedFold g combine m xs := by
            simp [keyedFold, hg]
          rw [hs]
          exact ih m fun y hy => h y (by simp [hy])
      | some kd =>
          obtain ⟨k0, d⟩ := kd
          have hne : k0 ≠ u := h x (by simp) (k0, d) hg
          have hs : keyedFold g combine m (x :: xs)
              = keyedFold g combine (ains m k0 (combine (aget m k0) d)) xs := by
            simp [keyedFold, hg]
          rw [hs, ih _ fun y hy => h y (by simp [hy]), aget_ains]
          simp [hne]

theorem keyedFold_preserves {γ δ β : Type} (g : γ → Option (String × δ))
    (combine : Option β → δ → β) (l : List γ) (m : AList β) (u : String)
    (P : β → Prop)
    (hstep : ∀ x ∈ l, ∀ d e, g x = some (u, d) → P e → P (combine (some e) d))
    (h : ∃ e, aget m u = some e ∧ P e) :
    ∃ e, aget (keyedFold g combine m l) u = some e ∧ P e := by
  induction l generalizing m with
  | nil => exact h
  | cons x xs ih =>
      cases hg : g x with
      | none =>
          have hs : keyedFold g combine m (x :: xs) = keyedFold g combine m xs := by
            simp [keyedFold, hg]
          rw [hs]
          exact ih m (fun y hy => hstep y (by simp [hy])) h
      | some kd =>
          obtain ⟨k0, d⟩ := kd
          have hs : keyedFold g combine m (x :: xs)
              = keyedFold g combine (ains m k0 (combine (aget m k0) d)) xs := by
            simp [keyedFold, hg]
          rw [hs]
          refine ih _ (fun y hy => hstep y (by simp [hy])) ?_
          obtain ⟨e, he, hPe⟩ := h
          by_cases hk : k0 = u
          · subst hk
            refine ⟨combine (some e) d, ?_, ?_⟩
            · rw [aget_ains, he]; simp
            · exact hstep x (by simp) d e (by rw [hg]) hPe
          · refine ⟨e, ?_, hPe⟩
            rw [aget_ains]
            simp [hk, he]

/-- Entries produced by the uuid-keyed guard: a canonical dict whose
stored truthy uuid stringifies to the entry key. -/
def entryOk (p : String × AList JVal) : Prop :=
  (akeys p.2).Nodup ∧ ∃ w, aget p.2 "uuid" = some w ∧ jTruthy w = true ∧ jStr w = p.1

theorem keyedDict_ok (f : JVal) (k : String) (d : AList JVal)
    (h : keyedDict f = some (k, d)) : entryOk (k, d) := by
  cases f with
  | obj kvs =>
      simp only [keyedDict] at h
      by_cases ht : jTruthy (pyGetV (aofList kvs) "uuid") = true
      · rw [if_pos ht] at h
        cases h
        refine ⟨nodup_akeys_aofList kvs, ?_⟩
        simp only [pyGetV] at ht ⊢
        cases hw : aget (aofList kvs) "uuid" with
        | none =>
            rw [hw] at ht
            simp [jTruthy] at ht
        | some w =>
            rw [hw] at ht
            exact ⟨w, rfl, by simpa using ht, by simp⟩
      · rw [if_neg ht] at h
        exact absurd h (by simp)
  | null => simp [keyedDict] at h
  | bool b => simp [keyedDict] at h
  | str s => simp [keyedDict] at h
  | num n => simp [keyedDict] at h
  | arr xs => simp [keyedDict] at h

theorem keyedFold_entries {γ : Type} (g : γ → Option (String × AList JVal))
    (combine : Option (AList JVal) → AList JVal → AList JVal)
    (l : List γ) (m : AList (AList JVal))
    (hm : ∀ p ∈ m, entryOk p)
    (hc : ∀ x ∈ l, ∀ k d (o : Option (AList JVal)), g x = some (k, d) →
        (∀ e, o = some e → entryOk (k, e)) → entryOk (k, combine o d)) :
    ∀ p ∈ keyedFold g combine m l, entryOk p := by
  induction l generalizing m with
  | nil => exact hm
  | cons x xs ih =>
      cases hg : g x with
      | none =>
          have hs : keyedFold g combine m (x :: xs) = keyedFold g combine m xs := by
            simp [keyedFold, hg]
          rw [hs]
          exact ih m hm fun y hy => hc y (by simp [hy])
      | some kd =>
          obtain ⟨k0, d⟩ := kd
          have hs : keyedFold g combine m (x :: xs)
              = keyedFold g combine (ains m k0 (combine (aget m k0) d)) xs := by
            simp [keyedFold, hg]
          rw [hs]
          refine ih _ ?_ fun y hy => hc y (by simp [hy])
          intro p hp
          rcases mem_ains m k0 _ p hp with h1 | h1
          · subst h1
            refine hc x (by simp) k0 d (aget m k0) hg ?_
            intro e he
            exact hm (k0, e) (aget_mem_pair m k0 e he)
          · exact hm p h1

theorem keyedFold_skip {γ δ β : Type} (g : γ → Option (String × δ))
    (combine : Option β → δ → β) (m : AList β) (x : γ) (l : List γ)
    (hx : g x = none) :
    keyedFold g combine m (x :: l) = keyedFold g combine m l := by
  simp [keyedFold, hx]

theorem keyedFold_valid_step {γ δ β : Type} (g : γ → Option (String × δ))
    (combine : Option β → δ → β) (m : AList β) (x : γ) (l : List γ)
    (k : String) (d : δ) (hx : g x = some (k, d)) :
    keyedFold g combine m (x :: l)
      = keyedFold g combine (ains m k (combine (aget m k) d)) l := by
  simp [keyedFold, hx]

/-- Lookup after a fold in which exactly one item carries the key. -/
theorem aget_keyedFold_single {γ δ β : Type} (g : γ → Option (String × δ))
    (combine : Option β → δ → β) (l1 l2 : List γ) (x : γ) (m : AList β)
    (u : String) (d : δ) (hx : g x = some (u, d))
    (hrest : ∀ y ∈ l1 ++ l2, ∀ p, g y = some p → p.1 ≠ u) :
    aget (keyedFold g combine m (l1 ++ x :: l2)) u = some (combine (aget m u) d) := by
  rw [keyedFold_append]
  have h1 : aget (keyedFold g combine m l1) u = aget m u :=
    aget_keyedFold_of_ne g combine l1 m u
      (fun y hy => hrest y (List.mem_append.mpr (Or.inl hy)))
  rw [keyedFold_valid_step g combine _ x l2 u d hx,
      aget_keyedFold_of_ne g combine l2 _ u
        (fun y hy => hrest y (List.mem_append.mpr (Or.inr hy))),
      aget_ains]
  simp [h1]

theorem keyedDict_obj_of_entryOk (s : String) (d : AList JVal)
    (h : entryOk (s, d)) : keyedDict (.obj d) = some (s, d) := by
  obtain ⟨hnd, w, hw, htr, hst⟩ := h
  have hid : aofList d = d := aofList_id_of_nodup d hnd
  simp only [keyedDict, hid, pyGetV, hw]
  simp only [Option.getD_some]
  rw [if_pos htr, hst]

theorem aget_aunion_right {α : Type} (e d : AList α) (k : String) (v : α)
    (hnd : (akeys d).Nodup) (h : aget d k = some v) :
    aget (aunion e d) k = some v := by
  rw [aget_aunion, lastLookup_eq_aget_of_nodup d hnd, h]

/-- Every entry of a `_merge_crop_seasons` output dict is a canonical
season dict keyed by its own stringified uuid. -/
theorem mergeCropSeasons_entries (a b : JVal) :
    ∀ p ∈ mergeCropSeasons a b, entryOk p := by
  have hfirst : ∀ p ∈ mergeCropSeasonsFirst a, entryOk p := by
    refine keyedFold_entries keyedDict _ (listItems a) [] (by simp) ?_
    intro x _ k d o hg _
    exact keyedDict_ok x k d hg
  refine keyedFold_entries keyedDict _ (listItems b) (mergeCropSeasonsFirst a) hfirst ?_
  intro x _ k d o hg ho
  have hdok := keyedDict_ok x k d hg
  obtain ⟨hnd, w, hw, htr, hst⟩ := hdok
  cases o with
  | none =>
      show entryOk (k, aunion ((none : Option (AList JVal)).getD []) d)
      have : aunion ((none : Option (AList JVal)).getD []) d = d := by
        show aunion [] d = d
        exact aofList_id_of_nodup d hnd
      rw [this]
      exact ⟨hnd, w, hw, htr, hst⟩
  | some e =>
      obtain ⟨hnde, _⟩ := ho e rfl
      show entryOk (k, aunion ((some e).getD []) d)
      refine ⟨?_, w, ?_, htr, hst⟩
      · exact nodup_akeys_aunion e d hnde
      · exact aget_aunion_right e d "uuid" w hnd hw

/-- Every key of an entries-ok season dict is listed by the season-uuid
reading of its rendered value list. -/
theorem mem_seasonUuids_of_akeys (M : AList (AList JVal))
    (hM : ∀ p ∈ M, entryOk p) (s : String) (hs : s ∈ akeys M) :
    s ∈ ((avalues M).map JVal.obj).filterMap (fun cs => (keyedDict cs).map Prod.fst) := by
  simp only [akeys] at hs
  obtain ⟨p, hp, hps⟩ := List.mem_map.mp hs
  refine List.mem_filterMap.mpr ⟨.obj p.2, ?_, ?_⟩
  · exact List.mem_map.mpr ⟨p.2, List.mem_map.mpr ⟨p, hp, rfl⟩, rfl⟩
  · have hok := hM p hp
    have := keyedDict_obj_of_entryOk p.1 p.2 hok
    rw [this]
    simp [hps]

theorem mem_akeys_mergeCropSeasons_of_prev (pv nv : JVal) (s : String)
    (h : s ∈ jSeasonUuids pv) : s ∈ akeys (mergeCropSeasons pv nv) := by
  simp only [jSeasonUuids] at h
  obtain ⟨cs, hcs, hkd⟩ := List.mem_filterMap.mp h
  obtain ⟨⟨k, d⟩, hg, hk⟩ := Option.map_eq_some'.mp hkd
  cases hk
  obtain ⟨l1, l2, hl⟩ := List.append_of_mem hcs
  unfold mergeCropSeasons
  apply mem_akeys_keyedFold_of_mem
  unfold mergeCropSeasonsFirst
  rw [hl]
  exact mem_akeys_keyedFold_of_item keyedDict _ l1 l2 cs [] _ d hg

theorem mem_akeys_mergeCropSeasons_of_next (pv nv : JVal) (s : String)
    (h : s ∈ jSeasonUuids nv) : s ∈ akeys (mergeCropSeasons pv nv) := by
  simp only [jSeasonUuids] at h
  obtain ⟨cs, hcs, hkd⟩ := List.mem_filterMap.mp h
  obtain ⟨⟨k, d⟩, hg, hk⟩ := Option.map_eq_some'.mp hkd
  cases hk
  obtain ⟨l1, l2, hl⟩ := List.append_of_mem hcs
  unfold mergeCropSeasons
  rw [hl]
  exact mem_akeys_keyedFold_of_item keyedDict _ l1 l2 cs _ _ d hg

theorem isNull_false_of_jSeasonUuids_ne (v : JVal) (s : String)
    (h : s ∈ jSeasonUuids v) : isNull v = false := by
  cases v with
  | null => simp [jSeasonUuids, listItems] at h
  | bool b => rfl
  | str t => rfl
  | num n => rfl
  | arr xs => rfl
  | obj kvs => rfl

/-- Scalar lookup through the per-field combine step: keys other than the
crop-season collection read the new entity first, then the accumulated
one (dict-spread semantics). -/
theorem aget_entityCombine_ne (prev fD : AList JVal) (k : String)
    (hk : ¬ k = csk) :
    aget (entityCombine prev fD) k =
      match lastLookup fD k with
      | some v => some v
      | none => aget prev k := by
  unfold entityCombine
  by_cases hc : (isNull (pyGetV prev csk) && isNull (pyGetV fD csk)) = true
  · rw [if_pos hc, aget_aunion prev fD k]
    cases lastLookup fD k <;> rfl
  · rw [if_neg hc, aget_ains]
    have : ¬ csk = k := fun hh => hk hh.symm
    rw [if_neg this, aget_aunion prev fD k]
    cases lastLookup fD k <;> rfl

/-- The recomputed crop-season collection stored by the per-field combine
step, when either side carries a non-None collection. -/
theorem aget_entityCombine_csk (prev fD : AList JVal)
    (hc : (isNull (pyGetV prev csk) && isNull (pyGetV fD csk)) = false) :
    aget (entityCombine prev fD) csk =
      some (.arr ((avalues (mergeCropSeasons (pyGetV prev csk) (pyGetV fD csk))).map .obj)) := by
  unfold entityCombine
  rw [if_neg (by simp [hc]), aget_ains, if_pos rfl]

/-- Crop seasons already merged into the accumulated entity survive the
combine step with any further entity (absence is not deletion). -/
theorem seasonUuids_entityCombine_of_prev (prev fD : AList JVal) (s : String)
    (h : s ∈ seasonUuids prev) : s ∈ seasonUuids (entityCombine prev fD) := by
  have hnn : isNull (pyGetV prev csk) = false :=
    isNull_false_of_jSeasonUuids_ne _ s h
  have hc : (isNull (pyGetV prev csk) && isNull (pyGetV fD csk)) = false := by
    simp [hnn]
  have hcs := aget_entityCombine_csk prev fD hc
  unfold seasonUuids
  rw [pyGetV, hcs]
  simp only [Option.getD_some]
  show s ∈ jSeasonUuids (.arr _)
  unfold jSeasonUuids listItems
  refine mem_seasonUuids_of_akeys _ (mergeCropSeasons_entries _ _) s ?_
  exact mem_akeys_mergeCropSeasons_of_prev _ _ s h

/-- Crop seasons carried by the incoming entity are present after the
combine step. -/
theorem seasonUuids_entityCombine_of_next (prev fD : AList JVal) (s : String)
    (h : s ∈ seasonUuids fD) : s ∈ seasonUuids (entityCombine prev fD) := by
  have hnn : isNull (pyGetV fD csk) = false :=
    isNull_false_of_jSeasonUuids_ne _ s h
  have hc : (isNull (pyGetV prev csk) && isNull (pyGetV fD csk)) = false := by
    simp [hnn]
  have hcs := aget_entityCombine_csk prev fD hc
  unfold seasonUuids
  rw [pyGetV, hcs]
  simp only [Option.getD_some]
  show s ∈ jSeasonUuids (.arr _)
  unfold jSeasonUuids listItems
  refine mem_seasonUuids_of_akeys _ (mergeCropSeasons_entries _ _) s ?_
  exact mem_akeys_mergeCropSeasons_of_next _ _ s h

theorem nodup_akeys_entityCombine (prev fD : AList JVal)
    (h : (akeys prev).Nodup) : (akeys (entityCombine prev fD)).Nodup := by
  unfold entityCombine
  by_cases hc : (isNull (pyGetV prev csk) && isNull (pyGetV fD csk)) = true
  · rw [if_pos hc]
    exact nodup_akeys_aunion prev fD h
  · rw [if_neg hc]
    exact nodup_akeys_ains _ csk _ (nodup_akeys_aunion prev fD h)

theorem entityCombine_entryOk (f : JVal) (k : String) (fD : AList JVal)
    (o : Option (AList JVal)) (hf : keyedDict f = some (k, fD))
    (ho : ∀ e, o = some e → entryOk (k, e)) :
    entryOk (k, entityCombine (o.getD []) fD) := by
  obtain ⟨hnd, w, hw, htr, hst⟩ := keyedDict_ok f k fD hf
  have huuid : aget (entityCombine (o.getD []) fD) "uuid" = some w := by
    rw [aget_entityCombine_ne _ fD "uuid" (by decide),
        lastLookup_eq_aget_of_nodup fD hnd, hw]
  have hprevnd : (akeys (o.getD [])).Nodup := by
    cases o with
    | none => simp [akeys]
    | some e => exact (ho e rfl).1
  exact ⟨nodup_akeys_entityCombine _ fD hprevnd, w, huuid, htr, hst⟩

/-- Every entry of the accumulated field map of `_merge_fields_v2_by_uuid`
is a canonical entity dict keyed by its own stringified truthy uuid. -/
theorem mergeFieldsMap_entries (ls : List JVal) :
    ∀ p ∈ mergeFieldsMap ls, entryOk p := by
  suffices h : ∀ (ls : List JVal) (m : AList (AList JVal)),
      (∀ p ∈ m, entryOk p) → ∀ p ∈ ls.foldl mergeSourceStep m, entryOk p by
    exact h ls [] (by simp)
  intro ls
  induction ls with
  | nil => intro m hm; exact hm
  | cons src rest ih =>
      intro m hm
      simp only [List.foldl_cons]
      refine ih (mergeSourceStep m src) ?_
      refine keyedFold_entries keyedDict _ (listItems src) m hm ?_
      intro x _ k d o hg ho
      exact entityCombine_entryOk x k d o hg ho

theorem foldl_sources_preserves (ls : List JVal) (m : AList (AList JVal))
    (u s : String) (h : ∃ e, aget m u = some e ∧ s ∈ seasonUuids e) :
    ∃ e, aget (ls.foldl mergeSourceStep m) u = some e ∧ s ∈ seasonUuids e := by
  induction ls generalizing m with
  | nil => exact h
  | cons src rest ih =>
      simp only [List.foldl_cons]
      refine ih (mergeSourceStep m src) ?_
      refine keyedFold_preserves keyedDict _ (listItems src) m u _ ?_ h
      intro x _ d e hg hP
      exact seasonUuids_entityCombine_of_prev e d s hP

theorem aget_mergeSourceStep_single (m : AList (AList JVal)) (L1 L2 : List JVal)
    (x : JVal) (u : String) (d : AList JVal) (hx : keyedDict x = some (u, d))
    (ho : ∀ y ∈ L1 ++ L2, ∀ p, keyedDict y = some p → p.1 ≠ u) :
    aget (mergeSourceStep m (JVal.arr (L1 ++ x :: L2))) u
      = some (entityCombine ((aget m u).getD []) d) := by
  unfold mergeSourceStep
  have hitems : listItems (JVal.arr (L1 ++ x :: L2)) = L1 ++ x :: L2 := rfl
  rw [hitems]
  exact aget_keyedFold_single keyedDict _ L1 L2 x m u d hx ho

/-- C4: merge precedence is last-source-wins.  Merging sources A then B,
where each holds exactly one entity keyed u, yields an entity whose value
at every scalar key is B's when B carries the key and A's when only A
does. -/
theorem merge_precedence_last_source_wins
    (A1 A2 B1 B2 : List JVal) (a b : JVal) (u : String) (aD bD : AList JVal)
    (hA : keyedDict a = some (u, aD)) (hB : keyedDict b = some (u, bD))
    (hAo : ∀ f ∈ A1 ++ A2, ∀ p, keyedDict f = some p → p.1 ≠ u)
    (hBo : ∀ f ∈ B1 ++ B2, ∀ p, keyedDict f = some p → p.1 ≠ u) :
    ∃ e, aget (mergeFieldsMap [JVal.arr (A1 ++ a :: A2), JVal.arr (B1 ++ b :: B2)]) u = some e
      ∧ e ∈ mergeFieldsV2ByUuid [JVal.arr (A1 ++ a :: A2), JVal.arr (B1 ++ b :: B2)]
      ∧ ∀ k, ¬ k = csk →
          (∀ v, aget bD k = some v → aget e k = some v)
          ∧ (aget bD k = none → ∀ v, aget aD k = some v → aget e k = some v) := by
  have hndA : (akeys aD).Nodup := (keyedDict_ok a u aD hA).1
  have hndB : (akeys bD).Nodup := (keyedDict_ok b u bD hB).1
  have hmap : mergeFieldsMap [JVal.arr (A1 ++ a :: A2), JVal.arr (B1 ++ b :: B2)]
      = mergeSourceStep (mergeSourceStep [] (JVal.arr (A1 ++ a :: A2)))
          (JVal.arr (B1 ++ b :: B2)) := by
    unfold mergeFieldsMap
    simp only [List.foldl_cons, List.foldl_nil]
  have hA1 : aget (mergeSourceStep [] (JVal.arr (A1 ++ a :: A2))) u
      = some (entityCombine [] aD) :=
    aget_mergeSourceStep_single [] A1 A2 a u aD hA hAo
  have hB1 : aget (mergeFieldsMap [JVal.arr (A1 ++ a :: A2), JVal.arr (B1 ++ b :: B2)]) u
      = some (entityCombine (entityCombine [] aD) bD) := by
    rw [hmap, aget_mergeSourceStep_single _ B1 B2 b u bD hB hBo, hA1]
    rfl
  refine ⟨entityCombine (entityCombine [] aD) bD, hB1, ?_, ?_⟩
  · unfold mergeFieldsV2ByUuid
    exact aget_mem_avalues _ u _ hB1
  · intro k hk
    constructor
    · intro v hv
      rw [aget_entityCombine_ne _ bD k hk, lastLookup_eq_aget_of_nodup bD hndB, hv]
    · intro hnone v hv
      rw [aget_entityCombine_ne _ bD k hk, lastLookup_eq_aget_of_nodup bD hndB, hnone,
          aget_entityCombine_ne _ aD k hk, lastLookup_eq_aget_of_nodup aD hndA, hv]

/-- C5: crop-season non-deletion.  If any source in the sequence carries a
field entity keyed u whose crop-season collection lists the season uuid s,
then the final merged entity for u still lists s, whatever the later
sources (including sources where the field omits the collection). -/
theorem crop_season_non_deletion
    (pre post F1 F2 : List JVal) (f : JVal) (u : String) (fD : AList JVal)
    (s : String) (hf : keyedDict f = some (u, fD)) (hs : s ∈ seasonUuids fD) :
    ∃ e, aget (mergeFieldsMap (pre ++ JVal.arr (F1 ++ f :: F2) :: post)) u = some e
      ∧ s ∈ seasonUuids e
      ∧ e ∈ mergeFieldsV2ByUuid (pre ++ JVal.arr (F1 ++ f :: F2) :: post) := by
  have hmap : mergeFieldsMap (pre ++ JVal.arr (F1 ++ f :: F2) :: post)
      = post.foldl mergeSourceStep
          (mergeSourceStep (pre.foldl mergeSourceStep []) (JVal.arr (F1 ++ f :: F2))) := by
    unfold mergeFieldsMap
    rw [List.foldl_append]
    simp only [List.foldl_cons]
  have hestablish : ∃ e,
      aget (mergeSourceStep (pre.foldl mergeSourceStep []) (JVal.arr (F1 ++ f :: F2))) u
        = some e ∧ s ∈ seasonUuids e := by
    unfold mergeSourceStep
    have hitems : listItems (JVal.arr (F1 ++ f :: F2)) = F1 ++ f :: F2 := rfl
    rw [hitems, keyedFold_append, keyedFold_valid_step keyedDict _ _ f F2 u fD hf]
    refine keyedFold_preserves keyedDict _ F2 _ u (fun e => s ∈ seasonUuids e) ?_ ?_
    · intro x _ d e hg hP
      exact seasonUuids_entityCombine_of_prev e d s hP
    · refine ⟨entityCombine ((aget (keyedFold keyedDict
          (fun prev fD => entityCombine (prev.getD []) fD)
          (pre.foldl mergeSourceStep []) F1) u).getD []) fD, ?_, ?_⟩
      · rw [aget_ains]
        simp only [if_pos]
        rfl
      · exact seasonUuids_entityCombine_of_next _ fD s hs
  obtain ⟨e, he, hse⟩ := foldl_sources_preserves post _ u s hestablish
  refine ⟨e, ?_, hse, ?_⟩
  · rw [hmap]
    exact he
  · unfold mergeFieldsV2ByUuid
    rw [hmap]
    exact aget_mem_avalues _ u e he

/-- C9 (amended): an entity without a truthy uuid key is silently ignored
by the merge: the merged output is identical with and without it, and
every merged entity carries a truthy uuid; no count of dropped entities is
produced anywhere. -/
theorem merge_uuidless_dropped_and_ignored
    (pre post F1 F2 : List JVal) (bad : JVal) (hbad : keyedDict bad = none) :
    mergeFieldsV2ByUuid (pre ++ JVal.arr (F1 ++ bad :: F2) :: post)
      = mergeFieldsV2ByUuid (pre ++ JVal.arr (F1 ++ F2) :: post)
    ∧ ∀ ls : List JVal, ∀ e ∈ mergeFieldsV2ByUuid ls,
        ∃ w, aget e "uuid" = some w ∧ jTruthy w = true := by
  constructor
  · have hsrc : ∀ m, mergeSourceStep m (JVal.arr (F1 ++ bad :: F2))
        = mergeSourceStep m (JVal.arr (F1 ++ F2)) := by
      intro m
      unfold mergeSourceStep
      have h1 : listItems (JVal.arr (F1 ++ bad :: F2)) = F1 ++ bad :: F2 := rfl
      have h2 : listItems (JVal.arr (F1 ++ F2)) = F1 ++ F2 := rfl
      rw [h1, h2, keyedFold_append, keyedFold_append,
          keyedFold_skip keyedDict _ _ bad F2 hbad]
    unfold mergeFieldsV2ByUuid mergeFieldsMap
    rw [List.foldl_append, List.foldl_append]
    simp only [List.foldl_cons]
    rw [hsrc]
  · intro ls e he
    simp only [mergeFieldsV2ByUuid, avalues] at he
    obtain ⟨p, hp, hpe⟩ := List.mem_map.mp he
    obtain ⟨_, w, hw, htr, _⟩ := mergeFieldsMap_entries ls p hp
    exact ⟨w, hpe ▸ hw, htr⟩

theorem aget_of_mem_nodup {α : Type} (d : AList α) (k : String) (v : α)
    (hnd : (akeys d).Nodup) (h : (k, v) ∈ d) : aget d k = some v := by
  induction d with
  | nil => simp at h
  | cons hd tl ih =>
      obtain ⟨k0, v0⟩ := hd
      simp only [akeys, List.map_cons, List.nodup_cons] at hnd
      rcases List.mem_cons.mp h with h1 | h1
      · cases h1
        simp
      · have hk0 : ¬ k0 = k := by
          intro hh
          subst hh
          exact hnd.1 (List.mem_map.mpr ⟨(k0, v), h1, rfl⟩)
        simp only [aget_cons, if_neg hk0]
        exact ih hnd.2 h1

theorem alist_ext {α : Type} (d1 d2 : AList α)
    (hnd : (akeys d1).Nodup) (hkeys : akeys d1 = akeys d2)
    (hget : ∀ k, aget d1 k = aget d2 k) : d1 = d2 := by
  induction d1 generalizing d2 with
  | nil =>
      cases d2 with
      | nil => rfl
      | cons hd tl => simp [akeys] at hkeys
  | cons hd tl ih =>
      obtain ⟨k0, v0⟩ := hd
      cases d2 with
      | nil => simp [akeys] at hkeys
      | cons hd2 tl2 =>
          obtain ⟨k2, v2⟩ := hd2
          simp only [akeys, List.map_cons, List.cons.injEq] at hkeys
          obtain ⟨hk02, htl⟩ := hkeys
          subst hk02
          simp only [akeys, List.map_cons, List.nodup_cons] at hnd
          have hv : v0 = v2 := by
            have := hget k0
            simp only [aget_cons, if_pos rfl] at this
            exact Option.some.inj this
          subst hv
          have htails : tl = tl2 := by
            refine ih tl2 hnd.2 htl ?_
            intro k
            by_cases hk : k = k0
            · subst hk
              have h1 : aget tl k = none := (aget_eq_none_iff tl k).mpr hnd.1
              have h2 : aget tl2 k = none := by
                refine (aget_eq_none_iff tl2 k).mpr ?_
                rw [show akeys tl2 = akeys tl from htl.symm]
                exact hnd.1
              rw [h1, h2]
            · have := hget k
              have hne : ¬ k0 = k := fun hh => hk hh.symm
              simpa [aget_cons, if_neg hne] using this
          rw [htails]

theorem akeys_ains_of_mem {α : Type} (d : AList α) (k : String) (v : α)
    (h : k ∈ akeys d) : akeys (ains d k v) = akeys d := by
  induction d with
  | nil => simp [akeys] at h
  | cons hd tl ih =>
      obtain ⟨k0, v0⟩ := hd
      by_cases h0 : k0 = k
      · simp [ains, h0, akeys]
      · simp only [akeys, List.map_cons, List.mem_cons] at h
        rcases h with h | h
        · exact absurd h.symm h0
        · simp only [ains, if_neg h0, akeys, List.map_cons]
          rw [show List.map Prod.fst (ains tl k v) = akeys (ains tl k v) from rfl,
              ih h]
          rfl

theorem akeys_aunion_absorbed {α : Type} (a b : AList α)
    (h : ∀ k ∈ akeys b, k ∈ akeys a) : akeys (aunion a b) = akeys a := by
  induction b generalizing a with
  | nil => rfl
  | cons hd tl ih =>
      obtain ⟨k0, v0⟩ := hd
      show akeys (aunion (ains a k0 v0) tl) = akeys a
      have hk0 : k0 ∈ akeys a := h k0 (by simp [akeys])
      have hains : akeys (ains a k0 v0) = akeys a := akeys_ains_of_mem a k0 v0 hk0
      rw [ih (ains a k0 v0) ?_, hains]
      intro k hk
      rw [hains]
      exact h k (by simp [akeys]; right; simpa [akeys] using hk)

theorem aget_map_pairs {δ β : Type} (l : List (String × δ)) (h : δ → β)
    (u : String) (d : δ) (hnd : (l.map Prod.fst).Nodup) (hmem : (u, d) ∈ l) :
    aget (l.map (fun p => (p.1, h p.2))) u = some (h d) := by
  induction l with
  | nil => simp at hmem
  | cons p0 tl ih =>
      obtain ⟨k0, d0⟩ := p0
      simp only [List.map_cons, List.nodup_cons] at hnd
      rcases List.mem_cons.mp hmem with h1 | h1
      · cases h1
        simp
      · have hk0 : ¬ k0 = u := by
          intro hh
          subst hh
          exact hnd.1 (List.mem_map.mpr ⟨(k0, d), h1, rfl⟩)
        simp only [List.map_cons, aget_cons, if_neg hk0]
        exact ih hnd.2 h1

theorem aunion_nil_of_nodup (d : AList JVal) (h : (akeys d).Nodup) :
    aunion [] d = d :=
  aofList_id_of_nodup d h

theorem akeys_map_pairs {δ β : Type} (l : List (String × δ)) (f : δ → β) :
    akeys (l.map (fun p => (p.1, f p.2))) = l.map Prod.fst := by
  simp [akeys, List.map_map, Function.comp]

theorem filterMap_keyedDict_rendered (M : AList (AList JVal))
    (hM : ∀ p ∈ M, entryOk p) :
    ((avalues M).map JVal.obj).filterMap keyedDict = M := by
  induction M with
  | nil => rfl
  | cons p tl ih =>
      obtain ⟨k, d⟩ := p
      have hk := keyedDict_obj_of_entryOk k d (hM (k, d) (by simp))
      simp only [avalues, List.map_cons, List.filterMap_cons, hk]
      rw [show List.map Prod.snd tl = avalues tl from rfl,
          ih fun q hq => hM q (List.mem_cons.mpr (Or.inr hq))]

theorem pyGetV_nil (k : String) : pyGetV [] k = .null := rfl

theorem isNull_null : isNull .null = true := rfl

theorem mergeCropSeasonsFirst_rendered (M : AList (AList JVal))
    (hM : ∀ p ∈ M, entryOk p) (hnd : (akeys M).Nodup) :
    mergeCropSeasonsFirst (.arr ((avalues M).map .obj)) = M := by
  unfold mergeCropSeasonsFirst
  have hitems : listItems (.arr ((avalues M).map JVal.obj)) = (avalues M).map JVal.obj := rfl
  rw [hitems]
  have hfm := filterMap_keyedDict_rendered M hM
  have h1 : ((((avalues M).map JVal.obj).filterMap keyedDict).map Prod.fst).Nodup := by
    rw [hfm]
    exact hnd
  rw [keyedFold_fresh_shape keyedDict _ ((avalues M).map JVal.obj) [] h1
        (by intro p _; simp [akeys]), hfm]
  simp

theorem mergeCropSeasons_replay (w : JVal) (hnds : (jSeasonUuids w).Nodup) :
    mergeCropSeasons (.arr ((avalues (mergeCropSeasons .null w)).map .obj)) w
      = mergeCropSeasons .null w := by
  have hpairsnd : (((listItems w).filterMap keyedDict).map Prod.fst).Nodup := by
    have heq : ((listItems w).filterMap keyedDict).map Prod.fst = jSeasonUuids w := by
      rw [jSeasonUuids, List.map_filterMap]
    rw [heq]
    exact hnds
  have hentries : ∀ p ∈ mergeCropSeasons .null w, entryOk p :=
    mergeCropSeasons_entries .null w
  have hshape : mergeCropSeasons .null w
      = ((listItems w).filterMap keyedDict).map (fun p => (p.1, aunion [] p.2)) := by
    show keyedFold keyedDict (fun prev d => aunion (prev.getD []) d)
        (mergeCropSeasonsFirst .null) (listItems w) = _
    have hfirst : mergeCropSeasonsFirst .null = [] := rfl
    rw [hfirst, keyedFold_fresh_shape keyedDict _ (listItems w) [] hpairsnd (by simp [akeys])]
    simp only [List.nil_append, Option.getD_none]
  have hndM1 : (akeys (mergeCropSeasons .null w)).Nodup := by
    rw [hshape, akeys_map_pairs]
    exact hpairsnd
  show keyedFold keyedDict (fun prev d => aunion (prev.getD []) d)
      (mergeCropSeasonsFirst (.arr ((avalues (mergeCropSeasons .null w)).map .obj)))
      (listItems w) = mergeCropSeasons .null w
  rw [mergeCropSeasonsFirst_rendered (mergeCropSeasons .null w) hentries hndM1]
  refine keyedFold_absorb keyedDict _ (listItems w) _ ?_
  intro x hx k d hg
  have hmemp : (k, d) ∈ (listItems w).filterMap keyedDict :=
    List.mem_filterMap.mpr ⟨x, hx, hg⟩
  have hdok := keyedDict_ok x k d hg
  have hde : aunion [] d = d := aunion_nil_of_nodup d hdok.1
  refine ⟨d, ?_, ?_⟩
  · rw [hshape]
    have := aget_map_pairs ((listItems w).filterMap keyedDict)
      (fun q => aunion [] q) k d hpairsnd hmemp
    rw [this]
    show some (aunion [] d) = some d
    rw [hde]
  · show aunion ((some d).getD []) d = d
    exact aunion_absorb d d fun kv hkv => aget_of_mem_nodup d kv.1 kv.2 hdok.1 hkv

theorem entityCombine_self_absorb (fD : AList JVal)
    (hnd : (akeys fD).Nodup) (hnds : (seasonUuids fD).Nodup) :
    entityCombine (entityCombine [] fD) fD = entityCombine [] fD := by
  by_cases hN : isNull (pyGetV fD csk) = true
  · have hE0 : entityCombine [] fD = fD := by
      unfold entityCombine
      rw [if_pos (by rw [pyGetV_nil, isNull_null, hN]; rfl)]
      exact aunion_nil_of_nodup fD hnd
    rw [hE0]
    unfold entityCombine
    rw [if_pos (by rw [hN]; rfl)]
    exact aunion_absorb fD fD fun kv hkv => aget_of_mem_nodup fD kv.1 kv.2 hnd hkv
  · have hNf : isNull (pyGetV fD csk) = false := by
      cases h : isNull (pyGetV fD csk)
      · rfl
      · exact absurd h hN
    have hE0 : entityCombine [] fD
        = ains fD csk
            (.arr ((avalues (mergeCropSeasons .null (pyGetV fD csk))).map .obj)) := by
      unfold entityCombine
      rw [if_neg (by rw [pyGetV_nil, isNull_null, hNf]; simp),
          aunion_nil_of_nodup fD hnd, pyGetV_nil]
    set M1 : AList (AList JVal) := mergeCropSeasons .null (pyGetV fD csk) with hM1
    set V1 : JVal := .arr ((avalues M1).map .obj) with hV1
    rw [hE0]
    have hget : aget (ains fD csk V1) csk = some V1 := by
      rw [aget_ains]
      simp
    have hgetne : ∀ k, ¬ k = csk → aget (ains fD csk V1) k = aget fD k := by
      intro k hk
      rw [aget_ains, if_neg (fun hh => hk hh.symm)]
    have hndE0 : (akeys (ains fD csk V1)).Nodup := nodup_akeys_ains fD csk V1 hnd
    have hpE0 : pyGetV (ains fD csk V1) csk = V1 := by
      rw [pyGetV, hget]
      rfl
    have hisV1 : isNull V1 = false := by
      rw [hV1]
      rfl
    have hcond : (isNull (pyGetV (ains fD csk V1) csk) && isNull (pyGetV fD csk)) = false := by
      rw [hpE0, hisV1]
      rfl
    have hkeysEq : akeys (entityCombine (ains fD csk V1) fD) = akeys (ains fD csk V1) := by
      unfold entityCombine
      rw [if_neg (by rw [hcond]; simp)]
      have hsub : ∀ k ∈ akeys fD, k ∈ akeys (ains fD csk V1) := fun k hk =>
        (mem_akeys_ains fD csk k V1).mpr (Or.inr hk)
      have hun : akeys (aunion (ains fD csk V1) fD) = akeys (ains fD csk V1) :=
        akeys_aunion_absorbed _ fD hsub
      rw [akeys_ains_of_mem _ csk _
            (by rw [hun]; exact (mem_akeys_ains fD csk csk V1).mpr (Or.inl rfl)), hun]
    have hreplay : mergeCropSeasons (pyGetV (ains fD csk V1) csk) (pyGetV fD csk) = M1 := by
      rw [hpE0, hV1, hM1]
      exact mergeCropSeasons_replay (pyGetV fD csk) hnds
    have hgetcsk : aget (entityCombine (ains fD csk V1) fD) csk = some V1 := by
      rw [aget_entityCombine_csk _ fD hcond, hreplay, hV1]
    refine (alist_ext (ains fD csk V1) (entityCombine (ains fD csk V1) fD)
      hndE0 hkeysEq.symm ?_).symm
    intro k
    by_cases hk : k = csk
    · subst hk
      rw [hget, hgetcsk]
    · rw [aget_entityCombine_ne _ fD k hk, lastLookup_eq_aget_of_nodup fD hnd]
      cases h : aget fD k with
      | none => rfl
      | some v => rw [hgetne k hk, h]


/-- C6: merging the same valid field list twice yields exactly the same
merged output as merging it once. -/
theorem merge_idempotent (X : JVal) (hval : FieldListValid X) :
    mergeFieldsV2ByUuid [X, X] = mergeFieldsV2ByUuid [X] := by
  obtain ⟨hnd, hseasons⟩ := hval
  have hmap1 : mergeFieldsMap [X] = mergeSourceStep [] X := by
    unfold mergeFieldsMap
    simp
  have hmap2 : mergeFieldsMap [X, X] = mergeSourceStep (mergeSourceStep [] X) X := by
    unfold mergeFieldsMap
    simp
  have hshape : mergeSourceStep [] X
      = ((listItems X).filterMap keyedDict).map
          (fun p => (p.1, entityCombine [] p.2)) := by
    unfold mergeSourceStep
    rw [keyedFold_fresh_shape keyedDict _ (listItems X) [] hnd (by simp [akeys])]
    simp only [List.nil_append, Option.getD_none]
  have habsorb : mergeSourceStep (mergeSourceStep [] X) X = mergeSourceStep [] X := by
    unfold mergeSourceStep
    refine keyedFold_absorb keyedDict _ (listItems X) _ ?_
    intro x hx k d hg
    have hmemp : (k, d) ∈ (listItems X).filterMap keyedDict :=
      List.mem_filterMap.mpr ⟨x, hx, hg⟩
    have hdok := keyedDict_ok x k d hg
    refine ⟨entityCombine [] d, ?_, ?_⟩
    · show aget (mergeSourceStep [] X) k = _
      rw [hshape]
      exact aget_map_pairs _ _ k d hnd hmemp
    · show entityCombine ((some (entityCombine [] d)).getD []) d = entityCombine [] d
      exact entityCombine_self_absorb d hdok.1 (hseasons x hx k d hg)
  unfold mergeFieldsV2ByUuid
  rw [hmap1, hmap2, habsorb]

theorem isEmpty_eq_false_iff {α : Type} (l : List α) : l.isEmpty = false ↔ l ≠ [] := by
  cases l <;> simp

theorem isEmpty_eq_true_iff {α : Type} (l : List α) : l.isEmpty = true ↔ l = [] := by
  cases l <;> simp

/-- Case analysis of the chunked controller: all chunks failed, strict
incompleteness, or a JSON body. -/
theorem chunkedController_cases (env : Nat → List String → Nat → AttemptOut)
    (farms : List String) (rc is ws : Bool) (cs : Int) (att : Nat) :
    ((chunkedPhase env farms cs att).successes.isEmpty = true ∧
      chunkedController env farms rc is ws cs att
        = .err 502 (.allChunksFailed ((chunkedPhase env farms cs att).failures.take 50)))
    ∨ ((chunkedPhase env farms cs att).successes.isEmpty = false
        ∧ (rc && (!(chunkedPhase env farms cs att).failures.isEmpty
            || !(chunkedMissing env farms cs att).isEmpty)) = true
        ∧ chunkedController env farms rc is ws cs att
            = .err 502 (.incomplete ((chunkedPhase env farms cs att).failures.take 50)
                (chunkedMergedFields env farms cs att).length
                ((chunkedMissing env farms cs att).take 100)
                ((chunkedPhase env farms cs att).retried.take 100)))
    ∨ ((chunkedPhase env farms cs att).successes.isEmpty = false
        ∧ (rc && (!(chunkedPhase env farms cs att).failures.isEmpty
            || !(chunkedMissing env farms cs att).isEmpty)) = false
        ∧ chunkedController env farms rc is ws cs att
            = .ok (chunkedOkBody env farms is ws cs att)) := by
  by_cases h1 : (chunkedPhase env farms cs att).successes.isEmpty = true
  · refine Or.inl ⟨h1, ?_⟩
    unfold chunkedController
    rw [if_pos h1]
  · have h1f : (chunkedPhase env farms cs att).successes.isEmpty = false := by
      revert h1
      cases (chunkedPhase env farms cs att).successes.isEmpty <;> simp
    by_cases h2 : (rc && (!(chunkedPhase env farms cs att).failures.isEmpty
        || !(chunkedMissing env farms cs att).isEmpty)) = true
    · refine Or.inr (Or.inl ⟨h1f, h2, ?_⟩)
      unfold chunkedController
      rw [if_neg h1, if_pos h2]
    · have h2f : (rc && (!(chunkedPhase env farms cs att).failures.isEmpty
          || !(chunkedMissing env farms cs att).isEmpty)) = false := by
        revert h2
        cases (rc && (!(chunkedPhase env farms cs att).failures.isEmpty
          || !(chunkedMissing env farms cs att).isEmpty)) <;> simp
      refine Or.inr (Or.inr ⟨h1f, h2f, ?_⟩)
      unfold chunkedController
      rw [if_neg h1, if_neg h2]

theorem missingFarms_mem_chunkedWarns (env : Nat → List String → Nat → AttemptOut)
    (farms : List String) (is ws : Bool) (cs : Int) (att : Nat)
    (h : (chunkedMissing env farms cs att).isEmpty = false) :
    ChunkedWarn.missingFarms ((chunkedMissing env farms cs att).take 100)
      ∈ chunkedWarns env farms is ws cs att := by
  unfold chunkedWarns
  simp only []
  have hb : (!(chunkedMissing env farms cs att).isEmpty) = true := by rw [h]; rfl
  rw [if_pos hb]
  simp

theorem chunkedPartial_mem_chunkedWarns (env : Nat → List String → Nat → AttemptOut)
    (farms : List String) (is ws : Bool) (cs : Int) (att : Nat)
    (h : (chunkedPhase env farms cs att).failures.isEmpty = false) :
    ChunkedWarn.chunkedPartial (chunkedPhase env farms cs att).failures.length
      ∈ chunkedWarns env farms is ws cs att := by
  unfold chunkedWarns
  simp only []
  have hb : (!(chunkedPhase env farms cs att).failures.isEmpty) = true := by rw [h]; rfl
  rw [if_pos hb]
  simp

/-- C2 (amended): whenever the chunked controller returns a JSON body,
its diagnostics carry the requested count, the covered count and the
first 100 missing farm uuids; every requested-but-uncovered uuid is in
the missing list; and a missing-farms warning carries the first 100 of
them.  (Covered uuids are extracted from upstream-supplied farm
references, so coveredFarmCount can exceed requestedFarmCount.) -/
theorem chunked_missing_reporting (env : Nat → List String → Nat → AttemptOut)
    (farms : List String) (rc is ws : Bool) (cs : Int) (att : Nat) (out : ChunkedOut)
    (h : chunkedController env farms rc is ws cs att = .ok out) :
    out.diagnostics.requestedFarmCount = (requestedOf farms).length
    ∧ out.diagnostics.coveredFarmCount = (chunkedCovered env farms cs att).length
    ∧ out.diagnostics.missingFarmUuids = (chunkedMissing env farms cs att).take 100
    ∧ (∀ u ∈ requestedOf farms, u ∉ chunkedCovered env farms cs att →
        u ∈ chunkedMissing env farms cs att)
    ∧ (chunkedMissing env farms cs att ≠ [] →
        ChunkedWarn.missingFarms ((chunkedMissing env farms cs att).take 100)
          ∈ out.warnings) := by
  rcases chunkedController_cases env farms rc is ws cs att with
    ⟨_, hres⟩ | ⟨_, _, hres⟩ | ⟨_, _, hres⟩
  · rw [hres] at h
    exact ChunkedResult.noConfusion h
  · rw [hres] at h
    exact ChunkedResult.noConfusion h
  · rw [hres] at h
    have hout : out = chunkedOkBody env farms is ws cs att :=
      (ChunkedResult.ok.inj h).symm
    subst hout
    refine ⟨rfl, rfl, rfl, ?_, ?_⟩
    · intro u hu hnc
      unfold chunkedMissing
      rw [List.mem_filter]
      exact ⟨hu, by simpa using hnc⟩
    · intro hne
      have hb : (chunkedMissing env farms cs att).isEmpty = false :=
        (isEmpty_eq_false_iff _).mpr hne
      show _ ∈ chunkedWarns env farms is ws cs att
      exact missingFarms_mem_chunkedWarns env farms is ws cs att hb

/-- C2 counterexample: with one requested farm and an upstream whose
fields reference two other farms, the covered count (2) exceeds the
requested count (1): the covered set of the merged response is not a
subset of the requested identifier set. -/
theorem chunked_covered_subset_cex :
    chunkedDiagOf (chunkedController envOverrun ["a"] false false false 1 3)
      = some { requestedFarmCount := 1, coveredFarmCount := 2,
               missingFarmUuids := ["a"], retriedFailedFarmUuids := [] }
    ∧ ¬ (2 ≤ 1) :=
  ⟨rfl, by decide⟩

/-- C3: chunked failure semantics.  When no chunk succeeds after both
rounds the call raises 502 with the failed chunks; when some chunk
succeeded but a chunk failed or a requested farm is uncovered, strict
mode raises 502 with full diagnostics while non-strict mode returns
ok false with status 206 and a non-empty warnings list; a returned body
has ok true and status 200 exactly when there are no failed chunks and
no missing farms. -/
theorem chunked_failure_semantics (env : Nat → List String → Nat → AttemptOut)
    (farms : List String) (is ws : Bool) (cs : Int) (att : Nat) :
    ((chunkedPhase env farms cs att).successes = [] →
       ∀ rc : Bool, chunkedController env farms rc is ws cs att
         = .err 502 (.allChunksFailed ((chunkedPhase env farms cs att).failures.take 50)))
    ∧ ((chunkedPhase env farms cs att).successes ≠ [] →
       ((chunkedPhase env farms cs att).failures ≠ [] ∨ chunkedMissing env farms cs att ≠ []) →
       (chunkedController env farms true is ws cs att
          = .err 502 (.incomplete ((chunkedPhase env farms cs att).failures.take 50)
              (chunkedMergedFields env farms cs att).length
              ((chunkedMissing env farms cs att).take 100)
              ((chunkedPhase env farms cs att).retried.take 100)))
       ∧ (∃ out, chunkedController env farms false is ws cs att = .ok out
            ∧ out.okFlag = false ∧ out.status = 206 ∧ out.warnings ≠ []))
    ∧ (∀ (rc : Bool) (out : ChunkedOut),
         chunkedController env farms rc is ws cs att = .ok out →
         ((out.okFlag = true ∧ out.status = 200)
            ↔ ((chunkedPhase env farms cs att).failures = []
               ∧ chunkedMissing env farms cs att = []))) := by
  refine ⟨?_, ?_, ?_⟩
  · intro hempty rc
    have h1 : (chunkedPhase env farms cs att).successes.isEmpty = true :=
      (isEmpty_eq_true_iff _).mpr hempty
    rcases chunkedController_cases env farms rc is ws cs att with
      ⟨_, hres⟩ | ⟨hne, _, _⟩ | ⟨hne, _, _⟩
    · exact hres
    · rw [h1] at hne; exact Bool.noConfusion hne
    · rw [h1] at hne; exact Bool.noConfusion hne
  · intro hne hbad
    have h1 : (chunkedPhase env farms cs att).successes.isEmpty = false :=
      (isEmpty_eq_false_iff _).mpr hne
    have hcond : ((!(chunkedPhase env farms cs att).failures.isEmpty
        || !(chunkedMissing env farms cs att).isEmpty)) = true := by
      rcases hbad with hf | hm
      · have := (isEmpty_eq_false_iff _).mpr hf
        rw [this]
        rfl
      · have := (isEmpty_eq_false_iff _).mpr hm
        rw [this]
        simp
    constructor
    · rcases chunkedController_cases env farms true is ws cs att with
        ⟨he, _⟩ | ⟨_, _, hres⟩ | ⟨_, hc, _⟩
      · rw [h1] at he; exact Bool.noConfusion he
      · exact hres
      · rw [Bool.true_and, hcond] at hc
        exact Bool.noConfusion hc
    · rcases chunkedController_cases env farms false is ws cs att with
        ⟨he, _⟩ | ⟨_, hc, _⟩ | ⟨_, _, hres⟩
      · rw [h1] at he; exact Bool.noConfusion he
      · rw [Bool.false_and] at hc
        exact Bool.noConfusion hc
      · refine ⟨chunkedOkBody env farms is ws cs att, hres, ?_, ?_, ?_⟩
        · show (!(!(chunkedPhase env farms cs att).failures.isEmpty
            || !(chunkedMissing env farms cs att).isEmpty)) = false
          rw [hcond]
          rfl
        · show (if (!(chunkedPhase env farms cs att).failures.isEmpty
            || !(chunkedMissing env farms cs att).isEmpty) = true
              then (206 : Int) else 200) = 206
          rw [hcond]
          rfl
        · show chunkedWarns env farms is ws cs att ≠ []
          rcases hbad with hf | hm
          · exact List.ne_nil_of_mem
              (chunkedPartial_mem_chunkedWarns env farms is ws cs att
                ((isEmpty_eq_false_iff _).mpr hf))
          · exact List.ne_nil_of_mem
              (missingFarms_mem_chunkedWarns env farms is ws cs att
                ((isEmpty_eq_false_iff _).mpr hm))
  · intro rc out h
    rcases chunkedController_cases env farms rc is ws cs att with
      ⟨_, hres⟩ | ⟨_, _, hres⟩ | ⟨_, _, hres⟩
    · rw [hres] at h; exact ChunkedResult.noConfusion h
    · rw [hres] at h; exact ChunkedResult.noConfusion h
    · rw [hres] at h
      have hout : out = chunkedOkBody env farms is ws cs att :=
        (ChunkedResult.ok.inj h).symm
      subst hout
      constructor
      · intro ⟨hok, _⟩
        have hc : ((!(chunkedPhase env farms cs att).failures.isEmpty
            || !(chunkedMissing env farms cs att).isEmpty)) = false := by
          have : (!(!(chunkedPhase env farms cs att).failures.isEmpty
              || !(chunkedMissing env farms cs att).isEmpty)) = true := hok
          revert this
          cases (!(chunkedPhase env farms cs att).failures.isEmpty
              || !(chunkedMissing env farms cs att).isEmpty) <;> simp
        have hsplit := Bool.or_eq_false_iff.mp hc
        constructor
        · have : (chunkedPhase env farms cs att).failures.isEmpty = true := by
            have h2 := hsplit.1
            revert h2
            cases (chunkedPhase env farms cs att).failures.isEmpty <;> simp
          exact (isEmpty_eq_true_iff _).mp this
        · have : (chunkedMissing env farms cs att).isEmpty = true := by
            have h2 := hsplit.2
            revert h2
            cases (chunkedMissing env farms cs att).isEmpty <;> simp
          exact (isEmpty_eq_true_iff _).mp this
      · intro ⟨hf, hm⟩
        have hfe : (chunkedPhase env farms cs att).failures.isEmpty = true :=
          (isEmpty_eq_true_iff _).mpr hf
        have hme : (chunkedMissing env farms cs att).isEmpty = true :=
          (isEmpty_eq_true_iff _).mpr hm
        constructor
        · show (!(!(chunkedPhase env farms cs att).failures.isEmpty
            || !(chunkedMissing env farms cs att).isEmpty)) = true
          rw [hfe, hme]
          rfl
        · show (if (!(chunkedPhase env farms cs att).failures.isEmpty
            || !(chunkedMissing env farms cs att).isEmpty) = true
              then (206 : Int) else 200) = 200
          rw [hfe, hme]
          rfl

/-- C9 counterexample: the entire chunked response, its diagnostics block
included, is identical whether or not the upstream field list contains an
entity lacking its uuid key, so the number of dropped entities is not
counted anywhere in the response. -/
theorem chunked_dropped_not_counted_cex :
    chunkedController envWithBadEntity ["a"] false false false 1 3
      = chunkedController envWithoutBadEntity ["a"] false false false 1 3 := rfl

/-! ### Dispatcher claims -/

/-- C10: a request whose de-duplicated, empty-string-filtered farm list
exceeds max(sync_max, hard_max) (defaults 200 and 500) is dispatched to
the 422 too_many_farms rejection, which carries the received and maximum
counts and runs before any sub-query planning or upstream call; the hard
cap never drops below the sync threshold. -/
theorem hard_cap_rejection (raw : List String) (stream : Bool)
    (syncMax hardRaw threshold : Int)
    (h : ((combinedFarms raw).length : Int) > max syncMax hardRaw) :
    combinedFieldsDispatch raw stream syncMax hardRaw threshold
      = .reject422 "too_many_farms" (combinedFarms raw).length
          (max syncMax hardRaw) syncMax
    ∧ syncMax ≤ max syncMax hardRaw := by
  refine ⟨?_, le_max_left _ _⟩
  unfold combinedFieldsDispatch
  simp only []
  rw [if_pos h]

theorem hard_cap_rejection_witness :
    combinedFieldsDispatch ["a", "b", "c"] false 1 2 20
      = .reject422 "too_many_farms" (combinedFarms ["a", "b", "c"]).length
          (max 1 2) 1
    ∧ (1 : Int) ≤ max 1 2 :=
  hard_cap_rejection ["a", "b", "c"] false 1 2 20 (by decide)

/-! ### Single-pipeline claims -/

/-- One expired step of the optional dispatch loop: time and issued
calls do not move, the fetched map either stays or records the budget
timeout for the label, and a planned applicable non-base label is
always recorded as a budget timeout. -/
theorem optionalStep_expired (req : SReq) (plan : List String)
    (callEnv : String → CallSpec) (optTimeout : Int) (st : SchedState) (l : String)
    (hflag : l = "base" ∨ optionalWithTimeout req.includeTasks l = true)
    (hexp : optTimeout - st.now ≤ 0) :
    (optionalStep req plan callEnv optTimeout st l).now = st.now
    ∧ (optionalStep req plan callEnv optTimeout st l).calls = st.calls
    ∧ ((optionalStep req plan callEnv optTimeout st l).fetched = st.fetched
        ∨ (optionalStep req plan callEnv optTimeout st l).fetched
            = ains st.fetched l (.excBudget l))
    ∧ (l ≠ "base" → l ∈ plan → labelApplicable req.withSprayingsV2 l = true →
        (optionalStep req plan callEnv optTimeout st l).fetched
          = ains st.fetched l (.excBudget l)) := by
  by_cases hb : l = "base"
  · refine ⟨?_, ?_, Or.inl ?_, fun hne _ _ => absurd hb hne⟩ <;>
      simp [optionalStep, hb]
  · have hbeq : (l == "base") = false := by
      simpa using hb
    by_cases hp : l ∈ plan
    · by_cases ha : labelApplicable req.withSprayingsV2 l = true
      · have hflag2 : optionalWithTimeout req.includeTasks l = true :=
          hflag.resolve_left hb
        have hred : optionalStep req plan callEnv optTimeout st l
            = ⟨st.now, ains st.fetched l (.excBudget l), st.calls⟩ := by
          unfold optionalStep
          rw [if_neg (by simp [hbeq]), if_neg (by simpa using hp),
            if_neg (by simp [ha])]
          simp only []
          rw [if_pos hexp, if_pos hflag2]
        rw [hred]
        exact ⟨rfl, rfl, Or.inr rfl, fun _ _ _ => rfl⟩
      · have ha2 : labelApplicable req.withSprayingsV2 l = false := by
          revert ha
          cases labelApplicable req.withSprayingsV2 l <;> simp
        have hred : optionalStep req plan callEnv optTimeout st l = st := by
          unfold optionalStep
          rw [if_neg (by simp [hbeq]), if_neg (by simpa using hp),
            if_pos (by simp [ha2])]
        rw [hred]
        exact ⟨rfl, rfl, Or.inl rfl, fun _ _ hla => absurd hla ha⟩
    · have hred : optionalStep req plan callEnv optTimeout st l = st := by
        unfold optionalStep
        rw [if_neg (by simp [hbeq]), if_pos hp]
      rw [hred]
      exact ⟨rfl, rfl, Or.inl rfl, fun _ hlp _ => absurd hlp hp⟩

/-- C7 (amended): inside the budgeted optional dispatch loop the claim
holds — once the shared budget has expired, the rest of the loop issues
no upstream call, every remaining planned applicable Optional label is
recorded as a budget timeout without being executed, and entries for
labels the loop no longer visits are kept.  (The dedicated insights
retry that runs AFTER the loop is budget-independent: see the
counterexample.) -/
theorem budget_expiry_cancellation (req : SReq) (plan : List String)
    (callEnv : String → CallSpec) (optTimeout : Int) :
    ∀ (labels : List String) (st : SchedState),
      (∀ l ∈ labels, l = "base" ∨ optionalWithTimeout req.includeTasks l = true) →
      optTimeout - st.now ≤ 0 →
      (optionalLoop req plan callEnv optTimeout labels st).calls = st.calls
      ∧ (∀ l ∈ labels, l ≠ "base" → l ∈ plan →
          labelApplicable req.withSprayingsV2 l = true →
          aget (optionalLoop req plan callEnv optTimeout labels st).fetched l
            = some (.excBudget l))
      ∧ (∀ l, l ∉ labels →
          aget (optionalLoop req plan callEnv optTimeout labels st).fetched l
            = aget st.fetched l) := by
  intro labels
  induction labels with
  | nil =>
      intro st _ _
      exact ⟨rfl, by intro l hl; simp at hl, fun l _ => rfl⟩
  | cons l0 rest ih =>
      intro st hflag hexp
      have hstep := optionalStep_expired req plan callEnv optTimeout st l0
        (hflag l0 (by simp)) hexp
      have hloop : optionalLoop req plan callEnv optTimeout (l0 :: rest) st
          = optionalLoop req plan callEnv optTimeout rest
              (optionalStep req plan callEnv optTimeout st l0) := rfl
      have hexp1 : optTimeout - (optionalStep req plan callEnv optTimeout st l0).now ≤ 0 := by
        rw [hstep.1]
        exact hexp
      have hflag1 : ∀ l ∈ rest, l = "base" ∨ optionalWithTimeout req.includeTasks l = true :=
        fun l hl => hflag l (by simp [hl])
      obtain ⟨ih1, ih2, ih3⟩ := ih (optionalStep req plan callEnv optTimeout st l0)
        hflag1 hexp1
      refine ⟨?_, ?_, ?_⟩
      · rw [hloop, ih1, hstep.2.1]
      · intro l hl hlb hlp hla
        by_cases hmem : l ∈ rest
        · rw [hloop]
          exact ih2 l hmem hlb hlp hla
        · have hl0 : l = l0 := by
            rcases List.mem_cons.mp hl with h | h
            · exact h
            · exact absurd h hmem
          subst hl0
          rw [hloop, ih3 l hmem, hstep.2.2.2 hlb hlp hla, aget_ains]
          simp
      · intro l hl
        have hl0 : ¬ l = l0 := by
          intro hh
          exact hl (by simp [hh])
        have hlr : l ∉ rest := fun hh => hl (by simp [hh])
        rw [hloop, ih3 l hlr]
        rcases hstep.2.2.1 with hsame | hains
        · rw [hsame]
        · rw [hains, aget_ains, if_neg (fun hh => hl0 hh.symm)]

theorem budget_expiry_cancellation_witness :
    (optionalLoop sReqA ["insights"] (fun _ => ⟨1, .exc "x"⟩) 0 ["insights"]
        ⟨0, [], []⟩).calls = ([] : List CallRecord)
    ∧ aget (optionalLoop sReqA ["insights"] (fun _ => ⟨1, .exc "x"⟩) 0 ["insights"]
        ⟨0, [], []⟩).fetched "insights" = some (.excBudget "insights") := by
  have h := budget_expiry_cancellation sReqA ["insights"] (fun _ => ⟨1, .exc "x"⟩) 0
    ["insights"] ⟨0, [], []⟩ (by intro l hl; right; simp at hl; rw [hl]; rfl)
    (by decide)
  exact ⟨h.1, h.2.1 "insights" (by simp) (by decide) (by simp) rfl⟩

/-- C7 counterexample: with an empty cache and an already-exhausted
budget, the loop records insights as a budget timeout without issuing
it, but the dedicated insights retry that follows still issues an
insights upstream call (budget-independent) and overwrites the timeout
record, so the pipeline as a whole does issue an Optional call after
expiry. -/
theorem budget_expiry_retry_cex :
    aget (optionalLoop sReqA (fetchPlanLabels sReqA []) callEnvRetBase 0
        (configLabels true)
        (baseFetch sReqA (fetchPlanLabels sReqA []) callEnvRetBase baseRetryFix 100
          ⟨0, [], []⟩)).fetched "insights" = some (.excBudget "insights")
    ∧ (singleController sReqA coldLookup callEnvRetBase baseRetryFix retryRet
        100 0 id).2 = [.first "base", .insightsRetry 1]
    ∧ aget (fetchOf sReqA coldLookup callEnvRetBase baseRetryFix retryRet 100 0).1
        "insights" = some (.env wfEnv) :=
  ⟨rfl, rfl, rfl⟩

/-- C1 (amended): when the base entry of `{**prepared_cache, **fetched}`
is an error, the single pipeline short-circuits: an exception raises
HTTP 500 with reason combined_fields_failed and the diagnostics dict,
and an error envelope returns an error body with its status (default
500), the same reason, the diagnostics dict and the plan labels; neither
outcome carries a merged field list.  The diagnostics dict covers only
the base / insights / predictions (and tasks) labels, not every
sub-query. -/
theorem critical_failure_short_circuit (req : SReq)
    (cacheLookup : String → Option Env0) (callEnv : String → CallSpec)
    (baseRetrySpec : CallSpec) (retryEnv : Nat → CallOut) (bt ot : Int)
    (enrich : AList JVal → AList JVal) (r : FetchRes)
    (hb : aget (combinedMap (pcOf req cacheLookup)
        (fetchOf req cacheLookup callEnv baseRetrySpec retryEnv bt ot).1) "base"
      = some r)
    (herr : isErrRes r = true) :
    (isExcRes r = true
      ∧ (singleController req cacheLookup callEnv baseRetrySpec retryEnv bt ot
          enrich).1
        = .raised 500 "combined_fields_failed"
            (singleDiag req cacheLookup callEnv baseRetrySpec retryEnv bt ot))
    ∨ (∃ e, r = .env e ∧ e.ok = some false
        ∧ (singleController req cacheLookup callEnv baseRetrySpec retryEnv bt ot
            enrich).1
          = .errBody (e.status.getD 500) "combined_fields_failed"
              (singleDiag req cacheLookup callEnv baseRetrySpec retryEnv bt ot)
              (fetchPlanLabels req (pcOf req cacheLookup))) := by
  unfold singleController
  simp only []
  unfold pcOf fetchOf at hb
  unfold pcOf at hb
  rw [hb]
  cases r with
  | env e =>
      right
      obtain ⟨o, st0, so, rq, rs, su⟩ := e
      rcases o with _ | b
      · exact Bool.noConfusion herr
      · cases b with
        | false => exact ⟨.mk (some false) st0 so rq rs su, rfl, rfl, rfl⟩
        | true => exact Bool.noConfusion herr
  | excGeneral m => exact Or.inl ⟨rfl, rfl⟩
  | excTimeout l => exact Or.inl ⟨rfl, rfl⟩
  | excBudget l => exact Or.inl ⟨rfl, rfl⟩

theorem critical_failure_short_circuit_witness :
    (isExcRes (.excGeneral "boom") = true
      ∧ (singleController sReqA coldLookup callEnvBoom baseRetryFix retryExc
          100 100 id).1
        = .raised 500 "combined_fields_failed"
            (singleDiag sReqA coldLookup callEnvBoom baseRetryFix retryExc 100 100))
    ∨ (∃ e, FetchRes.excGeneral "boom" = .env e ∧ e.ok = some false
        ∧ (singleController sReqA coldLookup callEnvBoom baseRetryFix retryExc
            100 100 id).1
          = .errBody (e.status.getD 500) "combined_fields_failed"
              (singleDiag sReqA coldLookup callEnvBoom baseRetryFix retryExc 100 100)
              (fetchPlanLabels sReqA (pcOf sReqA coldLookup))) :=
  critical_failure_short_circuit sReqA coldLookup callEnvBoom baseRetryFix
    retryExc 100 100 id (.excGeneral "boom") rfl rfl

/-! ### Helpers for the warm-cache scenario -/

theorem aget_map_pairs_all {δ β : Type} (l : AList δ) (h : δ → β) (k : String) :
    aget (l.map (fun p => (p.1, h p.2))) k = (aget l k).map h := by
  induction l with
  | nil => rfl
  | cons hd tl ih =>
      obtain ⟨k0, v0⟩ := hd
      by_cases h0 : k0 = k
      · simp [aget, h0]
      · simp [aget, h0, ih]

theorem nodup_akeys_keyedFold {γ δ β : Type} (g : γ → Option (String × δ))
    (combine : Option β → δ → β) :
    ∀ (l : List γ) (m : AList β), (akeys m).Nodup →
      (akeys (keyedFold g combine m l)).Nodup := by
  intro l
  induction l with
  | nil => intro m hm; exact hm
  | cons x rest ih =>
      intro m hm
      show (akeys (List.foldl _ _ (x :: rest))).Nodup
      rw [List.foldl_cons]
      rcases hg : g x with _ | p
      · exact ih m hm
      · obtain ⟨k0, d0⟩ := p
        exact ih _ (nodup_akeys_ains m k0 _ hm)

theorem keyedFold_const_values {γ δ : Type} (g : γ → Option (String × δ))
    (P : String → δ → Prop) :
    ∀ (l : List γ) (m : AList δ),
      (∀ k d, aget m k = some d → P k d) →
      (∀ x ∈ l, ∀ k d, g x = some (k, d) → P k d) →
      ∀ k d, aget (keyedFold g (fun _ c => c) m l) k = some d → P k d := by
  intro l
  induction l with
  | nil => intro m hm _ k d h; exact hm k d h
  | cons x rest ih =>
      intro m hm hg k d h
      show P k d
      have hstep : keyedFold g (fun _ c => c) m (x :: rest)
          = keyedFold g (fun _ c => c)
              (match g x with
               | none => m
               | some (k0, d0) => ains m k0 d0) rest := by
        rcases hgx : g x with _ | p
        · simp [keyedFold, hgx]
        · obtain ⟨k0, d0⟩ := p
          simp [keyedFold, hgx]
      rw [hstep] at h
      rcases hgx : g x with _ | p
      · rw [hgx] at h
        exact ih m hm (fun y hy => hg y (by simp [hy])) k d h
      · obtain ⟨k0, d0⟩ := p
        rw [hgx] at h
        refine ih (ains m k0 d0) ?_ (fun y hy => hg y (by simp [hy])) k d h
        intro k1 d1 h1
        rw [aget_ains] at h1
        by_cases hk : k0 = k1
        · rw [if_pos hk] at h1
          cases h1
          exact hk ▸ hg x (by simp) k0 d0 hgx
        · rw [if_neg hk] at h1
          exact hm k1 d1 h1

theorem omap_isSome {α β : Type} (f : α → Option β) :
    ∀ l : List α, (∀ a ∈ l, (f a).isSome) → ∃ bs, omap f l = some bs := by
  intro l
  induction l with
  | nil => intro _; exact ⟨[], rfl⟩
  | cons a rest ih =>
      intro h
      rcases Option.isSome_iff_exists.mp (h a (by simp)) with ⟨b, hb⟩
      rcases ih (fun x hx => h x (by simp [hx])) with ⟨bs, hbs⟩
      refine ⟨b :: bs, ?_⟩
      unfold omap
      rw [hb, hbs]

theorem omap_mem {α β : Type} (f : α → Option β) :
    ∀ (l : List α) (bs : List β), omap f l = some bs →
      ∀ b ∈ bs, ∃ a ∈ l, f a = some b := by
  intro l
  induction l with
  | nil =>
      intro bs h b hb
      unfold omap at h
      cases h
      simp at hb
  | cons a rest ih =>
      intro bs h b hb
      unfold omap at h
      rcases hfa : f a with _ | b0
      · rw [hfa] at h; exact Option.noConfusion h
      · rw [hfa] at h
        rcases hrest : omap f rest with _ | bs0
        · rw [hrest] at h; exact Option.noConfusion h
        · rw [hrest] at h
          cases h
          rcases List.mem_cons.mp hb with h1 | h1
          · exact ⟨a, by simp, h1 ▸ hfa⟩
          · rcases ih bs0 hrest b h1 with ⟨a2, ha2, hfa2⟩
            exact ⟨a2, by simp [ha2], hfa2⟩

theorem ofoldl_ok {α β : Type} (f : β → α → Option β) (P : β → Prop)
    (Q : α → Prop) :
    ∀ (l : List α), (∀ a ∈ l, Q a) →
      (∀ b a, Q a → P b → ∃ b2, f b a = some b2 ∧ P b2) →
      ∀ b, P b → ∃ b2, ofoldl f b l = some b2 ∧ P b2 := by
  intro l
  induction l with
  | nil => intro _ _ b hb; exact ⟨b, rfl, hb⟩
  | cons a rest ih =>
      intro hq hstep b hb
      rcases hstep b a (hq a (by simp)) hb with ⟨b1, hb1, hp1⟩
      rcases ih (fun x hx => hq x (by simp [hx])) hstep b1 hp1 with ⟨b2, hb2, hp2⟩
      refine ⟨b2, ?_, hp2⟩
      unfold ofoldl
      rw [hb1]
      exact hb2

theorem mem_jains {α : Type} :
    ∀ (m : List (JVal × α)) (k : JVal) (v : α) (p : JVal × α),
      p ∈ jains m k v → p.2 = v ∨ p ∈ m := by
  intro m
  induction m with
  | nil =>
      intro k v p hp
      unfold jains at hp
      rcases List.mem_singleton.mp hp with h
      rw [h]
      exact Or.inl rfl
  | cons q rest ih =>
      intro k v p hp
      obtain ⟨k0, v0⟩ := q
      unfold jains at hp
      by_cases hk : jEq k0 k = true
      · rw [if_pos hk] at hp
        rcases List.mem_cons.mp hp with h1 | h1
        · rw [h1]; exact Or.inl rfl
        · exact Or.inr (by simp [h1])
      · rw [if_neg hk] at hp
        rcases List.mem_cons.mp hp with h1 | h1
        · exact Or.inr (by simp [h1])
        · rcases ih k v p h1 with h2 | h2
          · exact Or.inl h2
          · exact Or.inr (by simp [h2])

theorem jaget_mem {α : Type} :
    ∀ (m : List (JVal × α)) (u : JVal) (d : α),
      jaget m u = some d → ∃ k, (k, d) ∈ m := by
  intro m
  induction m with
  | nil => intro u d h; exact Option.noConfusion h
  | cons q rest ih =>
      intro u d h
      obtain ⟨k0, v0⟩ := q
      unfold jaget at h
      by_cases hk : jEq k0 u = true
      · rw [if_pos hk] at h
        cases h
        exact ⟨k0, by simp⟩
      · rw [if_neg hk] at h
        rcases ih u d h with ⟨k, hkm⟩
        exact ⟨k, by simp [hkm]⟩

theorem aget_isSome_aunion {α : Type} (a b : AList α) (k : String)
    (h : (aget a k).isSome) : (aget (aunion a b) k).isSome := by
  rw [aget_aunion]
  rcases lastLookup b k with _ | v
  · exact h
  · rfl

theorem updateChosen_all (keyOf : AList JVal → Option JVal)
    (upd : JVal → AList JVal → AList JVal) (P : AList JVal → Prop)
    (hupd : ∀ cu cd, P cd → P (upd cu cd)) :
    ∀ csDs : List (AList JVal), (∀ cd ∈ csDs, P cd) →
      ∀ x ∈ updateChosen keyOf upd csDs, P x := by
  intro csDs
  induction csDs with
  | nil =>
      intro _ x hx
      simp [updateChosen, updateChosenGo] at hx
  | cons cd rest ih =>
      intro hall x hx
      have hrest : ∀ c ∈ rest, P c := fun c hc => hall c (by simp [hc])
      have htl : ∀ y, y ∈ (updateChosenGo keyOf upd rest).2 → P y :=
        fun y hy => ih hrest y hy
      unfold updateChosen updateChosenGo at hx
      simp only [] at hx
      rcases hk : keyOf cd with _ | cu
      · simp only [hk] at hx
        rcases List.mem_cons.mp hx with h1 | h1
        · exact h1 ▸ hall cd (by simp)
        · exact htl x h1
      · simp only [hk] at hx
        by_cases hseen : (updateChosenGo keyOf upd rest).1.any
            (fun s => jEq s cu) = true
        · rw [if_pos hseen] at hx
          rcases List.mem_cons.mp hx with h1 | h1
          · exact h1 ▸ hall cd (by simp)
          · exact htl x h1
        · rw [if_neg hseen] at hx
          rcases List.mem_cons.mp hx with h1 | h1
          · exact h1 ▸ hupd cu cd (hall cd (by simp))
          · exact htl x h1

theorem isErrRes_env_false (e : Env0) (h : e.ok ≠ some false) :
    isErrRes (.env e) = false := by
  obtain ⟨o, s, so, rq, rs, su⟩ := e
  rcases o with _ | b
  · rfl
  · cases b
    · exact absurd rfl h
    · rfl

theorem prepareCached_ok (c : Env0) : (prepareCached c).ok = c.ok := rfl

theorem prepareCached_response (c : Env0) :
    (prepareCached c).response = c.response := rfl

theorem prepareCached_subs (c : Env0) : (prepareCached c).subs = c.subs := rfl

theorem prepareCached_request (c : Env0) (ri : ReqInfo)
    (h : c.request = some ri) : (prepareCached c).request = some ri := by
  unfold prepareCached
  rw [h]
  rfl

theorem envWF_parts (e : Env0) (h : envWF e = true) :
    envReady e
    ∧ (∃ ri, e.request = some ri ∧ (∃ u, ri.url = some u) ∧ ri.headersOk = true)
    ∧ e.subs = none := by
  obtain ⟨o, s, so, rq, rs, su⟩ := e
  simp only [envWF, Env0.response, Env0.request, Env0.subs, Bool.and_eq_true] at h
  obtain ⟨⟨h1, h2⟩, h3⟩ := h
  refine ⟨?_, ?_, ?_⟩
  · rcases rs with _ | r
    · exact absurd h1 (by simp)
    · exact ⟨r, rfl, by simpa using h1⟩
  · rcases rq with _ | ri
    · exact absurd h2 (by simp)
    · obtain ⟨hu, hh⟩ : ri.url.isSome = true ∧ ri.headersOk = true := by
        simpa using h2
      exact ⟨ri, rfl, Option.isSome_iff_exists.mp hu, hh⟩
  · rcases su with _ | sl
    · rfl
    · exact absurd h3 (by simp)

theorem respWF_parts (resp : JVal) (h : respWF resp = true) :
    ∃ d fs, pyIndex resp "data" = some d
      ∧ pyIndex d "fieldsV2" = some (.arr fs)
      ∧ ∀ f ∈ fs, fieldOkB f = true := by
  unfold respWF at h
  rcases hd : pyIndex resp "data" with _ | d
  · rw [hd] at h
    exact Bool.noConfusion h
  · simp only [hd] at h
    rcases hf : pyIndex d "fieldsV2" with _ | fv
    · rw [hf] at h
      exact Bool.noConfusion h
    · simp only [hf] at h
      cases fv with
      | arr fs => exact ⟨d, fs, rfl, hf, by simpa [List.all_eq_true] using h⟩
      | null => exact Bool.noConfusion h
      | bool b => exact Bool.noConfusion h
      | str s2 => exact Bool.noConfusion h
      | num n => exact Bool.noConfusion h
      | obj kvs => exact Bool.noConfusion h

theorem fieldOkB_parts (f : JVal) (h : fieldOkB f = true) :
    ∃ kvs, f = .obj kvs ∧ (aget (aofList kvs) "uuid").isSome
      ∧ ∀ v, aget (aofList kvs) "cropSeasonsV2" = some v →
          ∃ l, v = .arr l ∧ ∀ cs ∈ l, seasonOkB cs = true := by
  cases f with
  | obj kvs =>
      simp only [fieldOkB, Bool.and_eq_true] at h
      refine ⟨kvs, rfl, h.1, ?_⟩
      intro v hv
      rw [hv] at h
      rcases h with ⟨_, h2⟩
      cases v with
      | arr css => exact ⟨css, rfl, by simpa [List.all_eq_true] using h2⟩
      | null => exact Bool.noConfusion h2
      | bool b => exact Bool.noConfusion h2
      | str s2 => exact Bool.noConfusion h2
      | num n => exact Bool.noConfusion h2
      | obj kvs2 => exact Bool.noConfusion h2
  | null => exact Bool.noConfusion h
  | bool b => exact Bool.noConfusion h
  | str s2 => exact Bool.noConfusion h
  | num n => exact Bool.noConfusion h
  | arr xs => exact Bool.noConfusion h

theorem seasonOkB_parts (cs : JVal) (h : seasonOkB cs = true) :
    ∃ ck, cs = .obj ck ∧ (aget (aofList ck) "uuid").isSome := by
  cases cs with
  | obj ck => exact ⟨ck, rfl, by simpa [seasonOkB] using h⟩
  | null => exact Bool.noConfusion h
  | bool b => exact Bool.noConfusion h
  | str s2 => exact Bool.noConfusion h
  | num n => exact Bool.noConfusion h
  | arr xs => exact Bool.noConfusion h

theorem jTruthy_obj_of_aget (kvs : List (String × JVal)) (k : String) (v : JVal)
    (h : aget (aofList kvs) k = some v) : jTruthy (.obj kvs) = true := by
  cases kvs with
  | nil => exact Option.noConfusion h
  | cons p rest => rfl

theorem cacheGuard_some (cacheLookup : String → Option Env0) (l : String)
    (c : Env0) (hc : cacheLookup l = some c) (hok : c.ok ≠ some false) :
    cacheGuard cacheLookup l = some (l, prepareCached c) := by
  unfold cacheGuard
  rw [hc]
  obtain ⟨o, s, so, rq, rs, su⟩ := c
  rcases o with _ | b
  · rfl
  · cases b
    · exact absurd rfl hok
    · rfl

theorem aget_preparedCache (req : SReq) (cacheLookup : String → Option Env0)
    (l : String) (e : Env0)
    (h : aget (preparedCache req cacheLookup) l = some e) :
    ∃ c, cacheLookup l = some c ∧ c.ok ≠ some false ∧ e = prepareCached c
      ∧ l ∈ applicableLabels req.includeTasks req.withSprayingsV2 := by
  refine keyedFold_const_values (cacheGuard cacheLookup)
    (fun k d => ∃ c, cacheLookup k = some c ∧ c.ok ≠ some false
      ∧ d = prepareCached c
      ∧ k ∈ applicableLabels req.includeTasks req.withSprayingsV2)
    (applicableLabels req.includeTasks req.withSprayingsV2) [] ?_ ?_ l e h
  · intro k d hk
    exact Option.noConfusion hk
  · intro x hx k d hg
    unfold cacheGuard at hg
    rcases hc : cacheLookup x with _ | c
    · rw [hc] at hg
      exact Option.noConfusion hg
    · rw [hc] at hg
      obtain ⟨o, s, so, rq, rs, su⟩ := c
      rcases o with _ | b
      · cases hg
        exact ⟨_, hc, by simp [Env0.ok], rfl, hx⟩
      · cases b
        · exact Option.noConfusion hg
        · cases hg
          exact ⟨_, hc, by simp [Env0.ok], rfl, hx⟩

theorem mem_akeys_preparedCache (req : SReq) (cacheLookup : String → Option Env0)
    (l : String) (c : Env0)
    (hl : l ∈ applicableLabels req.includeTasks req.withSprayingsV2)
    (hc : cacheLookup l = some c) (hok : c.ok ≠ some false) :
    l ∈ akeys (preparedCache req cacheLookup) := by
  rcases List.append_of_mem hl with ⟨l1, l2, hsplit⟩
  unfold preparedCache
  rw [hsplit]
  exact mem_akeys_keyedFold_of_item (cacheGuard cacheLookup) (fun _ c => c)
    l1 l2 l [] l (prepareCached c) (cacheGuard_some cacheLookup l c hc hok)

theorem base_mem_applicable (it ws : Bool) :
    "base" ∈ applicableLabels it ws := by
  cases it <;> cases ws <;> decide

theorem insights_mem_applicable (it ws : Bool) :
    "insights" ∈ applicableLabels it ws := by
  cases it <;> cases ws <;> decide

theorem seasonOkB_obj (cd : AList JVal) (hnd : (akeys cd).Nodup)
    (hu : (aget cd "uuid").isSome) : seasonOkB (.obj cd) = true := by
  show (aget (aofList cd) "uuid").isSome = true
  rw [aofList_id_of_nodup cd hnd]
  exact hu

theorem mcpUpd_preserves (exDs : List (AList JVal)) (cu : JVal) :
    ∀ cd, (akeys cd).Nodup ∧ (aget cd "uuid").isSome →
      (akeys (exDs.foldl (fun acc ud =>
          let uu := pyGetV ud "uuid"
          if jTruthy uu && jEq uu cu then aunion acc ud else acc) cd)).Nodup
      ∧ (aget (exDs.foldl (fun acc ud =>
          let uu := pyGetV ud "uuid"
          if jTruthy uu && jEq uu cu then aunion acc ud else acc) cd) "uuid").isSome := by
  induction exDs with
  | nil => intro cd h; exact h
  | cons ud rest ih =>
      intro cd h
      rw [List.foldl_cons]
      simp only []
      by_cases hc : (jTruthy (pyGetV ud "uuid") && jEq (pyGetV ud "uuid") cu) = true
      · rw [if_pos hc]
        exact ih (aunion cd ud)
          ⟨nodup_akeys_aunion cd ud h.1, aget_isSome_aunion cd ud "uuid" h.2⟩
      · rw [if_neg hc]
        exact ih cd h

theorem mcpUpdateField_ok (exDs csDs : List (AList JVal))
    (h : ∀ cd ∈ csDs, (akeys cd).Nodup ∧ (aget cd "uuid").isSome) :
    ∀ x ∈ mcpUpdateField exDs csDs,
      (akeys x).Nodup ∧ (aget x "uuid").isSome := by
  unfold mcpUpdateField
  exact updateChosen_all _ _ _ (fun cu cd hcd => mcpUpd_preserves exDs cu cd hcd)
    csDs h

theorem fieldOkB_update (kvs : List (String × JVal)) (newCs : List (AList JVal))
    (hu : (aget (aofList kvs) "uuid").isSome)
    (hall : ∀ cd ∈ newCs, (akeys cd).Nodup ∧ (aget cd "uuid").isSome) :
    fieldOkB (.obj (ains (aofList kvs) "cropSeasonsV2"
      (.arr (newCs.map .obj)))) = true := by
  have hnd : (akeys (ains (aofList kvs) "cropSeasonsV2"
      (.arr (newCs.map .obj)))).Nodup :=
    nodup_akeys_ains _ _ _ (nodup_akeys_aofList kvs)
  show ((aget (aofList (ains (aofList kvs) "cropSeasonsV2" _)) "uuid").isSome
      && _) = true
  rw [aofList_id_of_nodup _ hnd]
  rw [Bool.and_eq_true]
  constructor
  · rw [aget_ains, if_neg (by decide)]
    exact hu
  · rw [aget_ains, if_pos rfl]
    rw [List.all_eq_true]
    intro cs hcs
    rcases List.mem_map.mp hcs with ⟨cd, hcd, hcseq⟩
    rw [← hcseq]
    exact seasonOkB_obj cd (hall cd hcd).1 (hall cd hcd).2

theorem jainsFold_values (S : List (AList JVal)) :
    ∀ (l : List (AList JVal)) (m : List (JVal × AList JVal)),
      (∀ p ∈ m, p.2 ∈ S) → (∀ d ∈ l, d ∈ S) →
      ∀ p ∈ l.foldl (fun m d =>
          let u := pyGetV d "uuid"
          if jTruthy u then jains m u d else m) m, p.2 ∈ S := by
  intro l
  induction l with
  | nil => intro m hm _ p hp; exact hm p hp
  | cons d rest ih =>
      intro m hm hl p hp
      rw [List.foldl_cons] at hp
      have hrest : ∀ x ∈ rest, x ∈ S := fun x hx => hl x (by simp [hx])
      simp only [] at hp
      by_cases ht : jTruthy (pyGetV d "uuid") = true
      · rw [if_pos ht] at hp
        refine ih _ ?_ hrest p hp
        intro q hq
        rcases mem_jains m (pyGetV d "uuid") d q hq with h1 | h1
        · rw [h1]
          exact hl d (by simp)
        · exact hm q h1
      · rw [if_neg ht] at hp
        exact ih m hm hrest p hp

theorem withResponse_response (e : Env0) (r : JVal) :
    (e.withResponse r).response = some r := by
  obtain ⟨o, s, so, rq, rs, su⟩ := e
  rfl

theorem respWF_jSet (respC dC fv : JVal) (nf : List JVal)
    (hd : pyIndex respC "data" = some dC)
    (hf : pyIndex dC "fieldsV2" = some fv)
    (hall : ∀ f ∈ nf, fieldOkB f = true) :
    respWF (jSet respC "data" (jSet dC "fieldsV2" (.arr nf))) = true := by
  cases respC with
  | obj kvs =>
      cases dC with
      | obj kvs2 =>
          unfold respWF jSet pyIndex
          simp only []
          have h1 : aofList (ains (aofList kvs) "data"
              (.obj (ains (aofList kvs2) "fieldsV2" (.arr nf))))
              = ains (aofList kvs) "data"
                  (.obj (ains (aofList kvs2) "fieldsV2" (.arr nf))) :=
            aofList_id_of_nodup _ (nodup_akeys_ains _ _ _ (nodup_akeys_aofList kvs))
          rw [h1, aget_ains, if_pos rfl]
          have h2 : aofList (ains (aofList kvs2) "fieldsV2" (.arr nf))
              = ains (aofList kvs2) "fieldsV2" (.arr nf) :=
            aofList_id_of_nodup _ (nodup_akeys_ains _ _ _ (nodup_akeys_aofList kvs2))
          simp only []
          rw [h2, aget_ains, if_pos rfl]
          simp only []
          rw [List.all_eq_true]
          exact hall
      | null => exact Option.noConfusion hf
      | bool b => exact Option.noConfusion hf
      | str s2 => exact Option.noConfusion hf
      | num n => exact Option.noConfusion hf
      | arr xs => exact Option.noConfusion hf
  | null => exact Option.noConfusion hd
  | bool b => exact Option.noConfusion hd
  | str s2 => exact Option.noConfusion hd
  | num n => exact Option.noConfusion hd
  | arr xs => exact Option.noConfusion hd

theorem uuidMapOf_values (ds : List (AList JVal)) :
    ∀ u d, jaget (uuidMapOf ds) u = some d → d ∈ ds := by
  intro u d hjag
  obtain ⟨k, hk⟩ := jaget_mem _ u d hjag
  exact jainsFold_values ds ds [] (by intro p hp; simp at hp) (fun x hx => hx)
    (k, d) hk

theorem objDict_isSome_of_seasonOk (cs : JVal) (h : seasonOkB cs = true) :
    (objDict cs).isSome := by
  obtain ⟨ck, rfl, _⟩ := seasonOkB_parts cs h
  rfl

theorem objDict_mem_props (l : List JVal) (ds : List (AList JVal))
    (hl : ∀ cs ∈ l, seasonOkB cs = true) (h : omap objDict l = some ds) :
    ∀ cd ∈ ds, (akeys cd).Nodup ∧ (aget cd "uuid").isSome := by
  intro cd hcd
  obtain ⟨cs, hcs, hcseq⟩ := omap_mem objDict l ds h cd hcd
  obtain ⟨ck, rfl, hu⟩ := seasonOkB_parts cs (hl cs hcs)
  have hdeq : aofList ck = cd := Option.some.inj hcseq
  exact hdeq ▸ ⟨nodup_akeys_aofList ck, hu⟩

theorem mcpField_phi_ok (extraMap : List (JVal × AList JVal)) (f : JVal)
    (hok : fieldOkB f = true)
    (hvals : ∀ u d, jaget extraMap u = some d →
        (akeys d).Nodup ∧ ∀ v, aget d "cropSeasonsV2" = some v →
          ∃ l, v = .arr l ∧ ∀ cs ∈ l, seasonOkB cs = true) :
    ∃ g, mcpFieldPhi extraMap f = some g ∧ fieldOkB g = true := by
  obtain ⟨kvs, rfl, hu, hcs⟩ := fieldOkB_parts f hok
  unfold mcpFieldPhi
  simp only []
  by_cases hT : jTruthy (pyGetV (aofList kvs) "uuid") = true
  · rw [if_neg (by simp [hT])]
    rcases hjg : jaget extraMap (pyGetV (aofList kvs) "uuid") with _ | exD
    · exact ⟨_, rfl, hok⟩
    · obtain ⟨hndE, hcsE⟩ := hvals _ _ hjg
      rcases hcc : aget (aofList kvs) "cropSeasonsV2" with _ | v
      · rcases hec : aget exD "cropSeasonsV2" with _ | v2
        · simp only [hcc, hec, Option.getD_none, omap]
          exact ⟨_, rfl, hok⟩
        · obtain ⟨l2, rfl, hall2⟩ := hcsE v2 hec
          obtain ⟨exDs2, hex2⟩ := omap_isSome objDict l2
            (fun cs hm => objDict_isSome_of_seasonOk cs (hall2 cs hm))
          simp only [hcc, hec, Option.getD_none, Option.getD_some, omap, hex2]
          exact ⟨_, rfl, hok⟩
      · obtain ⟨css, rfl, hallc⟩ := hcs v hcc
        obtain ⟨coreDs, hcds⟩ := omap_isSome objDict css
          (fun cs hm => objDict_isSome_of_seasonOk cs (hallc cs hm))
        have hcoreprops := objDict_mem_props css coreDs hallc hcds
        rcases hec : aget exD "cropSeasonsV2" with _ | v2
        · simp only [hcc, hec, Option.getD_none, Option.getD_some, omap, hcds]
          exact ⟨_, rfl, fieldOkB_update kvs _ hu
            (mcpUpdateField_ok [] coreDs hcoreprops)⟩
        · obtain ⟨l2, rfl, hall2⟩ := hcsE v2 hec
          obtain ⟨exDs2, hex2⟩ := omap_isSome objDict l2
            (fun cs hm => objDict_isSome_of_seasonOk cs (hall2 cs hm))
          simp only [hcc, hec, Option.getD_some, omap, hcds, hex2]
          exact ⟨_, rfl, fieldOkB_update kvs _ hu
            (mcpUpdateField_ok exDs2 coreDs hcoreprops)⟩
  · have hT2 : jTruthy (pyGetV (aofList kvs) "uuid") = false := by
      revert hT
      cases jTruthy (pyGetV (aofList kvs) "uuid") <;> simp
    rw [if_pos (by rw [hT2]; rfl)]
    exact ⟨_, rfl, hok⟩

theorem mcpFields_ok (coreFields extraFields : List JVal)
    (hc : ∀ f ∈ coreFields, fieldOkB f = true)
    (he : ∀ f ∈ extraFields, fieldOkB f = true) :
    ∃ nf, mcpFields coreFields extraFields = some nf
      ∧ ∀ f ∈ nf, fieldOkB f = true := by
  obtain ⟨extraDs, hExtraDs⟩ := omap_isSome objDict extraFields (fun f hf => by
    obtain ⟨kvs, rfl, _⟩ := fieldOkB_parts f (he f hf)
    rfl)
  have hexels : ∀ d ∈ extraDs, (akeys d).Nodup
      ∧ ∀ v, aget d "cropSeasonsV2" = some v →
          ∃ l, v = .arr l ∧ ∀ cs ∈ l, seasonOkB cs = true := by
    intro d hd
    obtain ⟨f, hf, hfd⟩ := omap_mem objDict extraFields extraDs hExtraDs d hd
    obtain ⟨kvs, rfl, _, hcsf⟩ := fieldOkB_parts f (he f hf)
    have hdeq : aofList kvs = d := Option.some.inj hfd
    exact hdeq ▸ ⟨nodup_akeys_aofList kvs, hcsf⟩
  have hvals : ∀ u d, jaget (uuidMapOf extraDs) u = some d →
      (akeys d).Nodup ∧ ∀ v, aget d "cropSeasonsV2" = some v →
          ∃ l, v = .arr l ∧ ∀ cs ∈ l, seasonOkB cs = true :=
    fun u d hjag => hexels d (uuidMapOf_values extraDs u d hjag)
  obtain ⟨nf, hnf⟩ := omap_isSome (mcpFieldPhi (uuidMapOf extraDs)) coreFields
    (fun f hf => by
      obtain ⟨g, hg, _⟩ := mcpField_phi_ok (uuidMapOf extraDs) f (hc f hf) hvals
      rw [hg]
      rfl)
  refine ⟨nf, ?_, ?_⟩
  · unfold mcpFields
    rw [hExtraDs]
    exact hnf
  · intro g hg
    obtain ⟨f, hf, hfg⟩ := omap_mem _ coreFields nf hnf g hg
    obtain ⟨g2, hg2, hg2ok⟩ := mcpField_phi_ok (uuidMapOf extraDs) f (hc f hf) hvals
    have hgg : g2 = g := Option.some.inj (hg2.symm.trans hfg)
    exact hgg ▸ hg2ok

theorem mergeCropseasonPayload_ready (core extra : Option Env0)
    (hc : optReady core) (he : optReady extra) :
    optReady (mergeCropseasonPayload core extra) := by
  intro e hres
  unfold mergeCropseasonPayload at hres
  rcases extra with _ | ex
  · exact hc e hres
  · rcases core with _ | co
    · cases hres
      exact he _ rfl
    · obtain ⟨rc, hrc, hwfc⟩ := hc co rfl
      obtain ⟨re, hre, hwfe⟩ := he ex rfl
      obtain ⟨dC, fsC, hdC, hfC, hallC⟩ := respWF_parts rc hwfc
      obtain ⟨dE, fsE, hdE, hfE, hallE⟩ := respWF_parts re hwfe
      obtain ⟨nf, hnf, hnfok⟩ := mcpFields_ok fsC fsE hallC hallE
      simp only [hrc, hdC, hfC, hre, hdE, hfE, hnf] at hres
      cases hres
      refine ⟨jSet rc "data" (jSet dC "fieldsV2" (.arr nf)),
        withResponse_response co _, ?_⟩
      exact respWF_jSet rc dC (.arr fsC) nf hdC hfC hnfok

theorem mfdUpd_preserves (upDs : List (AList JVal)) (cu : JVal) :
    ∀ cd, (akeys cd).Nodup ∧ (aget cd "uuid").isSome →
      (akeys (upDs.foldl (fun acc ud =>
          match aget ud "uuid" with
          | some uu => if jEq uu cu then aunion acc ud else acc
          | none => acc) cd)).Nodup
      ∧ (aget (upDs.foldl (fun acc ud =>
          match aget ud "uuid" with
          | some uu => if jEq uu cu then aunion acc ud else acc
          | none => acc) cd) "uuid").isSome := by
  induction upDs with
  | nil => intro cd h; exact h
  | cons ud rest ih =>
      intro cd h
      rcases hud : aget ud "uuid" with _ | uu
      · rw [List.foldl_cons]
        simp only [hud]
        exact ih cd h
      · by_cases hjq : jEq uu cu = true
        · rw [List.foldl_cons]
          simp only [hud]
          rw [if_pos hjq]
          exact ih (aunion cd ud)
            ⟨nodup_akeys_aunion cd ud h.1, aget_isSome_aunion cd ud "uuid" h.2⟩
        · rw [List.foldl_cons]
          simp only [hud]
          rw [if_neg hjq]
          exact ih cd h

theorem mfdFieldStep_ok (mm : List (JVal × AList JVal)) (fu : JVal)
    (hm : mapOk mm) (hf : fieldOkB fu = true) :
    ∃ mm2, mfdFieldStep mm fu = some mm2 ∧ mapOk mm2 := by
  obtain ⟨kvs, rfl, hu, hcs⟩ := fieldOkB_parts fu hf
  obtain ⟨uval, huval⟩ := Option.isSome_iff_exists.mp hu
  rcases hjg : jaget mm uval with _ | coreD
  · unfold mfdFieldStep
    simp only [huval, hjg]
    exact ⟨mm, rfl, hm⟩
  · have hcoreok : coreEntryOk coreD := by
      obtain ⟨k, hk⟩ := jaget_mem mm uval coreD hjg
      exact hm (k, coreD) hk
    by_cases hcond : ((aget (aofList kvs) "cropSeasonsV2").isSome
        && jTruthy (pyGetV (aofList kvs) "cropSeasonsV2")) = true
    · have hcond2 := hcond
      rw [Bool.and_eq_true] at hcond2
      obtain ⟨v0, hv0⟩ := Option.isSome_iff_exists.mp hcond2.1
      have hpg : pyGetV (aofList kvs) "cropSeasonsV2" = v0 := by
        unfold pyGetV
        rw [hv0]
        rfl
      obtain ⟨css, hveq, hallc⟩ := hcs v0 hv0
      subst hveq
      obtain ⟨upDs, hup⟩ := omap_isSome objDict css
        (fun cs hm2 => objDict_isSome_of_seasonOk cs (hallc cs hm2))
      have hupprops := objDict_mem_props css upDs hallc hup
      obtain ⟨ws2, hupu⟩ := omap_isSome (fun ud => aget ud "uuid") upDs
        (fun ud hud => (hupprops ud hud).2)
      rcases hcc2 : aget coreD "cropSeasonsV2" with _ | v
      · unfold mfdFieldStep
        simp only [huval, hjg]
        rw [if_pos hcond]
        simp only [hcc2, Option.getD_none, omap, hpg, hup, hupu]
        exact ⟨mm, rfl, hm⟩
      · obtain ⟨l, hveq2, hallcore⟩ := hcoreok.2 v hcc2
        subst hveq2
        obtain ⟨coreDs, hcds⟩ := omap_isSome objDict l
          (fun cs hm2 => objDict_isSome_of_seasonOk cs (hallcore cs hm2))
        have hcoreprops := objDict_mem_props l coreDs hallcore hcds
        obtain ⟨ws1, hcdsu⟩ := omap_isSome (fun cd => aget cd "uuid") coreDs
          (fun cd hcd => (hcoreprops cd hcd).2)
        unfold mfdFieldStep
        simp only [huval, hjg]
        rw [if_pos hcond]
        simp only [hcc2, Option.getD_some, hcds, hcdsu, hpg, hup, hupu]
        refine ⟨_, rfl, ?_⟩
        intro p hp
        rcases mem_jains mm uval _ p hp with h1 | h1
        · rw [h1]
          refine ⟨nodup_akeys_ains _ _ _ hcoreok.1, ?_⟩
          intro v hv
          rw [aget_ains, if_pos rfl] at hv
          cases hv
          refine ⟨_, rfl, ?_⟩
          intro cs hcsm
          rcases List.mem_map.mp hcsm with ⟨cd2, hcd2, hcseq⟩
          rw [← hcseq]
          have hprops := updateChosen_all (fun cd => aget cd "uuid") _
            (fun cd => (akeys cd).Nodup ∧ (aget cd "uuid").isSome)
            (fun cu cd hcd => mfdUpd_preserves upDs cu cd hcd)
            coreDs hcoreprops cd2 hcd2
          exact seasonOkB_obj cd2 hprops.1 hprops.2
        · exact hm p h1
    · unfold mfdFieldStep
      simp only [huval, hjg]
      rw [if_neg hcond]
      exact ⟨mm, rfl, hm⟩

theorem jainsFold_pairs_ok :
    ∀ (pairs : List (JVal × AList JVal)) (m : List (JVal × AList JVal)),
      mapOk m → (∀ p ∈ pairs, coreEntryOk p.2) →
      mapOk (pairs.foldl (fun m p => jains m p.1 p.2) m) := by
  intro pairs
  induction pairs with
  | nil => intro m hm _; exact hm
  | cons p0 rest ih =>
      intro m hm hall
      rw [List.foldl_cons]
      refine ih _ ?_ (fun q hq => hall q (by simp [hq]))
      intro q hq
      rcases mem_jains m p0.1 p0.2 q hq with h1 | h1
      · rw [h1]
        exact hall p0 (by simp)
      · exact hm q h1

theorem mfdApplySource_ok (m : List (JVal × AList JVal)) (src : Option JVal)
    (hs : ∀ v, src = some v → respWF v = true) (hm : mapOk m) :
    ∃ m2, mfdApplySource m src = some m2 ∧ mapOk m2 := by
  rcases src with _ | sv
  · exact ⟨m, rfl, hm⟩
  · have hwf := hs sv rfl
    obtain ⟨d, fs, hd, hf, hall⟩ := respWF_parts sv hwf
    cases sv with
    | obj kvs =>
        have hdg : aget (aofList kvs) "data" = some d := hd
        have htru : jTruthy (.obj kvs) = true := jTruthy_obj_of_aget kvs "data" d hdg
        have hpgv : pyGetV (aofList kvs) "data" = d := by
          unfold pyGetV
          rw [hdg]
          rfl
        cases d with
        | obj kvs2 =>
            have hfg : aget (aofList kvs2) "fieldsV2" = some (.arr fs) := hf
            have htru2 : jTruthy (.obj kvs2) = true :=
              jTruthy_obj_of_aget kvs2 "fieldsV2" (.arr fs) hfg
            have hpgv2 : pyGetV (aofList kvs2) "fieldsV2" = .arr fs := by
              unfold pyGetV
              rw [hfg]
              rfl
            simp only [mfdApplySource]
            rw [if_neg (by simp [htru])]
            simp only [pyGetAttr, hpgv]
            rw [if_neg (by simp [htru2])]
            simp only [pyGetAttr, hpgv2]
            cases fs with
            | nil =>
                rw [if_pos (by rfl)]
                exact ⟨m, rfl, hm⟩
            | cons f0 fsr =>
                rw [if_neg (by simp [jTruthy])]
                exact ofoldl_ok mfdFieldStep mapOk (fun f => fieldOkB f = true)
                  (f0 :: fsr) hall
                  (fun b a hq hp => mfdFieldStep_ok b a hp hq) m hm
        | null => exact Option.noConfusion hf
        | bool b => exact Option.noConfusion hf
        | str s2 => exact Option.noConfusion hf
        | num n => exact Option.noConfusion hf
        | arr xs => exact Option.noConfusion hf
    | null => exact Option.noConfusion hd
    | bool b => exact Option.noConfusion hd
    | str s2 => exact Option.noConfusion hd
    | num n => exact Option.noConfusion hd
    | arr xs => exact Option.noConfusion hd

theorem mergeFieldsData_ok (baseData : JVal) (ins pred tasks : Option JVal)
    (enrich : AList JVal → AList JVal) (hb : respWF baseData = true)
    (hi : ∀ v, ins = some v → respWF v = true)
    (hp : ∀ v, pred = some v → respWF v = true)
    (ht : ∀ v, tasks = some v → respWF v = true) :
    ∃ F, mergeFieldsData baseData ins pred tasks enrich = .ok F := by
  obtain ⟨d, fs, hd, hf, hall⟩ := respWF_parts baseData hb
  unfold mergeFieldsData
  simp only [hd, hf]
  obtain ⟨pairs, hpairs⟩ := omap_isSome uuidPairOf fs (fun f hfm => by
    obtain ⟨kvs, rfl, hu, _⟩ := fieldOkB_parts f (hall f hfm)
    obtain ⟨u, hu2⟩ := Option.isSome_iff_exists.mp hu
    simp only [uuidPairOf, hu2]
    rfl)
  have hpairsok : ∀ p ∈ pairs, coreEntryOk p.2 := by
    intro p hpm
    obtain ⟨f, hfm, hfp⟩ := omap_mem uuidPairOf fs pairs hpairs p hpm
    obtain ⟨kvs, rfl, hu, hcsf⟩ := fieldOkB_parts f (hall f hfm)
    obtain ⟨u, hu2⟩ := Option.isSome_iff_exists.mp hu
    simp only [uuidPairOf, hu2] at hfp
    have hpe : (u, aofList kvs) = p := Option.some.inj hfp
    rw [← hpe]
    exact ⟨nodup_akeys_aofList kvs, hcsf⟩
  obtain ⟨m2, hof, _⟩ := ofoldl_ok mfdApplySource mapOk
    (fun src => ∀ v, src = some v → respWF v = true) [ins, pred, tasks]
    (by
      intro a ha
      rcases List.mem_cons.mp ha with h1 | h1
      · exact h1 ▸ hi
      · rcases List.mem_cons.mp h1 with h2 | h2
        · exact h2 ▸ hp
        · rcases List.mem_cons.mp h2 with h3 | h3
          · exact h3 ▸ ht
          · simp at h3)
    (fun b a hq hmb => mfdApplySource_ok b a hq hmb)
    (pairs.foldl (fun m p => jains m p.1 p.2) [])
    (jainsFold_pairs_ok pairs [] (by intro p hpm; simp at hpm) hpairsok)
  simp only [hpairs, hof]
  exact ⟨_, rfl⟩

theorem filter_false_nil {α : Type} (p : α → Bool) :
    ∀ l : List α, (∀ x ∈ l, p x = false) → l.filter p = [] := by
  intro l
  induction l with
  | nil => intro _; rfl
  | cons x rest ih =>
      intro h
      simp only [List.filter, h x (by simp)]
      exact ih (fun y hy => h y (by simp [hy]))

theorem fetchPlanLabels_all_cached (req : SReq) (pc : AList Env0)
    (h : ∀ l ∈ applicableLabels req.includeTasks req.withSprayingsV2,
        l ∈ akeys pc) :
    fetchPlanLabels req pc = [] := by
  unfold fetchPlanLabels
  rw [if_pos (h "base" (base_mem_applicable _ _)), List.nil_append]
  apply filter_false_nil
  intro x hx
  have hc : (akeys pc).contains x = true :=
    List.elem_eq_true_of_mem (h x hx)
  rw [hc]
  rfl

theorem subsFill_warm (req : SReq) (cacheLookup : String → Option Env0)
    (hwarm : ∀ l ∈ applicableLabels req.includeTasks req.withSprayingsV2,
        ∃ c, cacheLookup l = some c ∧ c.ok ≠ some false ∧ envWF c = true) :
    subsFill req cacheLookup (preparedCache req cacheLookup)
      = preparedCache req cacheLookup := by
  unfold subsFill
  rcases ht : aget (preparedCache req cacheLookup) "tasks" with _ | e
  · simp only [ht]
    by_cases happ : "tasks" ∈ applicableLabels req.includeTasks req.withSprayingsV2
    · rw [if_pos happ]
      obtain ⟨c, hc, hok, hwf⟩ := hwarm "tasks" happ
      rw [hc]
      simp only [(envWF_parts c hwf).2.2]
    · rw [if_neg happ]
  · obtain ⟨c, hc, hok, hep, happ⟩ := aget_preparedCache req cacheLookup "tasks" e ht
    have hsub : e.subs = none := by
      obtain ⟨c2, hc2, _, hwf2⟩ := hwarm "tasks" happ
      have hcc : c2 = c := Option.some.inj (hc2.symm.trans hc)
      rw [hep, prepareCached_subs]
      exact (envWF_parts c (hcc ▸ hwf2)).2.2
    simp only [ht, hsub]

theorem aget_preparedCache_warm (req : SReq) (cacheLookup : String → Option Env0)
    (l : String) (c : Env0)
    (hl : l ∈ applicableLabels req.includeTasks req.withSprayingsV2)
    (hc : cacheLookup l = some c) (hok : c.ok ≠ some false) :
    aget (preparedCache req cacheLookup) l = some (prepareCached c) := by
  have hmem := mem_akeys_preparedCache req cacheLookup l c hl hc hok
  obtain ⟨e, he⟩ := Option.isSome_iff_exists.mp
    (aget_isSome_of_mem_akeys (preparedCache req cacheLookup) l hmem)
  obtain ⟨c2, hc2, _, hep, _⟩ := aget_preparedCache req cacheLookup l e he
  have hcc : c2 = c := Option.some.inj (hc2.symm.trans hc)
  rw [he, hep, hcc]

theorem singleFetchStage_no_plan (req : SReq) (pc : AList Env0)
    (callEnv : String → CallSpec) (baseRetrySpec : CallSpec)
    (insightsRetryEnv : Nat → CallOut) (bt ot : Int)
    (hplan : fetchPlanLabels req pc = []) :
    singleFetchStage req pc callEnv baseRetrySpec insightsRetryEnv bt ot
      = ([], []) := by
  unfold singleFetchStage
  simp only [hplan, List.isEmpty_nil, if_true, aget, isErrOpt, Bool.and_false,
    Bool.if_false_right]
  rfl

theorem singleController_pass (req : SReq) (cacheLookup : String → Option Env0)
    (callEnv : String → CallSpec) (baseRetrySpec : CallSpec)
    (retryEnv : Nat → CallOut) (bt ot : Int) (enrich : AList JVal → AList JVal)
    (e : Env0)
    (hb : aget (combinedMap (pcOf req cacheLookup)
        (fetchOf req cacheLookup callEnv baseRetrySpec retryEnv bt ot).1) "base"
      = some (.env e))
    (hok : e.ok ≠ some false) :
    singleController req cacheLookup callEnv baseRetrySpec retryEnv bt ot enrich
      = (singlePost req (pcOf req cacheLookup)
          (fetchOf req cacheLookup callEnv baseRetrySpec retryEnv bt ot).1
          (fetchPlanLabels req (pcOf req cacheLookup)) enrich,
        (fetchOf req cacheLookup callEnv baseRetrySpec retryEnv bt ot).2) := by
  unfold singleController
  simp only []
  unfold pcOf fetchOf at hb ⊢
  unfold pcOf at hb ⊢
  rw [hb]
  obtain ⟨o, s, so, rq, rs, su⟩ := e
  rcases o with _ | b
  · rfl
  · cases b
    · exact absurd rfl hok
    · rfl

theorem candValid_some_inv (pc : AList Env0) (l : String) (e : Env0)
    (h : candValid pc ([] : AList FetchRes) l = some e) :
    aget pc l = some e := by
  unfold candValid candOf at h
  rcases hg : aget pc l with _ | e2
  · simp only [hg, aget] at h
    exact h
  · simp only [hg] at h
    obtain ⟨o, s, so, rq, rs, su⟩ := e2
    rcases o with _ | b
    · cases h
      rfl
    · cases b
      · exact Option.noConfusion h
      · cases h
        rfl

theorem candRaw_pc (pc : AList Env0) (fetched : AList FetchRes) (l : String)
    (e : Env0) (h : aget pc l = some e) :
    candRaw pc fetched l = some e := by
  simp [candRaw, candOf, h]

theorem subsReuse_no_subs (b i p t : Option Env0)
    (h : ∀ e, t = some e → e.subs = none) :
    subsReuse b i p t = (b, i, p, t) := by
  rcases t with _ | e
  · rfl
  · simp only [subsReuse, h e rfl]

theorem optRespOf_ready (o : Option Env0) (ho : optReady o) :
    ∃ j, optRespOf o = some j ∧ ∀ v, j = some v → respWF v = true := by
  rcases o with _ | e
  · exact ⟨none, rfl, fun v hv => Option.noConfusion hv⟩
  · obtain ⟨r, hr, hwf⟩ := ho e rfl
    refine ⟨some r, ?_, ?_⟩
    · simp only [optRespOf, hr]
    · intro v hv
      cases hv
      exact hwf

theorem singleWarnings_clean (req : SReq) (fm : AList FetchRes)
    (a b c d e f : Option Env0)
    (h : ∀ p ∈ fm, isErrRes p.2 = false) :
    singleWarnings req fm a b c d e f = [] := by
  unfold singleWarnings
  simp only []
  rw [filter_false_nil _ fm (fun p hp => by rw [h p hp]; rfl)]
  rfl

theorem singlePost_eval (req : SReq) (pc : AList Env0)
    (enrich : AList JVal → AList JVal) (eB : Env0)
    (hB : candRaw pc ([] : AList FetchRes) "base" = some eB)
    (hTsubs : ∀ t, candValid pc ([] : AList FetchRes) "tasks" = some t →
        t.subs = none)
    (hwarns : singleWarnings req (combinedMap pc [])
        (candValid pc [] "insights") (candValid pc [] "predictions")
        (candValid pc [] "tasks") (candValid pc [] "tasks_sprayings")
        (candValid pc [] "risk1") (candValid pc [] "risk2") = [])
    (rB : JVal) (hBresp : eB.response = some rB)
    (riB : ReqInfo) (hBreq : eB.request = some riB)
    (uB : String) (huB : riB.url = some uB) (hhdr : riB.headersOk = true)
    (insJ predJ tasksJ : Option JVal)
    (hInsJ : optRespOf (candValid pc [] "insights") = some insJ)
    (hPredJ : optRespOf (candValid pc [] "predictions") = some predJ)
    (hTmJ : optRespOf (mergeCropseasonPayload (mergeCropseasonPayload
        (mergeCropseasonPayload (candValid pc [] "tasks")
          (candValid pc [] "tasks_sprayings"))
        (candValid pc [] "risk1")) (candValid pc [] "risk2")) = some tasksJ)
    (F : List (AList JVal))
    (hF : mergeFieldsData rB insJ predJ tasksJ enrich = .ok F) :
    singlePost req pc [] [] enrich
      = .success { ok := true, status := 200, source := "cache",
                   fields := F, warnings := [] } := by
  have hfourEq : subsReuse (candRaw pc [] "base") (candValid pc [] "insights")
      (candValid pc [] "predictions") (candValid pc [] "tasks")
      = (some eB, candValid pc [] "insights", candValid pc [] "predictions",
          candValid pc [] "tasks") := by
    rw [hB]
    exact subsReuse_no_subs _ _ _ _ hTsubs
  unfold singlePost
  simp only [hfourEq, hwarns, hBresp, hInsJ, hPredJ, hTmJ, hF, hBreq, huB, hhdr]
  rfl

/-- C8: warm-cache short-circuit.  If the cache holds, for every
applicable sub-query label, a well-formed envelope whose ok is not
False, the single pipeline issues zero upstream calls and succeeds with
ok true, status 200 and source "cache". -/
theorem warm_cache_zero_calls (req : SReq) (cacheLookup : String → Option Env0)
    (callEnv : String → CallSpec) (baseRetrySpec : CallSpec)
    (retryEnv : Nat → CallOut) (bt ot : Int) (enrich : AList JVal → AList JVal)
    (hwarm : ∀ l ∈ applicableLabels req.includeTasks req.withSprayingsV2,
        ∃ c, cacheLookup l = some c ∧ c.ok ≠ some false ∧ envWF c = true) :
    ∃ out, singleController req cacheLookup callEnv baseRetrySpec retryEnv
        bt ot enrich = (.success out, [])
      ∧ out.source = "cache" ∧ out.ok = true ∧ out.status = 200 := by
  have hpcOf : pcOf req cacheLookup = preparedCache req cacheLookup :=
    subsFill_warm req cacheLookup hwarm
  have hkeys : ∀ l ∈ applicableLabels req.includeTasks req.withSprayingsV2,
      l ∈ akeys (preparedCache req cacheLookup) := by
    intro l hl
    obtain ⟨c, hc, hok, _⟩ := hwarm l hl
    exact mem_akeys_preparedCache req cacheLookup l c hl hc hok
  have hplan : fetchPlanLabels req (preparedCache req cacheLookup) = [] :=
    fetchPlanLabels_all_cached req _ hkeys
  have hplan2 : fetchPlanLabels req (pcOf req cacheLookup) = [] := by
    rw [hpcOf]
    exact hplan
  have hfetch : fetchOf req cacheLookup callEnv baseRetrySpec retryEnv bt ot
      = ([], []) := by
    show singleFetchStage req (pcOf req cacheLookup) callEnv baseRetrySpec
      retryEnv bt ot = ([], [])
    rw [hpcOf]
    exact singleFetchStage_no_plan req _ callEnv baseRetrySpec retryEnv bt ot hplan
  obtain ⟨cB, hcB, hokB, hwfB⟩ := hwarm "base" (base_mem_applicable _ _)
  have hBpc : aget (preparedCache req cacheLookup) "base"
      = some (prepareCached cB) :=
    aget_preparedCache_warm req cacheLookup "base" cB (base_mem_applicable _ _)
      hcB hokB
  have hfm : aget (combinedMap (pcOf req cacheLookup)
      (fetchOf req cacheLookup callEnv baseRetrySpec retryEnv bt ot).1) "base"
      = some (.env (prepareCached cB)) := by
    rw [hfetch]
    show aget (combinedMap (pcOf req cacheLookup) []) "base" = _
    have hm : combinedMap (pcOf req cacheLookup) []
        = (pcOf req cacheLookup).map (fun p => (p.1, FetchRes.env p.2)) := rfl
    rw [hm, aget_map_pairs_all, hpcOf, hBpc]
    rfl
  have hctrl := singleController_pass req cacheLookup callEnv baseRetrySpec
    retryEnv bt ot enrich (prepareCached cB) hfm
    (by rw [prepareCached_ok]; exact hokB)
  -- evaluate the post-processing over the warm prepared cache
  have hready : ∀ l e, candValid (preparedCache req cacheLookup)
      ([] : AList FetchRes) l = some e →
      ∃ c, cacheLookup l = some c ∧ e = prepareCached c ∧ envWF c = true := by
    intro l e h
    have hag := candValid_some_inv _ l e h
    obtain ⟨c, hc, hok, hep, hl⟩ := aget_preparedCache req cacheLookup l e hag
    obtain ⟨c2, hc2, _, hwf2⟩ := hwarm l hl
    have hcc : c2 = c := Option.some.inj (hc2.symm.trans hc)
    exact ⟨c, hc, hep, hcc ▸ hwf2⟩
  have hreadyR : ∀ l, optReady (candValid (preparedCache req cacheLookup)
      ([] : AList FetchRes) l) := by
    intro l e h
    obtain ⟨c, _, hep, hwf⟩ := hready l e h
    obtain ⟨⟨r, hr, hrwf⟩, _, _⟩ := envWF_parts c hwf
    refine ⟨r, ?_, hrwf⟩
    rw [hep, prepareCached_response]
    exact hr
  have hTsubs : ∀ t, candValid (preparedCache req cacheLookup)
      ([] : AList FetchRes) "tasks" = some t → t.subs = none := by
    intro t h
    obtain ⟨c, _, hep, hwf⟩ := hready "tasks" t h
    rw [hep, prepareCached_subs]
    exact (envWF_parts c hwf).2.2
  have hclean : ∀ p ∈ combinedMap (preparedCache req cacheLookup)
      ([] : AList FetchRes), isErrRes p.2 = false := by
    intro p hp
    have hp2 : p ∈ (preparedCache req cacheLookup).map
        (fun q => (q.1, FetchRes.env q.2)) := hp
    obtain ⟨q, hq, hqe⟩ := List.mem_map.mp hp2
    have hnd : (akeys (preparedCache req cacheLookup)).Nodup :=
      nodup_akeys_keyedFold _ _ _ [] (by simp [akeys])
    have hag : aget (preparedCache req cacheLookup) q.1 = some q.2 :=
      aget_of_mem_nodup _ _ _ hnd (by simpa using hq)
    obtain ⟨c, hc, hok, hep, _⟩ := aget_preparedCache req cacheLookup q.1 q.2 hag
    rw [← hqe]
    show isErrRes (.env q.2) = false
    apply isErrRes_env_false
    rw [hep, prepareCached_ok]
    exact hok
  have hwarns := singleWarnings_clean req
    (combinedMap (preparedCache req cacheLookup) [])
    (candValid (preparedCache req cacheLookup) [] "insights")
    (candValid (preparedCache req cacheLookup) [] "predictions")
    (candValid (preparedCache req cacheLookup) [] "tasks")
    (candValid (preparedCache req cacheLookup) [] "tasks_sprayings")
    (candValid (preparedCache req cacheLookup) [] "risk1")
    (candValid (preparedCache req cacheLookup) [] "risk2") hclean
  obtain ⟨⟨rB, hrB, hrBwf⟩, ⟨riB, hriB, ⟨uB, huB⟩, hhdrB⟩, _⟩ :=
    envWF_parts cB hwfB
  have hBresp : (prepareCached cB).response = some rB := by
    rw [prepareCached_response]
    exact hrB
  have hBreq : (prepareCached cB).request = some riB :=
    prepareCached_request cB riB hriB
  obtain ⟨insJ, hInsJ, hInsWF⟩ := optRespOf_ready _ (hreadyR "insights")
  obtain ⟨predJ, hPredJ, hPredWF⟩ := optRespOf_ready _ (hreadyR "predictions")
  have hTmReady : optReady (mergeCropseasonPayload (mergeCropseasonPayload
      (mergeCropseasonPayload
        (candValid (preparedCache req cacheLookup) [] "tasks")
        (candValid (preparedCache req cacheLookup) [] "tasks_sprayings"))
      (candValid (preparedCache req cacheLookup) [] "risk1"))
      (candValid (preparedCache req cacheLookup) [] "risk2")) :=
    mergeCropseasonPayload_ready _ _
      (mergeCropseasonPayload_ready _ _
        (mergeCropseasonPayload_ready _ _ (hreadyR "tasks")
          (hreadyR "tasks_sprayings"))
        (hreadyR "risk1"))
      (hreadyR "risk2")
  obtain ⟨tasksJ, hTmJ, hTmWF⟩ := optRespOf_ready _ hTmReady
  obtain ⟨F, hF⟩ := mergeFieldsData_ok rB insJ predJ tasksJ enrich hrBwf
    hInsWF hPredWF hTmWF
  have hpost := singlePost_eval req (preparedCache req cacheLookup) enrich
    (prepareCached cB)
    (candRaw_pc _ _ "base" _ hBpc) hTsubs hwarns rB hBresp riB hBreq uB huB
    hhdrB insJ predJ tasksJ hInsJ hPredJ hTmJ F hF
  refine ⟨{ ok := true, status := 200, source := "cache",
            fields := F, warnings := [] }, ?_, rfl, rfl, rfl⟩
  rw [hctrl, hfetch, hplan2, hpcOf]
  rw [hpost]

theorem warm_cache_zero_calls_witness :
    ∃ out, singleController sReqA warmLookup callEnvRetBase baseRetryFix
        retryExc 100 100 id = (.success out, [])
      ∧ out.source = "cache" ∧ out.ok = true ∧ out.status = 200 :=
  warm_cache_zero_calls sReqA warmLookup callEnvRetBase baseRetryFix retryExc
    100 100 id (fun l _ => ⟨wfEnv, rfl, by decide, rfl⟩)

/-- C1 counterexample: in a run where both base and the risk sub-queries
fail, the error response's diagnostics dict covers only base, insights,
predictions and tasks — the risk1 outcome (an error) is absent, so the
diagnostics do not cover all sub-query outcomes. -/
theorem merge_precedence_witness :
    ∃ e, aget (mergeFieldsMap
        [JVal.arr ([] ++ JVal.obj [("uuid", .str "u"), ("x", .num 1), ("y", .num 2)] :: []),
         JVal.arr ([] ++ JVal.obj [("uuid", .str "u"), ("y", .num 3), ("z", .num 4)] :: [])])
        "u" = some e
      ∧ e ∈ mergeFieldsV2ByUuid
          [JVal.arr ([] ++ JVal.obj [("uuid", .str "u"), ("x", .num 1), ("y", .num 2)] :: []),
           JVal.arr ([] ++ JVal.obj [("uuid", .str "u"), ("y", .num 3), ("z", .num 4)] :: [])]
      ∧ ∀ k, ¬ k = csk →
          (∀ v, aget [("uuid", JVal.str "u"), ("y", JVal.num 3), ("z", JVal.num 4)] k
              = some v → aget e k = some v)
          ∧ (aget [("uuid", JVal.str "u"), ("y", JVal.num 3), ("z", JVal.num 4)] k = none →
              ∀ v, aget [("uuid", JVal.str "u"), ("x", JVal.num 1), ("y", JVal.num 2)] k
                = some v → aget e k = some v) :=
  merge_precedence_last_source_wins [] [] [] []
    (JVal.obj [("uuid", .str "u"), ("x", .num 1), ("y", .num 2)])
    (JVal.obj [("uuid", .str "u"), ("y", .num 3), ("z", .num 4)])
    "u"
    [("uuid", JVal.str "u"), ("x", JVal.num 1), ("y", JVal.num 2)]
    [("uuid", JVal.str "u"), ("y", JVal.num 3), ("z", JVal.num 4)]
    rfl rfl
    (fun f hf => absurd hf (by simp))
    (fun f hf => absurd hf (by simp))

theorem crop_season_witness :
    ∃ e, aget (mergeFieldsMap ([]
        ++ JVal.arr ([] ++ JVal.obj [("uuid", .str "u"),
            ("cropSeasonsV2", .arr [.obj [("uuid", .str "s")]])] :: [])
        :: [JVal.arr [.obj [("uuid", .str "u")]]])) "u" = some e
      ∧ "s" ∈ seasonUuids e
      ∧ e ∈ mergeFieldsV2ByUuid ([]
          ++ JVal.arr ([] ++ JVal.obj [("uuid", .str "u"),
              ("cropSeasonsV2", .arr [.obj [("uuid", .str "s")]])] :: [])
          :: [JVal.arr [.obj [("uuid", .str "u")]]]) :=
  crop_season_non_deletion [] [JVal.arr [.obj [("uuid", .str "u")]]] [] []
    (JVal.obj [("uuid", .str "u"),
      ("cropSeasonsV2", .arr [.obj [("uuid", .str "s")]])])
    "u"
    [("uuid", JVal.str "u"),
     ("cropSeasonsV2", JVal.arr [.obj [("uuid", .str "s")]])]
    "s" rfl (by decide)

theorem merge_idempotent_witness :
    mergeFieldsV2ByUuid [idemX, idemX] = mergeFieldsV2ByUuid [idemX] :=
  merge_idempotent idemX
    ⟨by decide, by
      intro f hf u fD hfd
      have hfe : f = JVal.obj [("uuid", .str "a"), ("x", .num 1)] := by
        simpa [idemX, listItems] using hf
      subst hfe
      have h2 : (some ("a", [("uuid", JVal.str "a"), ("x", JVal.num 1)])
          : Option (String × AList JVal)) = some (u, fD) := hfd
      have h3 := Option.some.inj h2
      have h4 : u = "a" := (congrArg Prod.fst h3).symm
      have h5 : fD = [("uuid", JVal.str "a"), ("x", JVal.num 1)] :=
        (congrArg Prod.snd h3).symm
      subst h4
      subst h5
      decide⟩

theorem merge_uuidless_witness :
    mergeFieldsV2ByUuid ([] ++ JVal.arr ([]
        ++ JVal.obj [("x", .num 1)] :: [JVal.obj [("uuid", .str "a")]]) :: [])
      = mergeFieldsV2ByUuid ([] ++ JVal.arr ([]
          ++ [JVal.obj [("uuid", .str "a")]]) :: [])
    ∧ ∀ ls : List JVal, ∀ e ∈ mergeFieldsV2ByUuid ls,
        ∃ w, aget e "uuid" = some w ∧ jTruthy w = true :=
  merge_uuidless_dropped_and_ignored [] [] [] [JVal.obj [("uuid", .str "a")]]
    (JVal.obj [("x", .num 1)]) rfl

theorem chunked_missing_reporting_witness :
    (chunkedOkBody envNoFields ["a"] false false 1 3).diagnostics.requestedFarmCount
        = (requestedOf ["a"]).length
    ∧ (chunkedOkBody envNoFields ["a"] false false 1 3).diagnostics.coveredFarmCount
        = (chunkedCovered envNoFields ["a"] 1 3).length
    ∧ (chunkedOkBody envNoFields ["a"] false false 1 3).diagnostics.missingFarmUuids
        = (chunkedMissing envNoFields ["a"] 1 3).take 100
    ∧ (∀ u ∈ requestedOf ["a"], u ∉ chunkedCovered envNoFields ["a"] 1 3 →
        u ∈ chunkedMissing envNoFields ["a"] 1 3)
    ∧ (chunkedMissing envNoFields ["a"] 1 3 ≠ [] →
        ChunkedWarn.missingFarms ((chunkedMissing envNoFields ["a"] 1 3).take 100)
          ∈ (chunkedOkBody envNoFields ["a"] false false 1 3).warnings) :=
  chunked_missing_reporting envNoFields ["a"] false false false 1 3
    (chunkedOkBody envNoFields ["a"] false false 1 3) rfl

theorem chunked_failure_semantics_witness :
    chunkedController envBoom ["a"] false false false 1 3
      = .err 502 (.allChunksFailed
          ((chunkedPhase envBoom ["a"] 1 3).failures.take 50)) :=
  (chunked_failure_semantics envBoom ["a"] false false 1 3).1 rfl false

theorem critical_diag_omits_risk_cex :
    aget (combinedMap (pcOf sReqA coldLookup)
        (fetchOf sReqA coldLookup callEnvBoom baseRetryFix retryExc 100 100).1)
        "risk1" = some (.excGeneral "upstream failed")
    ∧ (singleController sReqA coldLookup callEnvBoom baseRetryFix retryExc
        100 100 id).1
      = .raised 500 "combined_fields_failed"
          (singleDiag sReqA coldLookup callEnvBoom baseRetryFix retryExc 100 100)
    ∧ (singleDiag sReqA coldLookup callEnvBoom baseRetryFix retryExc 100 100).map
        Prod.fst = ["base", "insights", "predictions", "tasks"]
    ∧ "risk1" ∉ ["base", "insights", "predictions", "tasks"] :=
  ⟨rfl, rfl, rfl, by decide⟩

end XHF
